import Mathlib

/-!
Verification of the annotation parser of nvim-doc-tools (src/apidoc.py,
src/util.py).  The parser in the source is built from pyparsing combinators
with `ParserElement.setDefaultWhitespaceChars(" \t")`; the embedding below
models each combinator expression as a function from an input (a list of
characters, after tab expansion as performed by `parseString`) and a
position to an optional (matched canonical text, new position) pair,
following pyparsing's PEG-style semantics: ordered choice, greedy
repetition without backtracking into earlier elements, keyword boundary
checks, and explicit `White` capture.
-/

namespace NvimDocTools

/-! ### Character classes

`isSkipWs` is the configured default whitespace (" \t") that tokens skip
before matching; `isWhiteChar` is the match set of pyparsing `White()`
(" \t\r\n"); `isIdentChar` is `Keyword.identChars` (alphanums + "_$");
`isWordChar` models `\w` of the Python `re` module (ASCII range, which is
the range exercised by the grammar's inputs). -/

def isSkipWs (c : Char) : Bool := c = ' ' || c = '\t'

def isWhiteChar (c : Char) : Bool := c = ' ' || c = '\t' || c = '\r' || c = '\n'

def isAsciiAlpha (c : Char) : Bool := ('a' ≤ c && c ≤ 'z') || ('A' ≤ c && c ≤ 'Z')

def isAsciiDigit (c : Char) : Bool := '0' ≤ c && c ≤ '9'

def isAsciiAlphanum (c : Char) : Bool := isAsciiAlpha c || isAsciiDigit c

def isIdentChar (c : Char) : Bool := isAsciiAlphanum c || c = '_' || c = '$'

def isWordChar (c : Char) : Bool := isAsciiAlphanum c || c = '_'

/-- Length of the maximal prefix of characters satisfying `p`. -/
def takeCount (p : Char → Bool) : List Char → Nat
  | [] => 0
  | c :: rest => if p c then takeCount p rest + 1 else 0

/-- Length of the maximal run of characters satisfying `p` starting at `i`. -/
def runLen (p : Char → Bool) (u : List Char) (i : Nat) : Nat :=
  takeCount p (u.drop i)

/-- Skip the default-whitespace characters from position `i`
(pyparsing `preParse`). -/
def skipWs (u : List Char) (i : Nat) : Nat := i + runLen isSkipWs u i

/-- The substring of length `n` starting at position `i`. -/
def sub (u : List Char) (i n : Nat) : String := String.mk ((u.drop i).take n)

/-- Does the literal `s` occur at position `i`? -/
def matchAt (u : List Char) (i : Nat) (s : List Char) : Bool :=
  s.isPrefixOf (u.drop i)

/-- Python `str.expandtabs()` with tab size 8, applied by pyparsing's
`parseString` to the whole input before parsing; the column count resets
after a newline or carriage return. -/
def expandTabs (u : List Char) (col : Nat) : List Char :=
  match u with
  | [] => []
  | c :: rest =>
    if c = '\t' then
      let n := 8 - col % 8
      List.replicate n ' ' ++ expandTabs rest (col + n)
    else if c = '\n' || c = '\r' then c :: expandTabs rest 0
    else c :: expandTabs rest (col + 1)

/-- The type of a string-producing parser over a fixed input. -/
abbrev P := List Char → Nat → Option (String × Nat)

/-- pyparsing `Literal` (with default leading-whitespace skipping). -/
def litP (s : String) : P := fun u i =>
  if matchAt u (skipWs u i) s.data then some (s, skipWs u i + s.length)
  else none

/-- pyparsing `Literal` inside a `leave_whitespace` context (no skipping),
as produced for the elements of `Combine(delimited_list(...))`. -/
def litAtP (s : String) : P := fun u i =>
  if matchAt u i s.data then some (s, i + s.length) else none

/-- Is the character at `q` (if any) outside `Keyword.identChars`? -/
def boundaryOk (u : List Char) (q : Nat) : Bool :=
  match u.get? q with
  | none => true
  | some c => !(isIdentChar c)

/-- pyparsing `Keyword`: leading skip, literal match, and the requirement
that neither the preceding nor the following character is an ident char. -/
def keywordP (s : String) : P := fun u i =>
  if matchAt u (skipWs u i) s.data
      && (skipWs u i == 0 || boundaryOk u (skipWs u i - 1))
      && boundaryOk u (skipWs u i + s.length) then
    some (s, skipWs u i + s.length)
  else none

/-- pyparsing `Word(init, body)` without leading skip (for
`leave_whitespace` contexts). -/
def wordAtP (init body : Char → Bool) : P := fun u i =>
  match u.get? i with
  | some c =>
    if init c then
      some (sub u i (runLen body u (i + 1) + 1), i + runLen body u (i + 1) + 1)
    else none
  | none => none

/-- `varname = Word(alphas, alphanums + "_")` without leading skip. -/
def varnameAtP : P :=
  wordAtP isAsciiAlpha (fun c => isAsciiAlphanum c || c = '_')

/-- `varname` with the default leading-whitespace skip. -/
def varnameP : P := fun u i => varnameAtP u (skipWs u i)

/-- `Opt(White())`: capture the maximal (possibly empty) run of
`White` characters at the current position, never skipping. -/
def optWhite (u : List Char) (i : Nat) : String × Nat :=
  (sub u i (runLen isWhiteChar u i), i + runLen isWhiteChar u i)

/-- `White()` (min 1): at least one whitespace character, greedy. -/
def whiteP : P := fun u i =>
  if runLen isWhiteChar u i = 0 then none
  else some (sub u i (runLen isWhiteChar u i), i + runLen isWhiteChar u i)

/-- `White(max=1)`: exactly one whitespace character. -/
def white1P : P := fun u i =>
  match u.get? i with
  | some c => if isWhiteChar c then some (sub u i 1, i + 1) else none
  | none => none

/-- The inner-character class of `QuotedString('"')` with its defaults. -/
def isQInner (d : Char) : Bool := !(d = '"' || d = '\n' || d = '\r')

/-- `QuotedString('"', unquote_results=False)`: a quote, inner characters
other than quote/CR/LF, and a closing quote, kept verbatim. -/
def quotedP : P := fun u i =>
  match u.get? (skipWs u i) with
  | some c =>
    if c = '"' then
      match u.get? (skipWs u i + runLen isQInner u (skipWs u i + 1) + 1) with
      | some d =>
        if d = '"' then
          some (sub u (skipWs u i) (runLen isQInner u (skipWs u i + 1) + 2),
            skipWs u i + runLen isQInner u (skipWs u i + 1) + 2)
        else none
      | none => none
    else none
  | none => none

/-- The end position of the mandatory part of the dotted-name regex
starting at post-skip position `j`. -/
def dotEnd (u : List Char) (j : Nat) : Nat :=
  j + runLen isWordChar u j + 1
    + runLen isWordChar u (j + runLen isWordChar u j + 1)

/-- `Regex(r"\w+\.[\w]+(\[\])?")`: a dotted qualified name with an optional
list suffix. -/
def dottedP : P := fun u i =>
  if runLen isWordChar u (skipWs u i) = 0 then none
  else
    match u.get? (skipWs u i + runLen isWordChar u (skipWs u i)) with
    | some c =>
      if c = '.' then
        if runLen isWordChar u (skipWs u i + runLen isWordChar u (skipWs u i) + 1) = 0 then none
        else
          if matchAt u (dotEnd u (skipWs u i)) ['[', ']'] then
            some (sub u (skipWs u i) (dotEnd u (skipWs u i) - skipWs u i + 2),
              dotEnd u (skipWs u i) + 2)
          else
            some (sub u (skipWs u i) (dotEnd u (skipWs u i) - skipWs u i),
              dotEnd u (skipWs u i))
      else none
    | none => none

/-! ### The type-expression grammar (src/apidoc.py lines 104-141) -/

/-- `lua_list`: the five list-suffix keywords, in source order. -/
def luaListP : P := fun u i =>
  keywordP "string[]" u i <|> keywordP "integer[]" u i <|>
  keywordP "number[]" u i <|> keywordP "any[]" u i <|> keywordP "boolean[]" u i

/-- `primitive_type`: the primitive keywords, quoted literal types and
dotted names, in source order. -/
def primitiveP : P := fun u i =>
  keywordP "nil" u i <|> keywordP "string" u i <|> keywordP "integer" u i <|>
  keywordP "boolean" u i <|> keywordP "number" u i <|> keywordP "table" u i <|>
  quotedP u i <|> keywordP "any" u i <|> dottedP u i

/-- `lua_table = (Keyword("table") + "<" + lua_type + "," + Opt(White()) +
lua_type + ">")` with its joining parse action; `lt` is the recursive
occurrence of `lua_type`. -/
def luaTableP (lt : P) : P := fun u i =>
  (keywordP "table" u i).bind fun r1 =>
  (litP "<" u r1.2).bind fun r2 =>
  (lt u r2.2).bind fun rk =>
  (litP "," u rk.2).bind fun r4 =>
  (lt u (optWhite u r4.2).2).bind fun rv =>
  (litP ">" u rv.2).bind fun r7 =>
  some ("table" ++ "<" ++ rk.1 ++ "," ++ (optWhite u r4.2).1 ++ rv.1 ++ ">",
    r7.2)

/-- `lua_func_param = (Opt(White()) + varname + ":" + Opt(White()) +
lua_type + Opt(White()))` with its joining parse action.  Inside
`Combine(delimited_list(...))` all elements are `leave_whitespace`d, so
`varname` and `":"` match with no skipping, while the copied `lua_type`
forward chains to the original grammar (which skips internally). -/
def luaFuncParamP (lt : P) : P := fun u i =>
  (varnameAtP u (optWhite u i).2).bind fun rn =>
  (litAtP ":" u rn.2).bind fun rc =>
  (lt u (optWhite u rc.2).2).bind fun rt =>
  some ((optWhite u i).1 ++ rn.1 ++ ":" ++ (optWhite u rc.2).1 ++ rt.1
      ++ (optWhite u rt.2).1,
    (optWhite u rt.2).2)

/-- The `(delim + expr)[0, ...]` tail of `delimited_list(lua_func_param,
combine=True)`: delimiters are kept in the combined text and, being inside
the adjacent `Combine`, match with no whitespace skipping.  A failed
iteration consumes nothing. -/
def paramsLoopP (lt : P) : Nat → String → P
  | 0, _, _, _ => none
  | fuel + 1, acc, u, cur =>
    match litAtP "," u cur with
    | none => some (acc, cur)
    | some rc =>
      match luaFuncParamP lt u rc.2 with
      | none => some (acc, cur)
      | some rp => paramsLoopP lt fuel (acc ++ "," ++ rp.1) u rp.2

/-- `delimited_list(lua_func_param, combine=True)`. -/
def luaFuncParamsP (lt : P) (fuel : Nat) : P := fun u i =>
  (luaFuncParamP lt u i).bind fun r1 => paramsLoopP lt fuel r1.1 u r1.2

/-- `Opt(delimited_list(lua_func_param, combine=True))`: the `Combine`
copies only exotic whitespace-skip characters, so a failing attempt
consumes nothing. -/
def funParamsOpt (lt : P) (fuel : Nat) (u : List Char) (i : Nat) :
    String × Nat :=
  match luaFuncParamsP lt fuel u i with
  | some r => r
  | none => ("", i)

/-- `lua_func = (Keyword("fun") + "(" + Opt(delimited_list(lua_func_param,
combine=True)) + ")" + Opt((":") + Opt(White()) + lua_type))` with its
joining parse action.  A failing trailing `Opt` still consumes its own
leading-whitespace skip (pyparsing pre-parses before attempting the
optional expression). -/
def luaFuncP (lt : P) (fuel : Nat) : P := fun u i =>
  (keywordP "fun" u i).bind fun r1 =>
  (litP "(" u r1.2).bind fun r2 =>
  (some (funParamsOpt lt fuel u r2.2)).bind fun ps =>
  (litP ")" u ps.2).bind fun r4 =>
  match (litP ":" u r4.2).bind (fun rc =>
      (lt u (optWhite u rc.2).2).map fun rr =>
        (":" ++ (optWhite u rc.2).1 ++ rr.1, rr.2)) with
  | some rret => some ("fun" ++ "(" ++ ps.1 ++ ")" ++ rret.1, rret.2)
  | none => some ("fun" ++ "(" ++ ps.1 ++ ")", skipWs u r4.2)

/-- `non_union_types = lua_list | lua_table | lua_func | primitive_type`. -/
def nonUnionP (lt : P) (fuel : Nat) : P := fun u i =>
  luaListP u i <|> luaTableP lt u i <|> luaFuncP lt fuel u i <|> primitiveP u i

/-- The `(Suppress("|") + non_union_types)[0, ...]` tail of
`delimited_list(non_union_types, delim="|")`.  Mirroring pyparsing's
`ZeroOrMore`: the caller passes the position after the repetition's own
leading-whitespace skip; a failed iteration leaves the position at the end
of the last successful one. -/
def unionLoopP (lt : P) : Nat → String → P
  | 0, _, _, _ => none
  | fuel + 1, acc, u, cur =>
    match litAtP "|" u (skipWs u cur) with
    | none => some (acc, cur)
    | some rp =>
      match nonUnionP lt fuel u rp.2 with
      | none => some (acc, cur)
      | some re => unionLoopP lt fuel (acc ++ "|" ++ re.1) u re.2

/-- `union_type = delimited_list(non_union_types, delim="|")` with its
`"|".join` parse action.  The repetition's leading-whitespace skip is
consumed even when no further element matches (pyparsing `ZeroOrMore`
pre-parses before its first attempt). -/
def unionTypeP (lt : P) (fuel : Nat) : P := fun u i =>
  (nonUnionP lt fuel u i).bind fun r1 =>
  unionLoopP lt fuel r1.1 u (skipWs u r1.2)

/-- `lua_type <<= union_type | non_union_types`, by fuel recursion (the
fuel bounds the recursion depth; every recursive entry follows the
consumption of at least one character, so any fuel beyond the remaining
input length is equivalent). -/
def luaType : Nat → P
  | 0 => fun _ _ => none
  | fuel + 1 => fun u i =>
    unionTypeP (luaType fuel) fuel u i <|> nonUnionP (luaType fuel) fuel u i

/-- `lua_type` with the canonical sufficient fuel for input `u`. -/
def luaTypeF : P := fun u i => luaType (u.length + 2) u i

/-- The `parseString(..., parseAll=True)` tail: trailing default
whitespace is allowed before end of input. -/
def stringEndOk (u : List Char) (i : Nat) : Bool := skipWs u i == u.length

/-- `lua_type.parseString(s, parseAll=True)` returning the canonical
string: the whole pipeline applied to one type expression (tab expansion,
parse, end-of-input check). -/
def canonicalizeType (s : String) : Option String :=
  let u := expandTabs s.data 0
  match luaType (u.length + 2) u 0 with
  | some r => if stringEndOk u r.2 then some r.1 else none
  | none => none

/-! ### Intermediate representation (the dataclasses of src/apidoc.py) -/

/-- `LuaParam` (name, type, desc, subparams); sub-parameters reuse the same
record with empty `subparams`. -/
inductive LuaParam where
  | mk (name type desc : String) (subparams : List LuaParam)

def LuaParam.name : LuaParam → String
  | .mk n _ _ _ => n

def LuaParam.type : LuaParam → String
  | .mk _ t _ _ => t

def LuaParam.desc : LuaParam → String
  | .mk _ _ d _ => d

def LuaParam.subparams : LuaParam → List LuaParam
  | .mk _ _ _ s => s

/-- `LuaReturn` (type, desc). -/
structure LuaReturn where
  type : String
  desc : String

/-- One token of the `annotation` expression's flat result list
(`p.asList()`), in match order: the optional summary string, one
`LuaParam` per `@param` tag, one `LuaReturn` per `@return` tag, the
`"@private"`/`"@deprecated"` keyword tokens, and the joined text of
`@example`/`@note` blocks. -/
inductive Tok where
  | summary (s : String)
  | param (p : LuaParam)
  | ret (r : LuaReturn)
  | priv
  | depr
  | ex (s : String)
  | note (s : String)

def Tok.asParam : Tok → Option LuaParam
  | .param p => some p
  | _ => none

def Tok.asReturn : Tok → Option LuaReturn
  | .ret r => some r
  | _ => none

def Tok.asSummary : Tok → Option String
  | .summary s => some s
  | _ => none

def Tok.asExample : Tok → Option String
  | .ex s => some s
  | _ => none

def Tok.asNote : Tok → Option String
  | .note s => some s
  | _ => none

def Tok.isPriv : Tok → Bool
  | .priv => true
  | _ => false

def Tok.isDepr : Tok → Bool
  | .depr => true
  | _ => false

/-- `LuaFunc` (the Python fields `private` and `example` are spelled
`priv` and `ex` here because `private` and `example` are Lean keywords). -/
structure LuaFunc where
  name : String
  summary : String
  params : List LuaParam
  returns : List LuaReturn
  ex : String
  note : String
  priv : Bool
  deprecated : Bool

/-! ### The annotation grammar (src/apidoc.py lines 143-203) -/

/-- The character class of `.` in a Python regular expression. -/
def isDotChar (c : Char) : Bool := !(c = '\n')

/-- `Opt(Regex(".+"))` for the `desc` slots: skip default whitespace, then
one or more non-newline characters; on failure the position after the skip
is still consumed (pyparsing `Opt` keeps its pre-parse). -/
def descOpt (u : List Char) (i : Nat) : String × Nat :=
  if runLen isDotChar u (skipWs u i) = 0 then ("", skipWs u i)
  else (sub u (skipWs u i) (runLen isDotChar u (skipWs u i)),
    skipWs u i + runLen isDotChar u (skipWs u i))

/-- `LineEnd()`: skip default whitespace (which excludes the newline),
then consume a newline, or succeed with an empty token at end of input. -/
def lineEndP : P := fun u i =>
  match u.get? (skipWs u i) with
  | some c => if c = '\n' then some ("\n", skipWs u i + 1) else none
  | none => some ("", skipWs u i)

/-- `LineStart()` as the first element of a sequence (its pre-parse is
skipped there): a pure column-1 test. -/
def lineStartOk (u : List Char) (i : Nat) : Bool :=
  i == 0 || u.get? (i - 1) == some '\n'

/-- `subparam = Suppress(LineStart()) + Suppress(White()) + varname +
lua_type + Opt(Regex(".+")) + Suppress(LineEnd())` with its
`LuaParam.from_parser` action (sub-parameters carry no nested
sub-parameters). -/
def subparamP (u : List Char) (i : Nat) : Option (LuaParam × Nat) :=
  if lineStartOk u i then
    (whiteP u i).bind fun rw =>
    (varnameP u rw.2).bind fun rn =>
    (luaTypeF u rn.2).bind fun rt =>
    (lineEndP u (descOpt u rt.2).2).map fun rl =>
    (LuaParam.mk rn.1 rt.1 (descOpt u rt.2).1 [], rl.2)
  else none

/-- `ZeroOrMore(subparam)`; the sequence starts with `LineStart`, so no
leading whitespace is skipped, and a failed iteration consumes nothing. -/
def subparamsLoopP : Nat → List Char → Nat → Option (List LuaParam × Nat)
  | 0, _, _ => none
  | fuel + 1, u, cur =>
    match subparamP u cur with
    | none => some ([], cur)
    | some rp =>
      (subparamsLoopP fuel u rp.2).map fun rest => (rp.1 :: rest.1, rest.2)

/-- `tag_param = Suppress("@param") + varname + lua_type +
Opt(Regex(".+")) + Suppress(LineEnd()) + ZeroOrMore(subparam)` with its
`LuaParam.from_parser` action. -/
def tagParamP (u : List Char) (i : Nat) : Option (Tok × Nat) :=
  (litP "@param" u i).bind fun r1 =>
  (varnameP u r1.2).bind fun rn =>
  (luaTypeF u rn.2).bind fun rt =>
  (lineEndP u (descOpt u rt.2).2).bind fun rl =>
  (subparamsLoopP (u.length + 2) u rl.2).map fun rsp =>
  (Tok.param (LuaParam.mk rn.1 rt.1 (descOpt u rt.2).1 rsp.1), rsp.2)

/-- `tag_private = Keyword("@private") + Suppress(LineEnd())`. -/
def tagPrivateP (u : List Char) (i : Nat) : Option (Tok × Nat) :=
  (keywordP "@private" u i).bind fun r1 =>
  (lineEndP u r1.2).map fun rl => (Tok.priv, rl.2)

/-- `tag_deprecated = Keyword("@deprecated") + Suppress(LineEnd())`. -/
def tagDeprecatedP (u : List Char) (i : Nat) : Option (Tok × Nat) :=
  (keywordP "@deprecated" u i).bind fun r1 =>
  (lineEndP u r1.2).map fun rl => (Tok.depr, rl.2)

/-- `Regex(".+")` (not optional): skip, then one or more non-newline
characters. -/
def dotPlusP : P := fun u i =>
  if runLen isDotChar u (skipWs u i) = 0 then none
  else some (sub u (skipWs u i) (runLen isDotChar u (skipWs u i)),
    skipWs u i + runLen isDotChar u (skipWs u i))

/-- One line of an `@example`/`@note` body: `LineStart() +
Suppress(White(max=1)) + Opt(White()) + Regex(".+") + LineEnd()`; the
optional extra indentation and the line-ending newline are kept in the
joined text. -/
def exLineP : P := fun u i =>
  if lineStartOk u i then
    (white1P u i).bind fun rw =>
    (dotPlusP u (optWhite u rw.2).2).bind fun rc =>
    (lineEndP u rc.2).map fun rl =>
    ((optWhite u rw.2).1 ++ rc.1 ++ rl.1, rl.2)
  else none

/-- The repetition tail of `OneOrMore(...)` in `tag_example`/`tag_note`. -/
def exLinesLoopP : Nat → String → P
  | 0, _, _, _ => none
  | fuel + 1, acc, u, cur =>
    match exLineP u cur with
    | none => some (acc, cur)
    | some r => exLinesLoopP fuel (acc ++ r.1) u r.2

/-- The shared shape of `tag_example` and `tag_note`:
`Suppress(tag + LineEnd()) + OneOrMore(line)` with the `"".join` action. -/
def tagBlockP (tagLit : String) (u : List Char) (i : Nat) :
    Option (String × Nat) :=
  (litP tagLit u i).bind fun r1 =>
  (lineEndP u r1.2).bind fun rl =>
  (exLineP u rl.2).bind fun rf =>
  exLinesLoopP (u.length + 2) rf.1 u rf.2

def tagExampleP (u : List Char) (i : Nat) : Option (Tok × Nat) :=
  (tagBlockP "@example" u i).map fun r => (Tok.ex r.1, r.2)

def tagNoteP (u : List Char) (i : Nat) : Option (Tok × Nat) :=
  (tagBlockP "@note" u i).map fun r => (Tok.note r.1, r.2)

/-- `tag_return = Suppress("@return") + lua_type + Opt(Regex(".+")) +
Suppress(LineEnd())` with its `LuaReturn.from_parser` action. -/
def tagReturnP (u : List Char) (i : Nat) : Option (Tok × Nat) :=
  (litP "@return" u i).bind fun r1 =>
  (luaTypeF u r1.2).bind fun rt =>
  (lineEndP u (descOpt u rt.2).2).map fun rl =>
  (Tok.ret ⟨rt.1, (descOpt u rt.2).1⟩, rl.2)

/-- `tag <<= tag_param | tag_private | tag_return | tag_example |
tag_note | tag_deprecated`, in source order. -/
def tagP (u : List Char) (i : Nat) : Option (Tok × Nat) :=
  tagParamP u i <|> tagPrivateP u i <|> tagReturnP u i <|>
  tagExampleP u i <|> tagNoteP u i <|> tagDeprecatedP u i

/-- `ZeroOrMore(tag)`; the caller passes the position after the
repetition's own leading-whitespace skip. -/
def tagsLoopP : Nat → List Char → Nat → Option (List Tok × Nat)
  | 0, _, _ => none
  | fuel + 1, u, cur =>
    match tagP u cur with
    | none => some ([], cur)
    | some rt =>
      (tagsLoopP fuel u rt.2).map fun rest => (rt.1 :: rest.1, rest.2)

/-- `summary = Regex(r"^[^@].+") + Suppress(LineEnd())`.  The `^` anchor
in a Python `re` match only succeeds at position 0 of the whole string, so
a summary can only match at the very start of the block (any leading
default whitespace moves the position and defeats the anchor); `[^@]` may
match any character other than `@`, including a newline. -/
def summaryP (u : List Char) : Option (String × Nat) :=
  if skipWs u 0 = 0 then
    match u.get? 0 with
    | some c =>
      if c = '@' then none
      else
        if runLen isDotChar u 1 = 0 then none
        else
          (lineEndP u (1 + runLen isDotChar u 1)).map fun rl =>
            (sub u 0 (runLen isDotChar u 1 + 1), rl.2)
    | none => none
  else none

/-- `ZeroOrMore(White())`, suppressed: consume every following `White`
character. -/
def skipAllWhite (u : List Char) (i : Nat) : Nat := i + runLen isWhiteChar u i

/-- `Opt(summary)`: the optional summary token and the position after it
(a failing `Opt` still consumes its leading-whitespace pre-parse). -/
def summaryToks (u : List Char) : List Tok × Nat :=
  match summaryP u with
  | some rs => ([Tok.summary rs.1], rs.2)
  | none => ([], skipWs u 0)

/-- `annotation = Opt(summary) + ZeroOrMore(tag) +
Suppress(ZeroOrMore(White()))`, parsed with `parseAll=True`: the flat
token list, or `none` on a parse failure. -/
def annotationP (u : List Char) : Option (List Tok) :=
  (some (summaryToks u)).bind fun s0 =>
  (tagsLoopP (u.length + 2) u (skipWs u s0.2)).bind fun rt =>
  if skipAllWhite u rt.2 = u.length then some (s0.1 ++ rt.1) else none

/-- The result-collection loop of `LuaFunc.parse_annotation`: one
`Parameter` per `LuaParam` token and one `Return` per `LuaReturn` token,
in token order; named results (`summary`, `example`, `note`) resolve to
the last occurrence (pyparsing overwrites a repeated results name), and
the flags test mere presence. -/
def mkLuaFunc (name : String) (toks : List Tok) : LuaFunc :=
  { name := name
    summary := ((toks.filterMap Tok.asSummary).getLast?).getD ""
    params := toks.filterMap Tok.asParam
    returns := toks.filterMap Tok.asReturn
    ex := ((toks.filterMap Tok.asExample).getLast?).getD ""
    note := ((toks.filterMap Tok.asNote).getLast?).getD ""
    priv := toks.any Tok.isPriv
    deprecated := toks.any Tok.isDepr }

/-- The concatenated, tab-expanded text that `parse_annotation` feeds to
the grammar: the first three characters of every line (the comment
leader) are stripped, the lines are joined, and `parseString` expands
tabs. -/
def annotationText (lines : List String) : List Char :=
  expandTabs ((lines.map (fun l => l.data.drop 3)).flatten) 0

/-- `LuaFunc.parse_annotation(name, lines)`: parse the de-prefixed joined
block; a `ParseException` is re-raised as
`Exception(f"Error parsing {name}")`. -/
def parseAnnotation (name : String) (lines : List String) :
    Except String LuaFunc :=
  match annotationP (annotationText lines) with
  | some toks => Except.ok (mkLuaFunc name toks)
  | none => Except.error ("Error parsing " ++ name)

/-! ### The block extractor (src/apidoc.py lines 206-221) -/

/-- `line.startswith("---")`. -/
def startsComment (l : String) : Bool := ['-', '-', '-'].isPrefixOf l.data

/-- Python `\s` (ASCII range): the whitespace class of `re`. -/
def isPySpace (c : Char) : Bool :=
  c = ' ' || c = '\t' || c = '\n' || c = '\r' ||
  c = Char.ofNat 11 || c = Char.ofNat 12

/-- `FN_RE = re.compile(r"^M\.(\w+)\s*=")`, applied with `re.match`:
`M.`, then the captured identifier, optional whitespace, and `=`. -/
def fnReMatch (l : String) : Option String :=
  let u := l.data
  if matchAt u 0 ['M', '.'] then
    let n := runLen isWordChar u 2
    if n = 0 then none
    else
      let m := runLen isPySpace u (2 + n)
      if u.get? (2 + n + m) = some '=' then some (sub u 2 n) else none
  else none

/-- The scanning loop of `parse_functions`: comment lines accumulate into
`chunk`; the first non-comment line after a non-empty chunk is tested
against `FN_RE` and, on a match, the chunk is parsed as an annotation
(an annotation failure propagates); the chunk is reset after every
non-comment line.  A chunk still pending at end of input is dropped. -/
def parseFunctionsGo : List String → List String → Except String (List LuaFunc)
  | [], _ => Except.ok []
  | l :: ls, chunk =>
    if startsComment l then parseFunctionsGo ls (chunk ++ [l])
    else if chunk.isEmpty then parseFunctionsGo ls []
    else
      match fnReMatch l with
      | some name =>
        match parseAnnotation name chunk with
        | Except.ok f => (parseFunctionsGo ls []).map fun fs => f :: fs
        | Except.error e => Except.error e
      | none => parseFunctionsGo ls []

/-- `parse_functions`, over the file's lines. -/
def parseFunctions (lines : List String) : Except String (List LuaFunc) :=
  parseFunctionsGo lines []

/-! ### util.py: wrap, format_params, replace_section -/

/-- The word-splitting step of Python `textwrap.wrap`: maximal
whitespace-free words, with `acc` holding the reversed current word. -/
def splitWordsAux : List Char → List Char → List String
  | [], acc => if acc.isEmpty then [] else [String.mk acc.reverse]
  | c :: rest, acc =>
    if isPySpace c then
      (if acc.isEmpty then [] else [String.mk acc.reverse]) ++ splitWordsAux rest []
    else splitWordsAux rest (c :: acc)

def splitWords (l : List Char) : List String := splitWordsAux l []

/-- The greedy fill loop of Python `textwrap.wrap`: add the next word to
the current line if it fits in `width`, otherwise start a new line with
the subsequent indent.  (Words longer than the width are not split; the
repository never exercises `break_long_words`.) -/
def wrapCore (width subIndent : Nat) : List String → String → List String
  | [], cur => [cur]
  | w :: ws, cur =>
    if cur.length + 1 + w.length ≤ width then
      wrapCore width subIndent ws (cur ++ " " ++ w)
    else
      cur :: wrapCore width subIndent ws (String.mk (List.replicate subIndent ' ') ++ w)

/-- `textwrap.wrap(text, initial_indent, subsequent_indent, width)`:
empty or whitespace-only text yields no lines. -/
def pyTextwrap (text : String) (initIndent subIndent width : Nat) : List String :=
  match splitWords text.data with
  | [] => []
  | w :: ws => wrapCore width subIndent ws (String.mk (List.replicate initIndent ' ') ++ w)

/-- `util.wrap(text, indent, width=80, line_end="\n", sub_indent)`. -/
def wrapU (text : String) (ind : Nat) (subIndent : Nat) : List String :=
  (pyTextwrap text ind subIndent 80).map (fun l => l ++ "\n")

/-- Python `str.ljust`. -/
def pyLjust (s : String) (w : Nat) : String :=
  s ++ String.mk (List.replicate (w - s.length) ' ')

/-- Python `str.lstrip()`. -/
def pyLstrip (s : String) : String := String.mk (s.data.dropWhile isPySpace)

/-- Python `str.rstrip()`. -/
def pyRstrip (s : String) : String :=
  String.mk (((s.data.reverse).dropWhile isPySpace).reverse)

/-- `max([len(param.name) for param in params if len(param.name) <= 16])`:
`none` models the `ValueError` that Python's `max` raises on an empty
sequence. -/
def maxShortNameLen (params : List LuaParam) : Option Nat :=
  ((params.map (fun p => p.name.length)).filter (fun n => n ≤ 16)).max?

/-- The `desc`-placement step shared by the loop bodies of
`format_params`/`format_returns`: prepend the assembled line to the first
wrapped line, or emit the right-stripped line alone. -/
def placeDesc (line : String) (desc : List String) : List String :=
  match desc with
  | [] => [pyRstrip line ++ "\n"]
  | d0 :: rest => (line ++ pyLstrip d0) :: rest

mutual

/-- The structural weight of a parameter (for fuel bounds). -/
def luaParamWeight : LuaParam → Nat
  | .mk _ _ _ sub => luaParamsWeight sub + 1

def luaParamsWeight : List LuaParam → Nat
  | [] => 0
  | p :: rest => luaParamWeight p + luaParamsWeight rest + 1

end

/-- The recursion of `format_params`, fuel-structural so that it reduces
definitionally.  The `stage` argument is `none` on entry (the column-width
computation, whose `max` over an empty sequence raises, modelled by the
`none` result) and `some maxParam` inside the `for param in params` loop;
the fuel bounds the total recursion and is decremented on every call. -/
def fpAux : Nat → List LuaParam → Nat → Option Nat → Option (List String)
  | 0, _, _, _ => none
  | fuel + 1, params, ind, none =>
    match maxShortNameLen params with
    | none => none
    | some m => fpAux fuel params ind (some (m + 1))
  | _ + 1, [], _, some _ => some []
  | fuel + 1, p :: rest, ind, some maxParam =>
    let prefixStr := String.mk (List.replicate ind ' ') ++ "\x7b" ++ p.name
      ++ pyLjust "\x7d" (maxParam - p.name.length) ++ " "
    let line := prefixStr ++ "`" ++ p.type ++ "`" ++ " "
    let subInd := min prefixStr.length (maxParam + ind + 2)
    let own := placeDesc line (wrapU p.desc line.length subInd)
    match (if p.subparams.isEmpty then some [] else fpAux fuel p.subparams 10 none) with
    | none => none
    | some subLines =>
      match fpAux fuel rest ind (some maxParam) with
      | none => none
      | some restLines => some (own ++ subLines ++ restLines)

/-- `format_params(params, indent)`: `none` models an uncaught Python
exception (the fuel is an upper bound on the recursion the call can
perform). -/
def formatParams (params : List LuaParam) (ind : Nat) : Option (List String) :=
  fpAux (luaParamsWeight params * 2 + 2) params ind none

/-- The line-scanning loop of `replace_section`: returns the accumulated
prefix lines, postfix lines, and the final `inside_section` /
`found_section` flags.  `usingPost` records whether `file_lines` currently
aliases `postfix_lines`. -/
def rsLoop (startPat : String → Bool) (endPat : Option (String → Bool)) :
    List String → Bool → Bool → List String → List String → Bool →
    (List String × List String × Bool × Bool)
  | [], inside, found, pre, post, _ => (pre, post, inside, found)
  | l :: ls, inside, found, pre, post, usingPost =>
    if inside then
      match endPat with
      | some ep =>
        if ep l then rsLoop startPat endPat ls false found pre (post ++ [l]) true
        else rsLoop startPat endPat ls true found pre post usingPost
      | none => rsLoop startPat endPat ls true found pre post usingPost
    else
      if startPat l then
        if usingPost then rsLoop startPat endPat ls true true pre (post ++ [l]) true
        else rsLoop startPat endPat ls true true (pre ++ [l]) post false
      else
        if usingPost then rsLoop startPat endPat ls false found pre (post ++ [l]) true
        else rsLoop startPat endPat ls false found (pre ++ [l]) post false

/-- `replace_section(file, start_pat, end_pat, lines)` on the file's
current lines; patterns are abstracted as predicates (`re.match`).  An
`Except.error` models the raised exception (whose message interpolates
the pattern and file name in the source). -/
def replaceSection (startPat : String → Bool) (endPat : Option (String → Bool))
    (newLines : List String) (fileLines : List String) :
    Except String (List String) :=
  let r := rsLoop startPat endPat fileLines false false [] [] false
  let inside := if endPat.isNone then false else r.2.2.1
  if inside || !r.2.2.2 then Except.error "could not find file section"
  else Except.ok (r.1 ++ newLines ++ r.2.1)

/-- The on-disk contents after running `replace_section`: the file is
rewritten only in the success branch (the source opens the file for
writing only after the section check has passed), so on an exception the
contents are unchanged. -/
def fileAfterReplaceSection (startPat : String → Bool)
    (endPat : Option (String → Bool)) (newLines : List String)
    (fileLines : List String) : List String :=
  match replaceSection startPat endPat newLines fileLines with
  | Except.ok ls => ls
  | Except.error _ => fileLines

/-! ### Reparse contexts

The idempotence argument re-runs the grammar on a canonical string
embedded in a fresh input.  The following predicates describe embedding
contexts that can neither extend nor disturb the embedded parse. -/

/-- The character before position `p` (if any) is outside
`Keyword.identChars`, so a keyword match starting at `p` passes its
leading boundary check. -/
def PrevOk (w : List Char) (p : Nat) : Prop :=
  p = 0 ∨ ∃ ch, w.get? (p - 1) = some ch ∧ isIdentChar ch = false

/-- The context after position `e` cannot extend a parse ending there:
the character at `e` (if any) is no identifier character and no `[`, and
the first character after default-whitespace skipping (if any) opens
neither a `:` function-return suffix nor a `<` table-argument list. -/
def NextOkCore (w : List Char) (e : Nat) : Prop :=
  (∀ ch, w.get? e = some ch → isIdentChar ch = false ∧ ch ≠ '[') ∧
  (∀ ch, w.get? (skipWs w e) = some ch → ch ≠ ':' ∧ ch ≠ '<')

/-- After skipping default whitespace from `e`, no further
`|`-alternative follows. -/
def NoPipeAfter (w : List Char) (e : Nat) : Prop :=
  ∀ ch, w.get? (skipWs w e) = some ch → ch ≠ '|'

/-- Either no `|` follows the embedded text in `w`, or, in the original
input, the `|` that followed the original parse (ending at `j`) was
itself followed by a successfully parsing alternative at every adequate
fuel.  The second disjunct is what rules out a trailing-`lua_type`
original parse: such a parse would already have consumed that
alternative. -/
def PipeCtx (lt : P) (u : List Char) (j : Nat) (w : List Char) (e : Nat) :
    Prop :=
  NoPipeAfter w e ∨
  ∃ r : String × Nat, litAtP "|" u (skipWs u j) = some r ∧
    r.2 ≤ u.length ∧
    ∀ k, u.length + 1 ≤ k + r.2 → nonUnionP lt k u r.2 ≠ none

/-- The reparse property of a canonical string `c` produced by the full
type grammar from original input `u` with original end position `j`:
`c` starts with a non-whitespace character, is tab-free whenever `u` is,
and parses from any embedding of `c` in a fresh input back to `c`
itself, ending at the end of the embedded text (possibly after the
trailing default-whitespace skip of the union repetition, but exactly at
the end whenever the original parse ended on a skippable character). -/
def ReLt (u : List Char) (j : Nat) (c : String) : Prop :=
  (∃ d t, c.data = d :: t ∧ isWhiteChar d = false) ∧
  ((∀ ch ∈ u, ch ≠ '\t') → ∀ ch ∈ c.data, ch ≠ '\t') ∧
  ∀ w p, matchAt w p c.data = true → PrevOk w p →
    NextOkCore w (p + c.data.length) →
    NoPipeAfter w (p + c.data.length) →
    ∀ g, c.data.length + 2 ≤ g →
      ∃ e, luaType g w p = some (c, e) ∧
        p + c.data.length ≤ e ∧ e ≤ skipWs w (p + c.data.length) ∧
        (skipWs u j ≠ j → e = p + c.data.length)

/-- The reparse property of a canonical string produced by
`non_union_types` (original fuel `f`, original end `j`). -/
def ReNu (f : Nat) (u : List Char) (j : Nat) (c : String) : Prop :=
  (∃ d t, c.data = d :: t ∧ isWhiteChar d = false) ∧
  ((∀ ch ∈ u, ch ≠ '\t') → ∀ ch ∈ c.data, ch ≠ '\t') ∧
  ∀ w p, matchAt w p c.data = true → PrevOk w p →
    NextOkCore w (p + c.data.length) →
    PipeCtx (luaType f) u j w (p + c.data.length) →
    ∀ g fl, c.data.length + 2 ≤ g → c.data.length + 2 ≤ fl →
      ∃ e, nonUnionP (luaType g) fl w p = some (c, e) ∧
        p + c.data.length ≤ e ∧ e ≤ skipWs w (p + c.data.length) ∧
        (skipWs u j ≠ j → e = p + c.data.length)

/-- Every adequately-fuelled successful `lua_type` parse from a
boundary-clean position yields a canonical string with the reparse
property. -/
def PhiLt (f : Nat) : Prop :=
  ∀ u i c j, i ≤ u.length → u.length + 2 ≤ f + i → PrevOk u i →
    luaType f u i = some (c, j) → ReLt u j c

/-- The analogue for `non_union_types` at recursion fuel `f`. -/
def PhiNu (f : Nat) : Prop :=
  ∀ fl u i c j, i ≤ u.length → u.length + 1 ≤ f + i →
    u.length + 1 ≤ fl + i → PrevOk u i →
    nonUnionP (luaType f) fl u i = some (c, j) → ReNu f u j c

/-- Strict progress: a successful parse advances and stays in bounds. -/
def Strict (lt : P) : Prop :=
  ∀ u i c j, lt u i = some (c, j) → i < j ∧ j ≤ u.length

/-- Weak progress. -/
def PB (lt : P) : Prop :=
  ∀ u i c j, lt u i = some (c, j) → i ≤ j ∧ j ≤ u.length

/-! ## Theorems -/

/-! ### Basic lemmas about runs, skipping and literal matching -/

theorem takeCount_le (p : Char → Bool) (l : List Char) :
    takeCount p l ≤ l.length := by
  induction l with
  | nil => simp [takeCount]
  | cons c rest ih =>
    simp only [takeCount, List.length_cons]
    split <;> omega

theorem runLen_le (p : Char → Bool) (u : List Char) (i : Nat) :
    i + runLen p u i ≤ max i u.length := by
  have h := takeCount_le p (u.drop i)
  simp only [List.length_drop] at h
  unfold runLen
  omega

theorem runLen_le_of_le (p : Char → Bool) (u : List Char) (i : Nat)
    (h : i ≤ u.length) : i + runLen p u i ≤ u.length := by
  have := runLen_le p u i
  omega

theorem le_skipWs (u : List Char) (i : Nat) : i ≤ skipWs u i := by
  unfold skipWs; omega

theorem skipWs_le (u : List Char) (i : Nat) (h : i ≤ u.length) :
    skipWs u i ≤ u.length := by
  unfold skipWs; exact runLen_le_of_le _ u i h

theorem takeCount_get (p : Char → Bool) (l : List Char) :
    ∀ c, l.get? (takeCount p l) = some c → p c = false := by
  induction l with
  | nil => intro c h; simp at h
  | cons d rest ih =>
    intro c h
    simp only [takeCount] at h
    by_cases hd : p d
    · rw [if_pos hd] at h
      exact ih c h
    · rw [if_neg hd] at h
      simp only [List.get?_cons_zero, Option.some.injEq] at h
      rw [← h]
      exact Bool.not_eq_true _ ▸ (by simpa using hd)

theorem runLen_get (p : Char → Bool) (u : List Char) (i : Nat) (c : Char)
    (h : u.get? (i + runLen p u i) = some c) : p c = false := by
  apply takeCount_get p (u.drop i)
  rw [List.get?_drop]
  exact h

theorem skipWs_get (u : List Char) (i : Nat) (c : Char)
    (h : u.get? (skipWs u i) = some c) : isSkipWs c = false :=
  runLen_get isSkipWs u i c h

theorem takeCount_nil_of_head (p : Char → Bool) (l : List Char) (c : Char)
    (h : l.get? 0 = some c) (hc : p c = false) : takeCount p l = 0 := by
  cases l with
  | nil => simp at h
  | cons d rest =>
    simp only [List.get?_cons_zero, Option.some.injEq] at h
    subst h
    simp [takeCount, hc]

theorem runLen_zero (p : Char → Bool) (u : List Char) (i : Nat) (c : Char)
    (h : u.get? i = some c) (hc : p c = false) : runLen p u i = 0 := by
  apply takeCount_nil_of_head p (u.drop i) c
  · rw [List.get?_drop, Nat.add_zero]; exact h
  · exact hc

theorem runLen_zero_of_none (p : Char → Bool) (u : List Char) (i : Nat)
    (h : u.get? i = none) : runLen p u i = 0 := by
  have : u.length ≤ i := by
    by_contra hlt
    push_neg at hlt
    rw [List.get?_eq_get hlt] at h
    exact Option.noConfusion h
  unfold runLen
  rw [List.drop_eq_nil_of_le this]
  rfl

theorem skipWs_id (u : List Char) (i : Nat) (c : Char)
    (h : u.get? i = some c) (hc : isSkipWs c = false) : skipWs u i = i := by
  unfold skipWs
  rw [runLen_zero isSkipWs u i c h hc]
  omega

theorem skipWs_id_of_none (u : List Char) (i : Nat)
    (h : u.get? i = none) : skipWs u i = i := by
  unfold skipWs
  rw [runLen_zero_of_none isSkipWs u i h]
  omega

theorem takeCount_succ_of_head (p : Char → Bool) (l : List Char) (c : Char)
    (h : l.get? 0 = some c) (hc : p c = true) :
    takeCount p l = takeCount p l.tail + 1 := by
  cases l with
  | nil => simp at h
  | cons d rest =>
    simp only [List.get?_cons_zero, Option.some.injEq] at h
    subst h
    simp [takeCount, hc]

theorem matchAt_le (u : List Char) (i : Nat) (s : List Char)
    (hs : 1 ≤ s.length) (h : matchAt u i s = true) :
    i + s.length ≤ u.length := by
  unfold matchAt at h
  have hp := List.isPrefixOf_iff_prefix.mp h
  have hl := hp.length_le
  simp only [List.length_drop] at hl
  omega

theorem matchAt_get (u : List Char) (i : Nat) (s : List Char)
    (h : matchAt u i s = true) (t : Nat) (ht : t < s.length) :
    u.get? (i + t) = s.get? t := by
  unfold matchAt at h
  have hp := List.isPrefixOf_iff_prefix.mp h
  obtain ⟨r, hr⟩ := hp
  rw [← List.get?_drop, ← hr, List.get?_append ht]

theorem matchAt_append (u : List Char) (i : Nat) (a b : List Char) :
    matchAt u i (a ++ b) = true
      ↔ matchAt u i a = true ∧ matchAt u (i + a.length) b = true := by
  unfold matchAt
  simp only [List.isPrefixOf_iff_prefix]
  constructor
  · intro h
    obtain ⟨r, hr⟩ := h
    rw [List.append_assoc] at hr
    refine ⟨⟨b ++ r, hr⟩, ⟨r, ?_⟩⟩
    rw [← List.drop_drop a.length i u, ← hr, List.drop_left]
  · rintro ⟨⟨r1, hr1⟩, ⟨r2, hr2⟩⟩
    have hdr : u.drop (i + a.length) = r1 := by
      rw [← List.drop_drop a.length i u, ← hr1, List.drop_left]
    refine ⟨r2, ?_⟩
    rw [List.append_assoc, hr2, hdr, hr1]

theorem matchAt_refl (c : List Char) (suffix : List Char) :
    matchAt (c ++ suffix) 0 c = true := by
  unfold matchAt
  rw [List.drop_zero]
  exact List.isPrefixOf_iff_prefix.mpr ⟨suffix, rfl⟩

theorem takeCount_drop (p : Char → Bool) :
    ∀ (l : List Char) (k : Nat), k ≤ takeCount p l →
      takeCount p (l.drop k) = takeCount p l - k := by
  intro l
  induction l with
  | nil =>
    intro k hk
    simp only [takeCount, Nat.le_zero] at hk
    subst hk
    simp [takeCount]
  | cons c rest ih =>
    intro k hk
    cases k with
    | zero => simp
    | succ k' =>
      simp only [takeCount] at hk ⊢
      by_cases hc : p c
      · rw [if_pos hc] at hk ⊢
        simp only [List.drop_succ_cons]
        rw [ih k' (by omega)]
        omega
      · rw [if_neg hc] at hk
        omega

theorem runLen_sub (p : Char → Bool) (u : List Char) (a b : Nat)
    (hab : a ≤ b) (hb : b ≤ a + runLen p u a) :
    runLen p u b = a + runLen p u a - b := by
  unfold runLen at *
  have hd : u.drop b = (u.drop a).drop (b - a) := by
    rw [List.drop_drop]
    congr 1
    omega
  rw [hd, takeCount_drop p (u.drop a) (b - a) (by omega)]
  omega

theorem skipWs_absorb (u : List Char) (a b : Nat)
    (hab : a ≤ b) (hb : b ≤ skipWs u a) : skipWs u b = skipWs u a := by
  unfold skipWs at *
  rw [runLen_sub isSkipWs u a b hab hb]
  omega

theorem skipWs_idem (u : List Char) (i : Nat) :
    skipWs u (skipWs u i) = skipWs u i :=
  skipWs_absorb u i (skipWs u i) (le_skipWs u i) (Nat.le_refl _)

theorem matchAt_decomp (u : List Char) (i : Nat) (s : List Char)
    (h : matchAt u i s = true) :
    u.drop i = s ++ u.drop (i + s.length) := by
  unfold matchAt at h
  obtain ⟨r, hr⟩ := List.isPrefixOf_iff_prefix.mp h
  have hd : u.drop (i + s.length) = r := by
    rw [← List.drop_drop s.length i u, ← hr, List.drop_left]
  rw [hd, hr]

theorem matchAt_sub (u : List Char) (i : Nat) (s : List Char)
    (h : matchAt u i s = true) : sub u i s.length = String.mk s := by
  unfold sub
  rw [matchAt_decomp u i s h, List.take_left]

theorem matchAt_sub_self (u : List Char) (i n : Nat) :
    matchAt u i ((sub u i n).data) = true := by
  unfold matchAt sub
  exact List.isPrefixOf_iff_prefix.mpr (List.take_prefix n (u.drop i))

theorem sub_length_of_le (u : List Char) (i n : Nat)
    (h : i + n ≤ u.length) : (sub u i n).length = n := by
  have hv : (sub u i n).length = ((u.drop i).take n).length := rfl
  rw [hv, List.length_take, List.length_drop]
  omega

theorem matchAt_trans_prefix (u : List Char) (i : Nat) (c s : List Char)
    (hc : matchAt u i c = true) (hlen : s.length ≤ c.length) :
    matchAt u i s = s.isPrefixOf c := by
  have hpre : s <+: (c ++ u.drop (i + c.length)) ↔ s <+: c := by
    constructor
    · intro h
      have hh := List.prefix_iff_eq_take.mp h
      rw [List.take_append_of_le_length hlen] at hh
      exact List.prefix_iff_eq_take.mpr hh
    · intro h
      exact h.trans (List.prefix_append c _)
  unfold matchAt
  rw [matchAt_decomp u i c hc, Bool.eq_iff_iff,
    List.isPrefixOf_iff_prefix, List.isPrefixOf_iff_prefix]
  exact hpre

theorem matchAt_head (u : List Char) (i : Nat) (d : Char) (t : List Char)
    (h : matchAt u i (d :: t) = true) : u.get? i = some d := by
  have := matchAt_get u i (d :: t) h 0 (by simp)
  simpa using this

theorem matchAt_false_of_head (u : List Char) (i : Nat) (d : Char)
    (t : List Char) (h : u.get? i ≠ some d) :
    matchAt u i (d :: t) = false := by
  cases hm : matchAt u i (d :: t) with
  | false => rfl
  | true => exact absurd (matchAt_head u i d t hm) h

theorem matchAt_ne_at (u : List Char) (i : Nat) (s : List Char) (k : Nat)
    (d : Char) (hs : s.get? k = some d) (h : u.get? (i + k) ≠ some d) :
    matchAt u i s = false := by
  cases hm : matchAt u i s with
  | false => rfl
  | true =>
    have hk : k < s.length := List.get?_eq_some.mp hs |>.1
    have := matchAt_get u i s hm k hk
    rw [hs] at this
    exact absurd this h

theorem takeCount_append_all (p : Char → Bool) (s t : List Char)
    (hall : ∀ c ∈ s, p c = true) :
    takeCount p (s ++ t) = s.length + takeCount p t := by
  induction s with
  | nil => simp
  | cons c rest ih =>
    have hc := hall c (List.mem_cons_self c rest)
    have ht := fun d hd => hall d (List.mem_cons_of_mem c hd)
    rw [show (c :: rest) ++ t = c :: (rest ++ t) from rfl,
      show takeCount p (c :: (rest ++ t))
        = if p c then takeCount p (rest ++ t) + 1 else 0 from rfl,
      if_pos hc, ih ht, List.length_cons]
    omega

theorem runLen_of_block (pr : Char → Bool) (u : List Char) (q : Nat)
    (s : List Char) (hm : matchAt u q s = true)
    (hall : ∀ c ∈ s, pr c = true)
    (hnext : ∀ ch, u.get? (q + s.length) = some ch → pr ch = false) :
    runLen pr u q = s.length := by
  unfold runLen
  rw [matchAt_decomp u q s hm, takeCount_append_all pr s _ hall]
  have hz : takeCount pr (u.drop (q + s.length)) = 0 := by
    cases hg : u.get? (q + s.length) with
    | none => exact runLen_zero_of_none pr u (q + s.length) hg
    | some ch =>
      exact runLen_zero pr u (q + s.length) ch hg (hnext ch hg)
  unfold runLen at hz
  omega

theorem takeCount_chars (p : Char → Bool) :
    ∀ (l : List Char) (k : Nat), k < takeCount p l →
      ∃ ch, l.get? k = some ch ∧ p ch = true := by
  intro l
  induction l with
  | nil => intro k hk; simp [takeCount] at hk
  | cons c rest ih =>
    intro k hk
    simp only [takeCount] at hk
    by_cases hc : p c
    · rw [if_pos hc] at hk
      cases k with
      | zero => exact ⟨c, by simp, hc⟩
      | succ k' =>
        obtain ⟨ch, hg, hp⟩ := ih k' (by omega)
        exact ⟨ch, by simpa using hg, hp⟩
    · rw [if_neg hc] at hk
      omega

theorem runLen_chars (p : Char → Bool) (u : List Char) (i k : Nat)
    (hk : k < runLen p u i) :
    ∃ ch, u.get? (i + k) = some ch ∧ p ch = true := by
  obtain ⟨ch, hg, hp⟩ := takeCount_chars p (u.drop i) k hk
  rw [List.get?_drop] at hg
  exact ⟨ch, hg, hp⟩

theorem skipWs_chars (u : List Char) (i k : Nat)
    (h : i ≤ k) (hk : k < skipWs u i) :
    ∃ ch, u.get? k = some ch ∧ isSkipWs ch = true := by
  obtain ⟨ch, hg, hp⟩ := runLen_chars isSkipWs u i (k - i)
    (by unfold skipWs at hk; omega)
  rw [show i + (k - i) = k from by omega] at hg
  exact ⟨ch, hg, hp⟩

theorem white_not_ident (ch : Char) (h : isWhiteChar ch = true) :
    isIdentChar ch = false := by
  simp only [isWhiteChar, Bool.or_eq_true, decide_eq_true_eq] at h
  rcases h with ((h | h) | h) | h <;> subst h <;> decide

theorem skip_white (ch : Char) (h : isSkipWs ch = true) :
    isWhiteChar ch = true := by
  simp only [isSkipWs, Bool.or_eq_true, decide_eq_true_eq] at h
  rcases h with h | h <;> subst h <;> decide

theorem skipWs_eq_of_head (w : List Char) (p : Nat) (d : Char)
    (t : List Char) (hm : matchAt w p (d :: t) = true)
    (hd : isSkipWs d = false) : skipWs w p = p :=
  skipWs_id w p d (matchAt_head w p d t hm) hd

/-! ### Position bounds and progress -/

theorem orElse_some {α : Type} {a b : Option α} {x : α}
    (h : (a <|> b) = some x) : a = some x ∨ b = some x := by
  cases a with
  | none => right; simpa [Option.orElse] using h
  | some v => left; simpa [Option.orElse] using h

theorem Strict.pb {lt : P} (h : Strict lt) : PB lt :=
  fun u i c j hp => ⟨Nat.le_of_lt (h u i c j hp).1, (h u i c j hp).2⟩

theorem litP_strict (s : String) (hs : 1 ≤ s.length) : Strict (litP s) := by
  intro u i c j h
  unfold litP at h
  split at h
  · rename_i hm
    injection h with h1
    have hj := congrArg Prod.snd h1
    simp only at hj
    have hle := matchAt_le u (skipWs u i) s.data (by simpa using hs) hm
    have := le_skipWs u i
    simp only [String.length] at hs hj ⊢
    omega
  · exact Option.noConfusion h

theorem litAtP_strict (s : String) (hs : 1 ≤ s.length) : Strict (litAtP s) := by
  intro u i c j h
  unfold litAtP at h
  split at h
  · rename_i hm
    injection h with h1
    have hj := congrArg Prod.snd h1
    simp only at hj
    have hle := matchAt_le u i s.data (by simpa using hs) hm
    simp only [String.length] at hs hj ⊢
    omega
  · exact Option.noConfusion h

theorem keywordP_strict (s : String) (hs : 1 ≤ s.length) :
    Strict (keywordP s) := by
  intro u i c j h
  unfold keywordP at h
  split at h
  · rename_i hm
    simp only [Bool.and_eq_true] at hm
    injection h with h1
    have hj := congrArg Prod.snd h1
    simp only at hj
    have hle := matchAt_le u (skipWs u i) s.data (by simpa using hs) hm.1.1
    have := le_skipWs u i
    simp only [String.length] at hs hj ⊢
    omega
  · exact Option.noConfusion h

theorem wordAtP_strict (init body : Char → Bool) :
    Strict (wordAtP init body) := by
  intro u i c j h
  unfold wordAtP at h
  split at h
  · rename_i ch hg
    split at h
    · injection h with h1
      have hj := congrArg Prod.snd h1
      simp only at hj
      have hlt : i < u.length := by
        by_contra hge
        push_neg at hge
        rw [List.get?_eq_none.mpr hge] at hg
        exact Option.noConfusion hg
      have hrun := runLen_le_of_le body u (i + 1) (by omega)
      omega
    · exact Option.noConfusion h
  · exact Option.noConfusion h

theorem varnameAtP_strict : Strict varnameAtP :=
  wordAtP_strict _ _

theorem varnameP_strict : Strict varnameP := by
  intro u i c j h
  unfold varnameP at h
  have := varnameAtP_strict u (skipWs u i) c j h
  have := le_skipWs u i
  omega

theorem whiteP_strict : Strict whiteP := by
  intro u i c j h
  unfold whiteP at h
  split at h
  · exact Option.noConfusion h
  · rename_i hn
    injection h with h1
    have hj := congrArg Prod.snd h1
    simp only at hj
    have hi : i < u.length := by
      by_contra hge
      push_neg at hge
      have := runLen_zero_of_none isWhiteChar u i (List.get?_eq_none.mpr hge)
      omega
    have hrun := runLen_le_of_le isWhiteChar u i (by omega)
    omega

theorem white1P_strict : Strict white1P := by
  intro u i c j h
  unfold white1P at h
  split at h
  · rename_i ch hg
    split at h
    · injection h with h1
      have hj := congrArg Prod.snd h1
      simp only at hj
      have hlt : i < u.length := by
        by_contra hge
        push_neg at hge
        rw [List.get?_eq_none.mpr hge] at hg
        exact Option.noConfusion hg
      omega
    · exact Option.noConfusion h
  · exact Option.noConfusion h

theorem quotedP_strict : Strict quotedP := by
  intro u i c j h
  unfold quotedP at h
  split at h
  · rename_i ch hg
    split at h
    · split at h
      · rename_i d hg2
        split at h
        · injection h with h1
          have hj := congrArg Prod.snd h1
          simp only at hj
          have hlt : skipWs u i + runLen isQInner u (skipWs u i + 1) + 1
              < u.length := by
            by_contra hge
            push_neg at hge
            rw [List.get?_eq_none.mpr hge] at hg2
            exact Option.noConfusion hg2
          have := le_skipWs u i
          omega
        · exact Option.noConfusion h
      · exact Option.noConfusion h
    · exact Option.noConfusion h
  · exact Option.noConfusion h

theorem dottedP_strict : Strict dottedP := by
  intro u i c j h
  unfold dottedP at h
  split at h
  · exact Option.noConfusion h
  · rename_i hn1
    split at h
    · rename_i ch hg
      split at h
      · split at h
        · exact Option.noConfusion h
        · rename_i hn2
          have hdot : skipWs u i + runLen isWordChar u (skipWs u i)
              < u.length := by
            by_contra hge
            push_neg at hge
            rw [List.get?_eq_none.mpr hge] at hg
            exact Option.noConfusion hg
          have hr2 := runLen_le_of_le isWordChar u
            (skipWs u i + runLen isWordChar u (skipWs u i) + 1) (by omega)
          have hsk := le_skipWs u i
          split at h
          · rename_i hbr
            injection h with h1
            have hj := congrArg Prod.snd h1
            simp only at hj
            have hmb := matchAt_le u _ ['[', ']'] (by simp) hbr
            simp only [List.length_cons, List.length_nil] at hmb
            unfold dotEnd at hj hmb
            omega
          · injection h with h1
            have hj := congrArg Prod.snd h1
            simp only at hj
            unfold dotEnd at hj
            omega
      · exact Option.noConfusion h
    · exact Option.noConfusion h

theorem optWhite_bounds (u : List Char) (i : Nat) (h : i ≤ u.length) :
    i ≤ (optWhite u i).2 ∧ (optWhite u i).2 ≤ u.length := by
  unfold optWhite
  have := runLen_le_of_le isWhiteChar u i h
  simp only
  omega

theorem strict_pair {lt : P} (h : Strict lt) {u : List Char} {i : Nat}
    {r : String × Nat} (hp : lt u i = some r) : i < r.2 ∧ r.2 ≤ u.length :=
  h u i r.1 r.2 (by rw [hp])

theorem optWhite_le (u : List Char) (i : Nat) : i ≤ (optWhite u i).2 := by
  have hv : (optWhite u i).2 = i + runLen isWhiteChar u i := rfl
  omega

theorem luaListP_strict : Strict luaListP := by
  intro u i c j h
  unfold luaListP at h
  rcases orElse_some h with h | h
  · exact keywordP_strict "string[]" (by decide) u i c j h
  rcases orElse_some h with h | h
  · exact keywordP_strict "integer[]" (by decide) u i c j h
  rcases orElse_some h with h | h
  · exact keywordP_strict "number[]" (by decide) u i c j h
  rcases orElse_some h with h | h
  · exact keywordP_strict "any[]" (by decide) u i c j h
  exact keywordP_strict "boolean[]" (by decide) u i c j h

theorem primitiveP_strict : Strict primitiveP := by
  intro u i c j h
  unfold primitiveP at h
  rcases orElse_some h with h | h
  · exact keywordP_strict "nil" (by decide) u i c j h
  rcases orElse_some h with h | h
  · exact keywordP_strict "string" (by decide) u i c j h
  rcases orElse_some h with h | h
  · exact keywordP_strict "integer" (by decide) u i c j h
  rcases orElse_some h with h | h
  · exact keywordP_strict "boolean" (by decide) u i c j h
  rcases orElse_some h with h | h
  · exact keywordP_strict "number" (by decide) u i c j h
  rcases orElse_some h with h | h
  · exact keywordP_strict "table" (by decide) u i c j h
  rcases orElse_some h with h | h
  · exact quotedP_strict u i c j h
  rcases orElse_some h with h | h
  · exact keywordP_strict "any" (by decide) u i c j h
  exact dottedP_strict u i c j h

theorem luaTableP_strict {lt : P} (hlt : Strict lt) :
    Strict (luaTableP lt) := by
  intro u i c j h
  unfold luaTableP at h
  rcases Option.bind_eq_some.mp h with ⟨r1, h1, h⟩
  rcases Option.bind_eq_some.mp h with ⟨r2, h2, h⟩
  rcases Option.bind_eq_some.mp h with ⟨rk, hk, h⟩
  rcases Option.bind_eq_some.mp h with ⟨r4, h4, h⟩
  rcases Option.bind_eq_some.mp h with ⟨rv, hv, h⟩
  rcases Option.bind_eq_some.mp h with ⟨r7, h7, h⟩
  injection h with h
  rw [Prod.mk.injEq] at h
  obtain ⟨hcE, hj⟩ := h
  have b1 := strict_pair (keywordP_strict "table" (by decide)) h1
  have b2 := strict_pair (litP_strict "<" (by decide)) h2
  have bk := strict_pair hlt hk
  have b4 := strict_pair (litP_strict "," (by decide)) h4
  have bo := optWhite_le u r4.2
  have bv := strict_pair hlt hv
  have b7 := strict_pair (litP_strict ">" (by decide)) h7
  omega

theorem luaFuncParamP_strict {lt : P} (hlt : Strict lt) :
    Strict (luaFuncParamP lt) := by
  intro u i c j h
  unfold luaFuncParamP at h
  rcases Option.bind_eq_some.mp h with ⟨rn, hn, h⟩
  rcases Option.bind_eq_some.mp h with ⟨rc, hc2, h⟩
  rcases Option.bind_eq_some.mp h with ⟨rt, ht, h⟩
  injection h with h
  rw [Prod.mk.injEq] at h
  obtain ⟨hcE, hj⟩ := h
  have h0 := optWhite_le u i
  have bn := strict_pair varnameAtP_strict hn
  have bc := strict_pair (litAtP_strict ":" (by decide)) hc2
  have ho2 := optWhite_le u rc.2
  have bt := strict_pair hlt ht
  have hjv : (optWhite u rt.2).2 = rt.2 + runLen isWhiteChar u rt.2 := rfl
  have := runLen_le_of_le isWhiteChar u rt.2 bt.2
  omega

theorem paramsLoopP_bounds {lt : P} (hlt : Strict lt) :
    ∀ fuel acc u cur c j, paramsLoopP lt fuel acc u cur = some (c, j) →
      cur ≤ j ∧ (cur ≤ u.length → j ≤ u.length) := by
  intro fuel
  induction fuel with
  | zero =>
    intro acc u cur c j h
    exact Option.noConfusion h
  | succ n ih =>
    intro acc u cur c j h
    simp only [paramsLoopP] at h
    split at h
    · injection h with h
      rw [Prod.mk.injEq] at h
      omega
    · rename_i rc hrc
      split at h
      · injection h with h
        rw [Prod.mk.injEq] at h
        omega
      · rename_i rp hrp
        have hb1 := strict_pair (litAtP_strict "," (by decide)) hrc
        have hb2 := strict_pair (luaFuncParamP_strict hlt) hrp
        have hrest := ih _ u rp.2 c j h
        exact ⟨by omega, fun _ => hrest.2 (by omega)⟩

theorem luaFuncParamsP_strict {lt : P} (hlt : Strict lt) (fuel : Nat) :
    Strict (luaFuncParamsP lt fuel) := by
  intro u i c j h
  unfold luaFuncParamsP at h
  rcases Option.bind_eq_some.mp h with ⟨r1, h1, h⟩
  have b1 := strict_pair (luaFuncParamP_strict hlt) h1
  have b2 := paramsLoopP_bounds hlt fuel r1.1 u r1.2 c j h
  exact ⟨by omega, b2.2 b1.2⟩

theorem funParamsOpt_bounds {lt : P} (hlt : Strict lt) (fuel : Nat)
    (u : List Char) (i : Nat) (hi : i ≤ u.length) :
    i ≤ (funParamsOpt lt fuel u i).2
      ∧ (funParamsOpt lt fuel u i).2 ≤ u.length := by
  unfold funParamsOpt
  split
  · rename_i r hr
    have := strict_pair (luaFuncParamsP_strict hlt fuel) hr
    omega
  · simp only
    omega

theorem luaFuncP_strict {lt : P} (hlt : Strict lt) (fuel : Nat) :
    Strict (luaFuncP lt fuel) := by
  intro u i c j h
  unfold luaFuncP at h
  rcases Option.bind_eq_some.mp h with ⟨r1, h1, h⟩
  rcases Option.bind_eq_some.mp h with ⟨r2, h2, h⟩
  rcases Option.bind_eq_some.mp h with ⟨ps, hps, h⟩
  rcases Option.bind_eq_some.mp h with ⟨r4, h4, h⟩
  have b1 := strict_pair (keywordP_strict "fun" (by decide)) h1
  have b2 := strict_pair (litP_strict "(" (by decide)) h2
  have hps' : ps = funParamsOpt lt fuel u r2.2 := by
    injection hps with hps
    exact hps.symm
  have bps := funParamsOpt_bounds hlt fuel u r2.2 b2.2
  rw [← hps'] at bps
  have b4 := strict_pair (litP_strict ")" (by decide)) h4
  split at h
  · rename_i rret hret
    rcases Option.bind_eq_some.mp hret with ⟨rc, hc2, hret⟩
    rcases Option.map_eq_some'.mp hret with ⟨rr, hrr, hre⟩
    injection h with h
    rw [Prod.mk.injEq] at h
    obtain ⟨hcE, hj⟩ := h
    have bc := strict_pair (litP_strict ":" (by decide)) hc2
    have ho := optWhite_le u rc.2
    have br := strict_pair hlt hrr
    have hr2 : rret.2 = rr.2 := by rw [← hre]
    omega
  · injection h with h
    rw [Prod.mk.injEq] at h
    obtain ⟨hcE, hj⟩ := h
    have hsk := le_skipWs u r4.2
    have hsl := skipWs_le u r4.2 b4.2
    omega

theorem nonUnionP_strict {lt : P} (hlt : Strict lt) (fuel : Nat) :
    Strict (nonUnionP lt fuel) := by
  intro u i c j h
  unfold nonUnionP at h
  rcases orElse_some h with h | h
  · exact luaListP_strict u i c j h
  rcases orElse_some h with h | h
  · exact luaTableP_strict hlt u i c j h
  rcases orElse_some h with h | h
  · exact luaFuncP_strict hlt fuel u i c j h
  exact primitiveP_strict u i c j h

theorem unionLoopP_bounds {lt : P} (hlt : Strict lt) :
    ∀ fuel acc u cur c j, unionLoopP lt fuel acc u cur = some (c, j) →
      cur ≤ j ∧ (cur ≤ u.length → j ≤ u.length) := by
  intro fuel
  induction fuel with
  | zero =>
    intro acc u cur c j h
    exact Option.noConfusion h
  | succ n ih =>
    intro acc u cur c j h
    simp only [unionLoopP] at h
    split at h
    · injection h with h
      rw [Prod.mk.injEq] at h
      omega
    · rename_i rp hrp
      split at h
      · injection h with h
        rw [Prod.mk.injEq] at h
        omega
      · rename_i re hre
        have hb1 := strict_pair (litAtP_strict "|" (by decide)) hrp
        have hb2 := strict_pair (nonUnionP_strict hlt n) hre
        have hsk := le_skipWs u cur
        have hrest := ih _ u re.2 c j h
        exact ⟨by omega, fun _ => hrest.2 (by omega)⟩

theorem unionTypeP_strict {lt : P} (hlt : Strict lt) (fuel : Nat) :
    Strict (unionTypeP lt fuel) := by
  intro u i c j h
  unfold unionTypeP at h
  rcases Option.bind_eq_some.mp h with ⟨r1, h1, h⟩
  have b1 := strict_pair (nonUnionP_strict hlt fuel) h1
  have hsk := le_skipWs u r1.2
  have hsl := skipWs_le u r1.2 b1.2
  have b2 := unionLoopP_bounds hlt fuel r1.1 u (skipWs u r1.2) c j h
  exact ⟨by omega, b2.2 hsl⟩

theorem luaType_strict : ∀ fuel, Strict (luaType fuel) := by
  intro fuel
  induction fuel with
  | zero =>
    intro u i c j h
    exact Option.noConfusion h
  | succ n ih =>
    intro u i c j h
    simp only [luaType] at h
    rcases orElse_some h with h | h
    · exact unionTypeP_strict ih n u i c j h
    · exact nonUnionP_strict ih n u i c j h

/-! ### Failure at end of input, and fuel stability -/

theorem matchAt_eos (u : List Char) (i : Nat) (s : List Char)
    (hs : 1 ≤ s.length) (h : u.length ≤ i) : matchAt u i s = false := by
  cases s with
  | nil => simp at hs
  | cons d t =>
    unfold matchAt
    rw [List.drop_eq_nil_of_le h]
    rfl

theorem skipWs_eos (u : List Char) (i : Nat) (h : u.length ≤ i) :
    skipWs u i = i :=
  skipWs_id_of_none u i (List.get?_eq_none.mpr h)

theorem one_le_data_length (s : String) (hs : 1 ≤ s.length) :
    1 ≤ s.data.length := by
  simp only [String.length] at hs
  exact hs

theorem litP_eos (s : String) (hs : 1 ≤ s.length) (u : List Char) (i : Nat)
    (h : u.length ≤ i) : litP s u i = none := by
  unfold litP
  rw [skipWs_eos u i h,
    matchAt_eos u i s.data (one_le_data_length s hs) h]
  rfl

theorem keywordP_eos (s : String) (hs : 1 ≤ s.length) (u : List Char)
    (i : Nat) (h : u.length ≤ i) : keywordP s u i = none := by
  unfold keywordP
  rw [skipWs_eos u i h,
    matchAt_eos u i s.data (one_le_data_length s hs) h]
  rfl

theorem quotedP_eos (u : List Char) (i : Nat) (h : u.length ≤ i) :
    quotedP u i = none := by
  unfold quotedP
  rw [skipWs_eos u i h, List.get?_eq_none.mpr h]

theorem dottedP_eos (u : List Char) (i : Nat) (h : u.length ≤ i) :
    dottedP u i = none := by
  unfold dottedP
  rw [skipWs_eos u i h,
    runLen_zero_of_none isWordChar u i (List.get?_eq_none.mpr h)]
  rfl

theorem nonUnionP_eos (lt : P) (fl : Nat) (u : List Char) (i : Nat)
    (h : u.length ≤ i) : nonUnionP lt fl u i = none := by
  unfold nonUnionP luaListP luaTableP luaFuncP primitiveP
  rw [keywordP_eos "string[]" (by decide) u i h,
    keywordP_eos "integer[]" (by decide) u i h,
    keywordP_eos "number[]" (by decide) u i h,
    keywordP_eos "any[]" (by decide) u i h,
    keywordP_eos "boolean[]" (by decide) u i h,
    keywordP_eos "table" (by decide) u i h,
    keywordP_eos "fun" (by decide) u i h,
    keywordP_eos "nil" (by decide) u i h,
    keywordP_eos "string" (by decide) u i h,
    keywordP_eos "integer" (by decide) u i h,
    keywordP_eos "boolean" (by decide) u i h,
    keywordP_eos "number" (by decide) u i h,
    quotedP_eos u i h, keywordP_eos "any" (by decide) u i h,
    dottedP_eos u i h]
  rfl

theorem unionTypeP_eos (lt : P) (fl : Nat) (u : List Char) (i : Nat)
    (h : u.length ≤ i) : unionTypeP lt fl u i = none := by
  unfold unionTypeP
  rw [nonUnionP_eos lt fl u i h]
  rfl

theorem luaType_eos (f : Nat) (u : List Char) (i : Nat)
    (h : u.length ≤ i) : luaType f u i = none := by
  cases f with
  | zero => rfl
  | succ n =>
    show (unionTypeP (luaType n) n u i <|> nonUnionP (luaType n) n u i) = none
    rw [unionTypeP_eos (luaType n) n u i h, nonUnionP_eos (luaType n) n u i h]
    rfl

theorem luaFuncParamP_congr {lt lt' : P} {u : List Char} {i : Nat}
    (hS : Strict lt)
    (hA : ∀ pos, i < pos → pos ≤ u.length → lt u pos = lt' u pos) :
    luaFuncParamP lt u i = luaFuncParamP lt' u i := by
  unfold luaFuncParamP
  cases hn : varnameAtP u (optWhite u i).2 with
  | none => rfl
  | some rn =>
    simp only [Option.some_bind]
    cases hc : litAtP ":" u rn.2 with
    | none => rfl
    | some rc =>
      simp only [Option.some_bind]
      have h0 := optWhite_le u i
      have bn := strict_pair varnameAtP_strict hn
      have bc := strict_pair (litAtP_strict ":" (by decide)) hc
      have bo := optWhite_bounds u rc.2 bc.2
      rw [hA (optWhite u rc.2).2 (by omega) bo.2]

theorem luaTableP_congr {lt lt' : P} {u : List Char} {i : Nat}
    (hS : Strict lt)
    (hA : ∀ pos, i < pos → pos ≤ u.length → lt u pos = lt' u pos) :
    luaTableP lt u i = luaTableP lt' u i := by
  unfold luaTableP
  cases h1 : keywordP "table" u i with
  | none => rfl
  | some r1 =>
    simp only [Option.some_bind]
    cases h2 : litP "<" u r1.2 with
    | none => rfl
    | some r2 =>
      simp only [Option.some_bind]
      have b1 := strict_pair (keywordP_strict "table" (by decide)) h1
      have b2 := strict_pair (litP_strict "<" (by decide)) h2
      rw [hA r2.2 (by omega) b2.2]
      cases hk : lt' u r2.2 with
      | none => rfl
      | some rk =>
        simp only [Option.some_bind]
        have hk' : lt u r2.2 = some rk := (hA r2.2 (by omega) b2.2).trans hk
        have bk := strict_pair hS hk'
        cases h4 : litP "," u rk.2 with
        | none => rfl
        | some r4 =>
          simp only [Option.some_bind]
          have b4 := strict_pair (litP_strict "," (by decide)) h4
          have bo := optWhite_bounds u r4.2 b4.2
          rw [hA (optWhite u r4.2).2 (by omega) bo.2]

theorem paramsLoopP_congr {lt lt' : P} {u : List Char} (hS : Strict lt) :
    ∀ n m acc cur, cur ≤ u.length →
      u.length + 1 ≤ n + cur → u.length + 1 ≤ m + cur →
      (∀ pos, cur < pos → pos ≤ u.length → lt u pos = lt' u pos) →
      paramsLoopP lt n acc u cur = paramsLoopP lt' m acc u cur := by
  intro n
  induction n with
  | zero =>
    intro m acc cur hc h1 h2 hA
    omega
  | succ n ih =>
    intro m acc cur hc h1 h2 hA
    cases m with
    | zero => omega
    | succ m' =>
      simp only [paramsLoopP]
      split
      · rfl
      · rename_i rc hrc
        have brc := strict_pair (litAtP_strict "," (by decide)) hrc
        have hApp : luaFuncParamP lt u rc.2 = luaFuncParamP lt' u rc.2 :=
          luaFuncParamP_congr hS (fun pos hp hl => hA pos (by omega) hl)
        rw [hApp]
        split
        · rfl
        · rename_i rp hrp
          have hrp' : luaFuncParamP lt u rc.2 = some rp := hApp.trans hrp
          have brp := strict_pair (luaFuncParamP_strict hS) hrp'
          exact ih m' _ rp.2 brp.2 (by omega) (by omega)
            (fun pos hp hl => hA pos (by omega) hl)

theorem luaFuncP_congr {lt lt' : P} {u : List Char} {i : Nat}
    (hS : Strict lt) (fl fl' : Nat)
    (h1 : u.length + 1 ≤ fl + i) (h2 : u.length + 1 ≤ fl' + i)
    (hA : ∀ pos, i < pos → pos ≤ u.length → lt u pos = lt' u pos) :
    luaFuncP lt fl u i = luaFuncP lt' fl' u i := by
  unfold luaFuncP
  cases hk : keywordP "fun" u i with
  | none => rfl
  | some r1 =>
    simp only [Option.some_bind]
    cases hp : litP "(" u r1.2 with
    | none => rfl
    | some r2 =>
      simp only [Option.some_bind]
      have b1 := strict_pair (keywordP_strict "fun" (by decide)) hk
      have b2 := strict_pair (litP_strict "(" (by decide)) hp
      have hfp : funParamsOpt lt fl u r2.2 = funParamsOpt lt' fl' u r2.2 := by
        unfold funParamsOpt luaFuncParamsP
        have hpc : luaFuncParamP lt u r2.2 = luaFuncParamP lt' u r2.2 :=
          luaFuncParamP_congr hS (fun pos hpp hl => hA pos (by omega) hl)
        rw [hpc]
        cases hp1 : luaFuncParamP lt' u r2.2 with
        | none => rfl
        | some rp1 =>
          simp only [Option.some_bind]
          have hp1' : luaFuncParamP lt u r2.2 = some rp1 := hpc.trans hp1
          have bp1 := strict_pair (luaFuncParamP_strict hS) hp1'
          rw [paramsLoopP_congr hS fl fl' rp1.1 rp1.2 bp1.2 (by omega)
            (by omega) (fun pos hpp hl => hA pos (by omega) hl)]
      have bfp := funParamsOpt_bounds hS fl u r2.2 b2.2
      rw [hfp] at bfp
      rw [hfp]
      cases h4 : litP ")" u (funParamsOpt lt' fl' u r2.2).2 with
      | none => rfl
      | some r4 =>
        simp only [Option.some_bind]
        have b4 := strict_pair (litP_strict ")" (by decide)) h4
        cases hrc : litP ":" u r4.2 with
        | none => rfl
        | some rc =>
          simp only [Option.some_bind]
          have bc := strict_pair (litP_strict ":" (by decide)) hrc
          have bo := optWhite_bounds u rc.2 bc.2
          rw [hA (optWhite u rc.2).2 (by omega) bo.2]

theorem nonUnionP_congr {lt lt' : P} {u : List Char} {i : Nat}
    (hS : Strict lt) (fl fl' : Nat)
    (h1 : u.length + 1 ≤ fl + i) (h2 : u.length + 1 ≤ fl' + i)
    (hA : ∀ pos, i < pos → pos ≤ u.length → lt u pos = lt' u pos) :
    nonUnionP lt fl u i = nonUnionP lt' fl' u i := by
  unfold nonUnionP
  rw [luaTableP_congr hS hA, luaFuncP_congr hS fl fl' h1 h2 hA]

theorem unionLoopP_congr {lt lt' : P} {u : List Char} (hS : Strict lt) :
    ∀ n m acc cur, cur ≤ u.length →
      u.length + 1 ≤ n + cur → u.length + 1 ≤ m + cur →
      (∀ pos, cur < pos → pos ≤ u.length → lt u pos = lt' u pos) →
      unionLoopP lt n acc u cur = unionLoopP lt' m acc u cur := by
  intro n
  induction n with
  | zero =>
    intro m acc cur hc h1 h2 hA
    omega
  | succ n ih =>
    intro m acc cur hc h1 h2 hA
    cases m with
    | zero => omega
    | succ m' =>
      simp only [unionLoopP]
      split
      · rfl
      · rename_i rp hrp
        have hsk := le_skipWs u cur
        have brp := strict_pair (litAtP_strict "|" (by decide)) hrp
        have hne : nonUnionP lt n u rp.2 = nonUnionP lt' m' u rp.2 :=
          nonUnionP_congr hS n m' (by omega) (by omega)
            (fun pos hp hl => hA pos (by omega) hl)
        rw [hne]
        split
        · rfl
        · rename_i re hre
          have hre' : nonUnionP lt n u rp.2 = some re := hne.trans hre
          have bre := strict_pair (nonUnionP_strict hS n) hre'
          exact ih m' _ re.2 bre.2 (by omega) (by omega)
            (fun pos hp hl => hA pos (by omega) hl)

theorem unionTypeP_congr {lt lt' : P} {u : List Char} {i : Nat}
    (hS : Strict lt) (fl fl' : Nat)
    (h1 : u.length + 1 ≤ fl + i) (h2 : u.length + 1 ≤ fl' + i)
    (hA : ∀ pos, i < pos → pos ≤ u.length → lt u pos = lt' u pos) :
    unionTypeP lt fl u i = unionTypeP lt' fl' u i := by
  unfold unionTypeP
  rw [nonUnionP_congr hS fl fl' h1 h2 hA]
  cases hr1 : nonUnionP lt' fl' u i with
  | none => rfl
  | some r1 =>
    simp only [Option.some_bind]
    have hr1' : nonUnionP lt fl u i = some r1 :=
      (nonUnionP_congr hS fl fl' h1 h2 hA).trans hr1
    have b1 := strict_pair (nonUnionP_strict hS fl) hr1'
    have hsl := skipWs_le u r1.2 b1.2
    have hsk := le_skipWs u r1.2
    exact unionLoopP_congr hS fl fl' r1.1 (skipWs u r1.2) hsl (by omega)
      (by omega) (fun pos hp hl => hA pos (by omega) hl)

theorem orElse_cases {α : Type} {a b : Option α} {x : α}
    (h : (a <|> b) = some x) : a = some x ∨ (a = none ∧ b = some x) := by
  cases a with
  | none => exact Or.inr ⟨rfl, by simpa [Option.orElse] using h⟩
  | some v => exact Or.inl (by simpa [Option.orElse] using h)

theorem unionLoopP_some {lt : P} (hS : Strict lt) :
    ∀ fl acc u cur, cur ≤ u.length → u.length + 1 ≤ fl + cur →
      unionLoopP lt fl acc u cur ≠ none := by
  intro fl
  induction fl with
  | zero =>
    intro acc u cur h1 h2
    omega
  | succ n ih =>
    intro acc u cur h1 h2
    simp only [unionLoopP]
    split
    · simp
    · rename_i rp hrp
      split
      · simp
      · rename_i re hre
        have brp := strict_pair (litAtP_strict "|" (by decide)) hrp
        have bre := strict_pair (nonUnionP_strict hS n) hre
        have hsk := le_skipWs u cur
        exact ih _ u re.2 bre.2 (by omega)

theorem unionLoopP_end {lt : P} (hS : Strict lt) :
    ∀ fl acc u cur c j, cur ≤ u.length → u.length + 1 ≤ fl + cur →
      unionLoopP lt fl acc u cur = some (c, j) →
      ∀ r, litAtP "|" u (skipWs u j) = some r →
        ∃ k, u.length + 1 ≤ k + r.2 ∧ nonUnionP lt k u r.2 = none := by
  intro fl
  induction fl with
  | zero =>
    intro acc u cur c j h1 h2 h
    exact Option.noConfusion h
  | succ n ih =>
    intro acc u cur c j h1 h2 h
    simp only [unionLoopP] at h
    split at h
    · rename_i hnone
      injection h with h
      rw [Prod.mk.injEq] at h
      obtain ⟨hc, hj⟩ := h
      subst hj
      intro r hr
      rw [hnone] at hr
      exact Option.noConfusion hr
    · rename_i rp hrp
      split at h
      · rename_i hren
        injection h with h
        rw [Prod.mk.injEq] at h
        obtain ⟨hc, hj⟩ := h
        subst hj
        intro r hr
        rw [hrp] at hr
        injection hr with hr
        subst hr
        have brp := strict_pair (litAtP_strict "|" (by decide)) hrp
        have hsk := le_skipWs u cur
        exact ⟨n, by omega, hren⟩
      · rename_i re hre
        have brp := strict_pair (litAtP_strict "|" (by decide)) hrp
        have bre := strict_pair (nonUnionP_strict hS n) hre
        have hsk := le_skipWs u cur
        exact ih _ u re.2 c j bre.2 (by omega) h

theorem luaType_via_union (f₁ : Nat) (u : List Char) (i : Nat) (c : String)
    (j : Nat) (hi : i ≤ u.length) (hf : u.length + 1 ≤ f₁ + i)
    (hp : luaType (f₁ + 1) u i = some (c, j)) :
    unionTypeP (luaType f₁) f₁ u i = some (c, j) := by
  have hp' : (unionTypeP (luaType f₁) f₁ u i
      <|> nonUnionP (luaType f₁) f₁ u i) = some (c, j) := hp
  rcases orElse_cases hp' with h | ⟨hnone, hfb⟩
  · exact h
  · exfalso
    unfold unionTypeP at hnone
    rw [hfb] at hnone
    simp only [Option.some_bind] at hnone
    have bj := strict_pair (nonUnionP_strict (luaType_strict f₁) f₁) hfb
    have hsk := le_skipWs u j
    exact unionLoopP_some (luaType_strict f₁) f₁ _ u _
      (skipWs_le u j bj.2) (by omega) hnone

/-! ### The expanded input is tab-free -/

theorem expandTabs_eq_self (l : List Char) :
    (∀ ch ∈ l, ch ≠ Char.ofNat 9) → ∀ col, expandTabs l col = l := by
  induction l with
  | nil => intro h col; rfl
  | cons c rest ih =>
    intro h col
    have hc : ¬(c = Char.ofNat 9) := h c (List.mem_cons_self c rest)
    have hr := ih (fun ch hch => h ch (List.mem_cons_of_mem c hch))
    unfold expandTabs
    rw [if_neg (by simpa using hc)]
    by_cases hn : (c = Char.ofNat 10 || c = Char.ofNat 13) = true
    · rw [if_pos (by simpa using hn), hr 0]
    · rw [if_neg (by simpa using hn), hr (col + 1)]

theorem expandTabs_noTab :
    ∀ (l : List Char) (col : Nat), ∀ ch ∈ expandTabs l col,
      ch ≠ Char.ofNat 9 := by
  intro l
  induction l with
  | nil => intro col ch h; simp [expandTabs] at h
  | cons c rest ih =>
    intro col ch h
    unfold expandTabs at h
    by_cases hc : c = Char.ofNat 9
    · rw [if_pos (by simpa using hc)] at h
      rcases List.mem_append.mp h with h | h
      · rw [(List.mem_replicate.mp h).2]
        decide
      · exact ih _ ch h
    · rw [if_neg (by simpa using hc)] at h
      by_cases hn : (c = Char.ofNat 10 || c = Char.ofNat 13) = true
      · rw [if_pos (by simpa using hn)] at h
        rcases List.mem_cons.mp h with h | h
        · rw [h]; exact hc
        · exact ih _ ch h
      · rw [if_neg (by simpa using hn)] at h
        rcases List.mem_cons.mp h with h | h
        · rw [h]; exact hc
        · exact ih _ ch h

theorem luaType_stab :
    ∀ n u i f g, u.length - i ≤ n → i ≤ u.length →
      u.length + 2 ≤ f + i → u.length + 2 ≤ g + i →
      luaType f u i = luaType g u i := by
  intro n
  induction n with
  | zero =>
    intro u i f g hn hi hf hg
    have hl : u.length ≤ i := by omega
    rw [luaType_eos f u i hl, luaType_eos g u i hl]
  | succ n ih =>
    intro u i f g hn hi hf hg
    by_cases hieq : u.length ≤ i
    · rw [luaType_eos f u i hieq, luaType_eos g u i hieq]
    · push_neg at hieq
      obtain ⟨f₁, rfl⟩ : ∃ f₁, f = f₁ + 1 := ⟨f - 1, by omega⟩
      obtain ⟨g₁, rfl⟩ : ∃ g₁, g = g₁ + 1 := ⟨g - 1, by omega⟩
      have hA : ∀ pos, i < pos → pos ≤ u.length →
          luaType f₁ u pos = luaType g₁ u pos := by
        intro pos hp hl
        exact ih u pos f₁ g₁ (by omega) hl (by omega) (by omega)
      simp only [luaType]
      rw [unionTypeP_congr (luaType_strict f₁) f₁ g₁ (by omega) (by omega) hA,
        nonUnionP_congr (luaType_strict f₁) f₁ g₁ (by omega) (by omega) hA]

theorem luaType_end_no_pipe (f : Nat) (u : List Char) (i : Nat) (c : String)
    (j : Nat) (hi : i ≤ u.length) (hf : u.length + 2 ≤ f + i)
    (hp : luaType f u i = some (c, j)) :
    ∀ r, litAtP "|" u (skipWs u j) = some r →
      ∃ k, u.length + 1 ≤ k + r.2 ∧ nonUnionP (luaType f) k u r.2 = none := by
  obtain ⟨f₁, rfl⟩ : ∃ f₁, f = f₁ + 1 := ⟨f - 1, by omega⟩
  have hu := luaType_via_union f₁ u i c j hi (by omega) hp
  unfold unionTypeP at hu
  rcases Option.bind_eq_some.mp hu with ⟨r1, h1, hloop⟩
  have b1 := strict_pair (nonUnionP_strict (luaType_strict f₁) f₁) h1
  intro r hr
  obtain ⟨k, hk, hnone⟩ := unionLoopP_end (luaType_strict f₁) f₁ r1.1 u
    (skipWs u r1.2) c j (skipWs_le u r1.2 b1.2)
    (by have := le_skipWs u r1.2; omega) hloop r hr
  refine ⟨k, hk, ?_⟩
  rw [← hnone]
  have bj := unionLoopP_bounds (luaType_strict f₁) f₁ r1.1 u
    (skipWs u r1.2) c j hloop
  have hjl : j ≤ u.length := bj.2 (skipWs_le u r1.2 b1.2)
  have brr := strict_pair (litAtP_strict "|" (by decide)) hr
  have hsk := le_skipWs u j
  have hsk1 := le_skipWs u r1.2
  exact (nonUnionP_congr (luaType_strict f₁) k k (by omega) (by omega)
    (fun pos hp2 hl =>
      luaType_stab u.length u pos f₁ (f₁ + 1) (by omega) hl (by omega)
        (by omega))).symm



/-- C4: the table type form takes exactly two comma-separated arguments
(one or three are rejected), the grammar recurses into the full
type-expression grammar for each argument, and the nested input
`table<string, table<string,any>>` is accepted with a canonical string
equal to the input itself. -/
theorem table_type_two_args_nested_roundtrip :
    canonicalizeType "table<string, table<string,any>>"
        = some "table<string, table<string,any>>"
      ∧ canonicalizeType "table<string>" = none
      ∧ canonicalizeType "table<string,any,nil>" = none := by
  refine ⟨?_, ?_, ?_⟩ <;> decide

/-- C5: a union of two or more non-union type expressions canonicalizes
to the components joined left-to-right by a single `|` with no
surrounding whitespace, preserving textual order (not sorted):
`string|integer|nil` maps to itself, an unsorted order is kept, and
whitespace around the pipes is dropped. -/
theorem union_canonical_order_preserved :
    canonicalizeType "string|integer|nil" = some "string|integer|nil"
      ∧ canonicalizeType "nil|integer|string" = some "nil|integer|string"
      ∧ canonicalizeType "string | integer |nil" = some "string|integer|nil" := by
  refine ⟨?_, ?_, ?_⟩ <;> decide

/-- Helper: the entry step of `fpAux` with successor fuel. -/
theorem fpAux_entry (fuel : Nat) (params : List LuaParam) (ind : Nat) :
    fpAux (fuel + 1) params ind none
      = match maxShortNameLen params with
        | none => none
        | some m => fpAux fuel params ind (some (m + 1)) := by
  cases params <;> rfl

/-- Helper: the filtered short-name list is empty when every name is
longer than 16 characters. -/
theorem maxShortNameLen_eq_none (params : List LuaParam)
    (h : ∀ p ∈ params, 16 < p.name.length) : maxShortNameLen params = none := by
  unfold maxShortNameLen
  rw [List.max?_eq_none_iff, List.filter_eq_nil_iff]
  intro n hn
  simp only [List.mem_map] at hn
  obtain ⟨p, hp, rfl⟩ := hn
  simpa using h p hp

/-- C9: `format_params` on a non-empty parameter list whose names are all
longer than 16 characters raises (`max` of an empty sequence); it returns
normally only when at least one parameter name has length at most 16. -/
theorem format_params_needs_short_name :
    (∀ params ind, params ≠ [] → (∀ p ∈ params, 16 < p.name.length) →
        formatParams params ind = none)
      ∧ (∀ params ind r, formatParams params ind = some r →
        ∃ p ∈ params, p.name.length ≤ 16) := by
  constructor
  · intro params ind _ h
    show fpAux (luaParamsWeight params * 2 + 2) params ind none = none
    rw [show luaParamsWeight params * 2 + 2
          = (luaParamsWeight params * 2 + 1) + 1 from rfl, fpAux_entry,
        maxShortNameLen_eq_none params h]
  · intro params ind r h
    by_contra hc
    push_neg at hc
    have hnone : maxShortNameLen params = none :=
      maxShortNameLen_eq_none params (fun p hp => hc p hp)
    have h2 : fpAux (luaParamsWeight params * 2 + 2) params ind none = some r := h
    rw [show luaParamsWeight params * 2 + 2
          = (luaParamsWeight params * 2 + 1) + 1 from rfl, fpAux_entry,
        hnone] at h2
    exact Option.noConfusion h2

/-- Witness for `format_params_needs_short_name` at concrete inputs. -/
theorem format_params_needs_short_name_witness :
    formatParams [LuaParam.mk "averyverylongparametername" "string" "" []] 6 = none
      ∧ ∃ p ∈ [LuaParam.mk "ok" "string" "" []], p.name.length ≤ 16 := by
  constructor
  · exact format_params_needs_short_name.1
      [LuaParam.mk "averyverylongparametername" "string" "" []] 6
      (by simp) (by decide)
  · exact format_params_needs_short_name.2
      [LuaParam.mk "ok" "string" "" []] 6 ["      {ok} `string`\n"] (by decide)

/-- Helper: outside a section, if no remaining line matches the start
pattern, the loop ends with `inside = false` and `found` unchanged. -/
theorem rsLoop_no_start (sp : String → Bool) (ep : Option (String → Bool))
    (lines : List String) (found : Bool) :
    ∀ pre post up, (∀ l ∈ lines, sp l = false) →
      (rsLoop sp ep lines false found pre post up).2.2.1 = false
        ∧ (rsLoop sp ep lines false found pre post up).2.2.2 = found := by
  induction lines with
  | nil => intro pre post up _; exact ⟨rfl, rfl⟩
  | cons l ls ih =>
    intro pre post up h
    have hl : sp l = false := h l (List.mem_cons_self l ls)
    have hrest : ∀ x ∈ ls, sp x = false := fun x hx => h x (List.mem_cons_of_mem l hx)
    simp only [rsLoop, hl]
    by_cases hup : up
    · simpa [hup] using ih pre (post ++ [l]) true hrest
    · simpa [hup] using ih (pre ++ [l]) post false hrest

/-- Helper: inside a section with an end pattern no remaining line
matches, the loop ends still inside. -/
theorem rsLoop_no_end (sp : String → Bool) (ep : String → Bool)
    (lines : List String) (found : Bool) :
    ∀ pre post up, (∀ l ∈ lines, ep l = false) →
      (rsLoop sp (some ep) lines true found pre post up).2.2.1 = true := by
  induction lines with
  | nil => intro pre post up _; rfl
  | cons l ls ih =>
    intro pre post up h
    have hl : ep l = false := h l (List.mem_cons_self l ls)
    have hrest : ∀ x ∈ ls, ep x = false := fun x hx => h x (List.mem_cons_of_mem l hx)
    simp only [rsLoop, hl]
    exact ih pre post up hrest

/-- Helper: a prefix with no start-pattern match just accumulates lines,
leaving the outside-a-section state. -/
theorem rsLoop_skip_prefix (sp : String → Bool) (ep : Option (String → Bool))
    (l1 : List String) (tail : List String) :
    ∀ pre post up, (∀ l ∈ l1, sp l = false) →
      ∃ pre2 post2 up2,
        rsLoop sp ep (l1 ++ tail) false false pre post up
          = rsLoop sp ep tail false false pre2 post2 up2 := by
  induction l1 with
  | nil => intro pre post up _; exact ⟨pre, post, up, rfl⟩
  | cons l ls ih =>
    intro pre post up h
    have hl : sp l = false := h l (List.mem_cons_self l ls)
    have hrest : ∀ x ∈ ls, sp x = false := fun x hx => h x (List.mem_cons_of_mem l hx)
    simp only [List.cons_append, rsLoop, hl]
    by_cases hup : up
    · simpa [hup] using ih pre (post ++ [l]) true hrest
    · simpa [hup] using ih (pre ++ [l]) post false hrest

/-- C10: `replace_section` is atomic on error: if no line matches the
start pattern, or an end pattern is given and no line after the section
start matches it, the call raises and the file contents are unchanged
(the file is rewritten only after the section is found and closed). -/
theorem replace_section_atomic_on_error (sp : String → Bool)
    (ep : Option (String → Bool)) (newLines fileLines : List String)
    (h : (∀ l ∈ fileLines, sp l = false)
      ∨ (∃ epf l1 lstart l2, ep = some epf ∧ fileLines = l1 ++ lstart :: l2
          ∧ (∀ l ∈ l1, sp l = false) ∧ sp lstart = true
          ∧ ∀ l ∈ l2, epf l = false)) :
    (∃ e, replaceSection sp ep newLines fileLines = Except.error e)
      ∧ fileAfterReplaceSection sp ep newLines fileLines = fileLines := by
  have herr : ∃ e, replaceSection sp ep newLines fileLines = Except.error e := by
    rcases h with h | ⟨epf, l1, lstart, l2, hep, hsplit, h1, hs, h2⟩
    · refine ⟨"could not find file section", ?_⟩
      unfold replaceSection
      have := rsLoop_no_start sp ep fileLines false [] [] false h
      simp [this.2]
    · refine ⟨"could not find file section", ?_⟩
      unfold replaceSection
      subst hep hsplit
      obtain ⟨pre2, post2, up2, heq⟩ :=
        rsLoop_skip_prefix sp (some epf) l1 (lstart :: l2) [] [] false h1
      rw [heq]
      simp only [rsLoop, hs, if_true]
      by_cases hup : up2
      · simp only [hup, if_true]
        have := rsLoop_no_end sp epf l2 true pre2 (post2 ++ [lstart]) true h2
        simp [this]
      · simp only [hup]
        have := rsLoop_no_end sp epf l2 true (pre2 ++ [lstart]) post2 false h2
        simp [this]
  refine ⟨herr, ?_⟩
  obtain ⟨e, he⟩ := herr
  unfold fileAfterReplaceSection
  rw [he]

/-- Witness for `replace_section_atomic_on_error`: a file with no line
matching the start pattern, and a file whose section is never closed. -/
theorem replace_section_atomic_on_error_witness :
    (∃ e, replaceSection (fun l => l == "S") none ["N"] ["a", "b"]
        = Except.error e)
      ∧ fileAfterReplaceSection (fun l => l == "S") none ["N"] ["a", "b"]
          = ["a", "b"]
      ∧ (∃ e, replaceSection (fun l => l == "S") (some (fun l => l == "E"))
          ["N"] ["a", "S", "b"] = Except.error e)
      ∧ fileAfterReplaceSection (fun l => l == "S") (some (fun l => l == "E"))
          ["N"] ["a", "S", "b"] = ["a", "S", "b"] := by
  have h1 := replace_section_atomic_on_error (fun l => l == "S") none ["N"]
    ["a", "b"] (Or.inl (by decide))
  have h2 := replace_section_atomic_on_error (fun l => l == "S")
    (some (fun l => l == "E")) ["N"] ["a", "S", "b"]
    (Or.inr ⟨fun l => l == "E", ["a"], "S", ["b"], rfl, rfl, by decide, by decide,
      by decide⟩)
  exact ⟨h1.1, h1.2, h2.1, h2.2⟩


/-- C3: a block whose de-prefixed text does not conform to the grammar
raises an error whose message names the declaration being parsed, and no
`LuaFunc` is produced; concretely for a `@param` tag missing its type
token and for a line matching neither the summary pattern nor any tag. -/
theorem malformed_block_raises_named_error :
    (∀ name lines, annotationP (annotationText lines) = none →
        parseAnnotation name lines = Except.error ("Error parsing " ++ name))
      ∧ parseAnnotation "myfunc" ["---@param x\n"]
          = Except.error "Error parsing myfunc"
      ∧ parseAnnotation "myfunc" ["---x\n"]
          = Except.error "Error parsing myfunc" := by
  refine ⟨?_, by rfl, by rfl⟩
  intro name lines h
  unfold parseAnnotation
  rw [h]

/-- Witness for `malformed_block_raises_named_error` at a concrete
malformed block. -/
theorem malformed_block_raises_named_error_witness :
    parseAnnotation "w" ["---@param x\n"]
      = Except.error ("Error parsing " ++ "w") :=
  malformed_block_raises_named_error.1 "w" ["---@param x\n"] (by rfl)

/-- C8: for a successfully parsed block the private flag is true iff an
`@private` token was parsed, and a block consisting of only `@private`
yields private true with empty params, returns and summary. -/
theorem private_flag_iff_private_tag :
    (∀ name lines doc, parseAnnotation name lines = Except.ok doc →
        (doc.priv = true ↔ ∃ toks, annotationP (annotationText lines) = some toks
            ∧ Tok.priv ∈ toks))
      ∧ parseAnnotation "f" ["---@private\n"]
          = Except.ok
              { name := "f", summary := "", params := [], returns := [],
                ex := "", note := "", priv := true, deprecated := false } := by
  refine ⟨?_, by rfl⟩
  intro name lines doc h
  unfold parseAnnotation at h
  cases htk : annotationP (annotationText lines) with
  | none => rw [htk] at h; exact Except.noConfusion h
  | some toks =>
    rw [htk] at h
    have hdoc : doc = mkLuaFunc name toks := (Except.ok.injEq _ _).mp h.symm
    subst hdoc
    constructor
    · intro hp
      refine ⟨toks, rfl, ?_⟩
      have : toks.any Tok.isPriv = true := hp
      obtain ⟨x, hx, hpx⟩ := List.any_eq_true.mp this
      cases x <;> simp [Tok.isPriv] at hpx
      exact hx
    · rintro ⟨toks2, htk2, hmem⟩
      injection htk2 with h2
      subst h2
      show toks.any Tok.isPriv = true
      exact List.any_eq_true.mpr ⟨Tok.priv, hmem, rfl⟩

/-- Witness for `private_flag_iff_private_tag`: the `@private` token is
present in the parsed token list of a concrete block. -/
theorem private_flag_iff_private_tag_witness :
    ∃ toks, annotationP (annotationText ["---@private\n"]) = some toks
      ∧ Tok.priv ∈ toks :=
  (private_flag_iff_private_tag.1 "f" ["---@private\n"]
    { name := "f", summary := "", params := [], returns := [], ex := "",
      note := "", priv := true, deprecated := false } (by rfl)).mp rfl

/-- C7: for every successfully parsed block the params list has one
`Parameter` per `LuaParam` token and the returns list one `Return` per
`LuaReturn` token, in token (that is, textual) order; every `@param` tag
match produces exactly one `LuaParam` token and every `@return` tag match
exactly one `LuaReturn` token; and a concrete interleaved block yields
the parameters and returns in textual order. -/
theorem params_returns_in_tag_order :
    (∀ name lines doc, parseAnnotation name lines = Except.ok doc →
        ∃ toks, annotationP (annotationText lines) = some toks
          ∧ doc.params = toks.filterMap Tok.asParam
          ∧ doc.returns = toks.filterMap Tok.asReturn)
      ∧ (∀ u i t j, tagParamP u i = some (t, j) → ∃ p, t = Tok.param p)
      ∧ (∀ u i t j, tagReturnP u i = some (t, j) → ∃ r, t = Tok.ret r)
      ∧ parseAnnotation "f"
          ["---@param a string\n", "---@return boolean yes\n",
            "---@param b integer\n", "---@return nil no\n"]
        = Except.ok
            { name := "f", summary := "",
              params := [LuaParam.mk "a" "string" "" [],
                LuaParam.mk "b" "integer" "" []],
              returns := [⟨"boolean", "yes"⟩, ⟨"nil", "no"⟩],
              ex := "", note := "", priv := false, deprecated := false } := by
  refine ⟨?_, ?_, ?_, by rfl⟩
  · intro name lines doc h
    unfold parseAnnotation at h
    cases htk : annotationP (annotationText lines) with
    | none => rw [htk] at h; exact Except.noConfusion h
    | some toks =>
      rw [htk] at h
      have hdoc : doc = mkLuaFunc name toks := (Except.ok.injEq _ _).mp h.symm
      subst hdoc
      exact ⟨toks, rfl, rfl, rfl⟩
  · intro u i t j h
    simp only [tagParamP, Option.bind_eq_some, Option.map_eq_some'] at h
    obtain ⟨r1, h1, rn, h2, rt, h3, rl, h4, rsp, h5, heq⟩ := h
    exact ⟨_, congrArg Prod.fst heq.symm⟩
  · intro u i t j h
    simp only [tagReturnP, Option.bind_eq_some, Option.map_eq_some'] at h
    obtain ⟨r1, h1, rt, h2, rl, h3, heq⟩ := h
    exact ⟨_, congrArg Prod.fst heq.symm⟩

/-- Witness for `params_returns_in_tag_order` at a concrete interleaved
block. -/
theorem params_returns_in_tag_order_witness :
    ∃ toks,
      annotationP (annotationText
          ["---@param a string\n", "---@return boolean yes\n",
            "---@param b integer\n", "---@return nil no\n"]) = some toks
        ∧ [LuaParam.mk "a" "string" "" [], LuaParam.mk "b" "integer" "" []]
            = toks.filterMap Tok.asParam
        ∧ [(⟨"boolean", "yes"⟩ : LuaReturn), ⟨"nil", "no"⟩]
            = toks.filterMap Tok.asReturn := by
  obtain ⟨toks, h1, h2, h3⟩ := params_returns_in_tag_order.1 "f"
    ["---@param a string\n", "---@return boolean yes\n",
      "---@param b integer\n", "---@return nil no\n"]
    { name := "f", summary := "",
      params := [LuaParam.mk "a" "string" "" [],
        LuaParam.mk "b" "integer" "" []],
      returns := [⟨"boolean", "yes"⟩, ⟨"nil", "no"⟩],
      ex := "", note := "", priv := false, deprecated := false } (by rfl)
  exact ⟨toks, h1, h2, h3⟩

/-- C6: the block-extractor equations: a comment run whose following line
does not match the declaration pattern yields nothing and scanning
continues; the pending buffer is empty in the continuation after every
non-comment line, matched or not; and a file ending inside a comment run
yields no block for that run. -/
theorem extractor_buffer_discipline :
    (∀ cs b rest chunk, (∀ l ∈ cs, startsComment l = true) →
        startsComment b = false → fnReMatch b = none →
        parseFunctionsGo (cs ++ b :: rest) chunk = parseFunctionsGo rest [])
      ∧ (∀ l ls chunk name f, startsComment l = false → chunk.isEmpty = false →
          fnReMatch l = some name → parseAnnotation name chunk = Except.ok f →
          parseFunctionsGo (l :: ls) chunk
            = (parseFunctionsGo ls []).map fun fs => f :: fs)
      ∧ (∀ cs chunk, (∀ l ∈ cs, startsComment l = true) →
          parseFunctionsGo cs chunk = Except.ok []) := by
  refine ⟨?_, ?_, ?_⟩
  · intro cs
    induction cs with
    | nil =>
      intro b rest chunk _ hb hm
      rw [List.nil_append]
      simp only [parseFunctionsGo, hb, Bool.false_eq_true, if_false]
      by_cases hc : chunk.isEmpty
      · rw [if_pos hc]
      · rw [if_neg hc, hm]
    | cons c cs ih =>
      intro b rest chunk h hb hm
      have hc : startsComment c = true := h c (List.mem_cons_self c cs)
      have hcs : ∀ l ∈ cs, startsComment l = true :=
        fun l hl => h l (List.mem_cons_of_mem c hl)
      rw [List.cons_append]
      simp only [parseFunctionsGo, hc, if_true]
      exact ih b rest (chunk ++ [c]) hcs hb hm
  · intro l ls chunk name f hl hc hm hp
    simp only [parseFunctionsGo, hl, Bool.false_eq_true, if_false, hc, hm, hp]
  · intro cs
    induction cs with
    | nil => intro chunk _; rfl
    | cons c cs ih =>
      intro chunk h
      have hc : startsComment c = true := h c (List.mem_cons_self c cs)
      have hcs : ∀ l ∈ cs, startsComment l = true :=
        fun l hl => h l (List.mem_cons_of_mem c hl)
      simp only [parseFunctionsGo, hc, if_true]
      exact ih (chunk ++ [c]) hcs

/-- Witness for `extractor_buffer_discipline` at concrete inputs: a
comment run followed by an unrelated statement produces nothing, a
matched declaration is parsed with the buffer cleared afterwards, and a
trailing comment run produces nothing. -/
theorem extractor_buffer_discipline_witness :
    parseFunctionsGo ["--- a comment\n", "local x = 1\n", "M.f = 1\n"] []
        = parseFunctionsGo ["M.f = 1\n"] []
      ∧ parseFunctionsGo ["M.f = 1\n"] ["---@private\n"]
          = (parseFunctionsGo [] []).map (fun fs =>
              { name := "f", summary := "", params := [], returns := [],
                ex := "", note := "", priv := true,
                deprecated := false } :: fs)
      ∧ parseFunctionsGo ["--- trailing\n", "--- comment run\n"] []
          = Except.ok [] := by
  refine ⟨?_, ?_, ?_⟩
  · exact extractor_buffer_discipline.1 ["--- a comment\n"] "local x = 1\n"
      ["M.f = 1\n"] [] (by decide) (by rfl) (by rfl)
  · exact extractor_buffer_discipline.2.1 "M.f = 1\n" [] ["---@private\n"] "f"
      _ (by rfl) (by rfl) (by rfl) (by rfl)
  · exact extractor_buffer_discipline.2.2
      ["--- trailing\n", "--- comment run\n"] [] (by decide)

/-- C2 (counterexample): the claim says a line indented by more than one
whitespace character is not a sub-parameter line; the code consumes a
two-space-indented line as a sub-parameter. -/
theorem subparam_two_space_counterexample :
    parseAnnotation "f" ["---@param a table\n", "---  b string TWO spaces\n"]
      = Except.ok
          { name := "f", summary := "",
            params := [LuaParam.mk "a" "table" ""
              [LuaParam.mk "b" "string" "TWO spaces" []]],
            returns := [], ex := "", note := "", priv := false,
            deprecated := false } := by rfl


/-! ### Character-class consequences and reparse building blocks -/

theorem word_ident (ch : Char) (h : isWordChar ch = true) :
    isIdentChar ch = true := by
  simp only [isWordChar, Bool.or_eq_true, decide_eq_true_eq] at h
  simp only [isIdentChar, isWordChar, Bool.or_eq_true, decide_eq_true_eq]
  exact Or.inl h

theorem white_ch_cases (ch : Char) (h : isWhiteChar ch = true)
    (hs : isSkipWs ch = false) : ch = '\r' ∨ ch = '\n' := by
  simp only [isWhiteChar, Bool.or_eq_true, decide_eq_true_eq] at h
  rcases h with ((h | h) | h) | h
  · subst h; simp [isSkipWs] at hs
  · subst h; simp [isSkipWs] at hs
  · exact Or.inl h
  · exact Or.inr h

theorem white_not_skip_of_ne (ch : Char) (h : isWhiteChar ch = false) :
    isSkipWs ch = false := by
  cases hs : isSkipWs ch with
  | false => rfl
  | true => rw [skip_white ch hs] at h; exact Bool.noConfusion h

theorem takeCount_mono (p q : Char → Bool)
    (hpq : ∀ ch, p ch = true → q ch = true) :
    ∀ l, takeCount p l ≤ takeCount q l := by
  intro l
  induction l with
  | nil => simp [takeCount]
  | cons c rest ih =>
    simp only [takeCount]
    by_cases hc : p c = true
    · rw [if_pos hc, if_pos (hpq c hc)]
      omega
    · rw [if_neg hc]
      omega

theorem runLen_mono (p q : Char → Bool)
    (hpq : ∀ ch, p ch = true → q ch = true) (u : List Char) (i : Nat) :
    runLen p u i ≤ runLen q u i :=
  takeCount_mono p q hpq (u.drop i)

theorem prevok_lift (u : List Char) (i : Nat) (h : PrevOk u i) :
    PrevOk u (skipWs u i) := by
  by_cases hz : runLen isSkipWs u i = 0
  · have hid : skipWs u i = i := by unfold skipWs; omega
    rw [hid]
    exact h
  · right
    have h1 : i ≤ skipWs u i - 1 := by unfold skipWs; omega
    have h2 : skipWs u i - 1 < skipWs u i := by unfold skipWs; omega
    obtain ⟨ch, hg, hp⟩ := skipWs_chars u i (skipWs u i - 1) h1 h2
    exact ⟨ch, hg, white_not_ident ch (skip_white ch hp)⟩

theorem keywordP_build (s : String) (w : List Char) (p : Nat)
    (hm : matchAt w p s.data = true) (hskip : skipWs w p = p)
    (hprev : PrevOk w p)
    (hnext : ∀ ch, w.get? (p + s.length) = some ch →
      isIdentChar ch = false) :
    keywordP s w p = some (s, p + s.length) := by
  unfold keywordP
  rw [hskip, hm]
  have hb2 : boundaryOk w (p + s.length) = true := by
    unfold boundaryOk
    cases hg : w.get? (p + s.length) with
    | none => rfl
    | some ch => simp [hnext ch hg]
  have hb1 : (p == 0 || boundaryOk w (p - 1)) = true := by
    rcases hprev with h | ⟨ch, hg, hni⟩
    · subst h; rfl
    · unfold boundaryOk
      rw [hg]
      simp [hni]
  rw [hb1, hb2]
  rfl

theorem keywordP_none_of_match_false (s : String) (w : List Char) (p : Nat)
    (hm : matchAt w (skipWs w p) s.data = false) :
    keywordP s w p = none := by
  unfold keywordP
  rw [hm]
  rfl

theorem keywordP_none_head (s : String) (d0 : Char) (t0 : List Char)
    (hs : s.data = d0 :: t0) (w : List Char) (p : Nat)
    (hg : w.get? (skipWs w p) ≠ some d0) : keywordP s w p = none := by
  apply keywordP_none_of_match_false
  rw [hs]
  exact matchAt_false_of_head w (skipWs w p) d0 t0 hg

theorem keywordP_none_at (s : String) (k : Nat) (d : Char)
    (hk : s.data.get? k = some d) (w : List Char) (p : Nat)
    (hg : w.get? (skipWs w p + k) ≠ some d) : keywordP s w p = none := by
  apply keywordP_none_of_match_false
  exact matchAt_ne_at w (skipWs w p) s.data k d hk hg

theorem keywordP_none_next (s : String) (w : List Char) (p : Nat) (ch : Char)
    (hg : w.get? (skipWs w p + s.length) = some ch)
    (hid : isIdentChar ch = true) : keywordP s w p = none := by
  unfold keywordP
  have hb : boundaryOk w (skipWs w p + s.length) = false := by
    unfold boundaryOk
    rw [hg]
    simp [hid]
  rw [hb]
  simp

theorem litP_build (s : String) (w : List Char) (p : Nat)
    (hm : matchAt w (skipWs w p) s.data = true) :
    litP s w p = some (s, skipWs w p + s.length) := by
  unfold litP
  rw [hm]
  rfl

theorem litP_none (s : String) (w : List Char) (p : Nat)
    (hm : matchAt w (skipWs w p) s.data = false) : litP s w p = none := by
  unfold litP
  rw [hm]
  rfl

theorem litAtP_build (s : String) (w : List Char) (p : Nat)
    (hm : matchAt w p s.data = true) :
    litAtP s w p = some (s, p + s.length) := by
  unfold litAtP
  rw [hm]
  rfl

theorem litAtP_none (s : String) (w : List Char) (p : Nat)
    (hm : matchAt w p s.data = false) : litAtP s w p = none := by
  unfold litAtP
  rw [hm]
  rfl

theorem quotedP_none_head (w : List Char) (p : Nat) (d : Char)
    (hg : w.get? (skipWs w p) = some d) (hne : d ≠ '"') :
    quotedP w p = none := by
  unfold quotedP
  rw [hg]
  simp [hne]

theorem wordAtP_build (init body : Char → Bool) (w : List Char) (p : Nat)
    (d : Char) (rest : List Char)
    (hm : matchAt w p (d :: rest) = true) (hinit : init d = true)
    (hrest : ∀ ch ∈ rest, body ch = true)
    (hstop : ∀ ch, w.get? (p + rest.length + 1) = some ch →
      body ch = false) :
    wordAtP init body w p
      = some (String.mk (d :: rest), p + rest.length + 1) := by
  have hmr : matchAt w (p + 1) rest = true := by
    have := (matchAt_append w p [d] rest).mp
      (by rw [show [d] ++ rest = d :: rest from rfl]; exact hm)
    simpa using this.2
  have hr : runLen body w (p + 1) = rest.length := by
    apply runLen_of_block body w (p + 1) rest hmr hrest
    intro ch hg
    apply hstop ch
    rwa [show p + rest.length + 1 = p + 1 + rest.length from by omega]
  have hsub : sub w p (rest.length + 1) = String.mk (d :: rest) := by
    have := matchAt_sub w p (d :: rest) hm
    simpa [Nat.add_comm] using this
  have hred : wordAtP init body w p
      = if init d = true then
          some (sub w p (runLen body w (p + 1) + 1),
            p + runLen body w (p + 1) + 1)
        else none := by
    unfold wordAtP
    rw [matchAt_head w p d rest hm]
  rw [hred, if_pos hinit, hr, hsub]

theorem optWhite_block (w : List Char) (q : Nat) (ws : String)
    (hm : matchAt w q ws.data = true)
    (hall : ∀ ch ∈ ws.data, isWhiteChar ch = true)
    (hstop : ∀ ch, w.get? (q + ws.data.length) = some ch →
      isWhiteChar ch = false) :
    optWhite w q = (ws, q + ws.data.length) := by
  unfold optWhite
  rw [runLen_of_block isWhiteChar w q ws.data hm hall hstop,
    matchAt_sub w q ws.data hm]

theorem skipWs_target (w : List Char) (q : Nat) (s : List Char)
    (hm : matchAt w q s = true)
    (hall : ∀ ch ∈ s, isWhiteChar ch = true)
    (hstop : ∀ ch, w.get? (q + s.length) = some ch →
      isWhiteChar ch = false) :
    ∀ ch, w.get? (skipWs w q) = some ch →
      (ch = '\r' ∨ ch = '\n'
        ∨ (skipWs w q = q + s.length ∧ w.get? (q + s.length) = some ch)) := by
  intro ch hg
  have hw : runLen isWhiteChar w q = s.length :=
    runLen_of_block isWhiteChar w q s hm hall hstop
  have hr : runLen isSkipWs w q ≤ s.length := by
    have := runLen_mono isSkipWs isWhiteChar skip_white w q
    omega
  have hg2 : w.get? (q + runLen isSkipWs w q) = some ch := hg
  by_cases hcase : runLen isSkipWs w q = s.length
  · right
    right
    have heq : skipWs w q = q + s.length := by
      unfold skipWs
      omega
    exact ⟨heq, by rw [← heq]; exact hg⟩
  · have hlt : runLen isSkipWs w q < s.length := by omega
    have hget : w.get? (q + runLen isSkipWs w q)
        = s.get? (runLen isSkipWs w q) := matchAt_get w q s hm _ hlt
    have hsg : s.get? (runLen isSkipWs w q) = some ch := by
      rw [← hget]
      exact hg2
    have hmem : ch ∈ s := List.get?_mem hsg
    have hwhite := hall ch hmem
    have hskip2 : isSkipWs ch = false := runLen_get isSkipWs w q ch hg2
    rcases white_ch_cases ch hwhite hskip2 with h | h
    · exact Or.inl h
    · exact Or.inr (Or.inl h)

theorem luaTableP_none_kw (lt : P) (w : List Char) (p : Nat)
    (h : keywordP "table" w p = none) : luaTableP lt w p = none := by
  unfold luaTableP
  rw [h]
  rfl

theorem luaFuncP_none_kw (lt : P) (fl : Nat) (w : List Char) (p : Nat)
    (h : keywordP "fun" w p = none) : luaFuncP lt fl w p = none := by
  unfold luaFuncP
  rw [h]
  rfl

theorem luaTableP_none_lit (lt : P) (w : List Char) (p : Nat)
    (r1 : String × Nat) (hk : keywordP "table" w p = some r1)
    (h2 : litP "<" w r1.2 = none) : luaTableP lt w p = none := by
  unfold luaTableP
  rw [hk, Option.some_bind, h2]
  rfl

theorem luaFuncP_none_lit (lt : P) (fl : Nat) (w : List Char) (p : Nat)
    (r1 : String × Nat) (hk : keywordP "fun" w p = some r1)
    (h2 : litP "(" w r1.2 = none) : luaFuncP lt fl w p = none := by
  unfold luaFuncP
  rw [hk, Option.some_bind, h2]
  rfl


theorem word_false_of_ident_false (ch : Char) (h : isIdentChar ch = false) :
    isWordChar ch = false := by
  cases hw : isWordChar ch with
  | false => rfl
  | true => rw [word_ident ch hw] at h; exact Bool.noConfusion h

theorem quotedP_build (w : List Char) (p : Nat) (mid : List Char)
    (hm : matchAt w p ('"' :: mid ++ ['"']) = true)
    (hskip : skipWs w p = p)
    (hmid : ∀ ch ∈ mid, isQInner ch = true) :
    quotedP w p
      = some (String.mk ('"' :: mid ++ ['"']), p + mid.length + 2) := by
  have h0 : w.get? p = some '"' := matchAt_head _ _ _ _ hm
  have hmm : matchAt w (p + 1) (mid ++ ['"']) = true := by
    have := (matchAt_append w p ['"'] (mid ++ ['"'])).mp (by
      rw [show ['"'] ++ (mid ++ ['"']) = '"' :: mid ++ ['"'] from rfl]
      exact hm)
    simpa using this.2
  have hpair := (matchAt_append w (p + 1) mid ['"']).mp hmm
  have h2 : w.get? (p + 1 + mid.length) = some '"' :=
    matchAt_head _ _ _ _ hpair.2
  have hrun : runLen isQInner w (p + 1) = mid.length := by
    apply runLen_of_block isQInner w (p + 1) mid hpair.1 hmid
    intro ch hg
    have hch : ch = '"' := by
      have h3 := h2.symm.trans hg
      injection h3 with h3
      exact h3.symm
    subst hch
    decide
  have h2' : w.get? (p + mid.length + 1) = some '"' := by
    rwa [show p + mid.length + 1 = p + 1 + mid.length from by omega]
  have hsub : sub w p (mid.length + 2)
      = String.mk ('"' :: mid ++ ['"']) := by
    have hs2 := matchAt_sub w p ('"' :: mid ++ ['"']) hm
    rwa [show ('"' :: mid ++ ['"']).length = mid.length + 2 from by
      simp [List.length_append]] at hs2
  unfold quotedP
  rw [hskip, h0]
  simp only [hrun, h2']
  rw [hsub]
  simp

theorem dottedP_build (w : List Char) (p : Nat) (w1 w2 tl : List Char)
    (hl1 : 1 ≤ w1.length) (hl2 : 1 ≤ w2.length)
    (hall1 : ∀ ch ∈ w1, isWordChar ch = true)
    (hall2 : ∀ ch ∈ w2, isWordChar ch = true)
    (htail : tl = [] ∨ tl = ['[', ']'])
    (hm : matchAt w p (w1 ++ '.' :: (w2 ++ tl)) = true)
    (hskip : skipWs w p = p)
    (hstop : ∀ ch, w.get? (p + w1.length + 1 + w2.length + tl.length)
      = some ch → isIdentChar ch = false ∧ ch ≠ '[') :
    dottedP w p = some (String.mk (w1 ++ '.' :: (w2 ++ tl)),
      p + w1.length + 1 + w2.length + tl.length) := by
  have hmw1 := ((matchAt_append w p w1 ('.' :: (w2 ++ tl))).mp hm).1
  have hmrest := ((matchAt_append w p w1 ('.' :: (w2 ++ tl))).mp hm).2
  have hdot : w.get? (p + w1.length) = some '.' :=
    matchAt_head _ _ _ _ hmrest
  have hmrest2 : matchAt w (p + w1.length + 1) (w2 ++ tl) = true := by
    have h4 := (matchAt_append w (p + w1.length) ['.'] (w2 ++ tl)).mp (by
      rw [show ['.'] ++ (w2 ++ tl) = '.' :: (w2 ++ tl) from rfl]
      exact hmrest)
    simpa [Nat.add_assoc] using h4.2
  have hmw2 := ((matchAt_append w (p + w1.length + 1) w2 tl).mp hmrest2).1
  have hmt := ((matchAt_append w (p + w1.length + 1) w2 tl).mp hmrest2).2
  have run1 : runLen isWordChar w p = w1.length := by
    apply runLen_of_block isWordChar w p w1 hmw1 hall1
    intro ch hg
    have hch : ch = '.' := by
      have h5 := hdot.symm.trans hg
      injection h5 with h5
      exact h5.symm
    subst hch
    decide
  have run2 : runLen isWordChar w (p + w1.length + 1) = w2.length := by
    apply runLen_of_block isWordChar w (p + w1.length + 1) w2 hmw2 hall2
    intro ch hg
    rcases htail with ht | ht
    · subst ht
      have hg' : w.get? (p + w1.length + 1 + w2.length + 0) = some ch := hg
      exact word_false_of_ident_false ch (hstop ch hg').1
    · subst ht
      have hch : ch = '[' := by
        have hb : w.get? (p + w1.length + 1 + w2.length) = some '[' :=
          matchAt_head _ _ _ _ hmt
        have h6 := hb.symm.trans hg
        injection h6 with h6
        exact h6.symm
      subst hch
      decide
  have hde : dotEnd w p = p + w1.length + 1 + w2.length := by
    unfold dotEnd
    rw [run1]
    rw [run2]
  have hlength : (w1 ++ '.' :: (w2 ++ tl)).length
      = w1.length + 1 + w2.length + tl.length := by
    simp only [List.length_append, List.length_cons]
    omega
  unfold dottedP
  rw [hskip, run1, if_neg (by omega : ¬(w1.length = 0)), hdot]
  simp only [run1, hde, run2]
  rw [if_neg (by omega : ¬(w2.length = 0))]
  rcases htail with ht | ht
  · subst ht
    have hbr : matchAt w (p + w1.length + 1 + w2.length) ['[', ']']
        = false := by
      apply matchAt_false_of_head
      intro hg
      exact (hstop '[' (by simpa using hg)).2 rfl
    rw [hbr]
    have hsub : sub w p (p + w1.length + 1 + w2.length - p)
        = String.mk (w1 ++ '.' :: (w2 ++ [])) := by
      have hs3 := matchAt_sub w p (w1 ++ '.' :: (w2 ++ [])) hm
      rwa [show (w1 ++ '.' :: (w2 ++ [])).length
          = p + w1.length + 1 + w2.length - p from by
        rw [hlength]
        simp only [List.length_nil]
        omega] at hs3
    simp only [hsub]
    simp only [List.length_nil]
    rw [show p + w1.length + 1 + w2.length + 0
      = p + w1.length + 1 + w2.length from by omega]
    simp
  · subst ht
    rw [hmt]
    have hsub : sub w p (p + w1.length + 1 + w2.length - p + 2)
        = String.mk (w1 ++ '.' :: (w2 ++ ['[', ']'])) := by
      have hs3 := matchAt_sub w p (w1 ++ '.' :: (w2 ++ ['[', ']'])) hm
      rwa [show (w1 ++ '.' :: (w2 ++ ['[', ']'])).length
          = p + w1.length + 1 + w2.length - p + 2 from by
        rw [hlength]
        simp only [List.length_cons, List.length_nil]
        omega] at hs3
    simp only [hsub]
    rw [show p + w1.length + 1 + w2.length + ['[', ']'].length
      = p + w1.length + 1 + w2.length + 2 from by simp]
    simp

theorem keyword_transfer_none (s : String) (u : List Char) (i : Nat)
    (c : List Char) (w : List Char) (p : Nat)
    (horig : keywordP s u i = none)
    (halign : matchAt u (skipWs u i) c = true)
    (hw : matchAt w p c = true)
    (hprevU : PrevOk u (skipWs u i))
    (hlen : s.data.length ≤ c.length)
    (hne : s.data ≠ c)
    (hnext : ∀ ch, w.get? (p + c.length) = some ch →
      isIdentChar ch = false)
    (hskipW : skipWs w p = p) : keywordP s w p = none := by
  have hsl : s.length = s.data.length := rfl
  by_cases hmU : matchAt u (skipWs u i) s.data = true
  · unfold keywordP at horig
    rw [hmU] at horig
    by_cases hB : (skipWs u i == 0 || boundaryOk u (skipWs u i - 1)) = true
    · rw [hB] at horig
      by_cases hC : boundaryOk u (skipWs u i + s.length) = true
      · rw [hC] at horig
        simp at horig
      · have hCf : boundaryOk u (skipWs u i + s.length) = false :=
          Bool.eq_false_iff.mpr hC
        unfold boundaryOk at hCf
        cases hg : u.get? (skipWs u i + s.length) with
        | none =>
          rw [hg] at hCf
          exact absurd hCf (by simp)
        | some ch =>
          rw [hg] at hCf
          have hCf2 : (!isIdentChar ch) = false := hCf
          have hid : isIdentChar ch = true := by
            cases hi2 : isIdentChar ch with
            | true => rfl
            | false => rw [hi2] at hCf2; exact absurd hCf2 (by simp)
          have hpre : s.data.isPrefixOf c = true := by
            rw [← matchAt_trans_prefix u (skipWs u i) c s.data halign hlen]
            exact hmU
          have hplt : s.data.length < c.length := by
            rcases Nat.lt_or_ge s.data.length c.length with h | h
            · exact h
            · exact absurd (List.IsPrefix.eq_of_length_le
                (List.isPrefixOf_iff_prefix.mp hpre) (by omega)) hne
          have hcg : c.get? s.data.length = some ch := by
            have hget := matchAt_get u (skipWs u i) c halign s.data.length
              hplt
            rw [← hget, ← hsl]
            exact hg
          have hwg : w.get? (p + s.data.length) = some ch := by
            have hget := matchAt_get w p c hw s.data.length hplt
            rw [hget]
            exact hcg
          apply keywordP_none_next s w p ch
          · rw [hskipW, hsl]
            exact hwg
          · exact hid
    · exfalso
      have hBf : (skipWs u i == 0 || boundaryOk u (skipWs u i - 1)) = false :=
        Bool.eq_false_iff.mpr hB
      rw [Bool.or_eq_false_iff] at hBf
      rcases hprevU with h0 | ⟨ch, hg, hni⟩
      · rw [h0] at hBf
        simp at hBf
      · have hbf2 := hBf.2
        unfold boundaryOk at hbf2
        rw [hg] at hbf2
        have hbf3 : (!isIdentChar ch) = false := hbf2
        rw [hni] at hbf3
        exact absurd hbf3 (by simp)
  · have hmc : matchAt u (skipWs u i) s.data = s.data.isPrefixOf c :=
      matchAt_trans_prefix u (skipWs u i) c s.data halign hlen
    have hpf : s.data.isPrefixOf c = false := by
      rw [← hmc]
      exact Bool.eq_false_iff.mpr hmU
    apply keywordP_none_of_match_false
    rw [hskipW, matchAt_trans_prefix w p c s.data hw hlen]
    exact hpf

theorem align_get (w : List Char) (p : Nat) (cdata : List Char)
    (hm : matchAt w p cdata = true) (k : Nat) (d : Char)
    (hk : cdata.get? k = some d) : w.get? (p + k) = some d := by
  have hlt : k < cdata.length := (List.get?_eq_some.mp hk).1
  rw [matchAt_get w p cdata hm k hlt]
  exact hk

theorem keywordP_none_align (s : String) (k : Nat) (d e : Char)
    (hk : s.data.get? k = some d) (w : List Char) (p : Nat)
    (cdata : List Char) (hm : matchAt w p cdata = true)
    (hc : cdata.get? k = some e) (hne : d ≠ e)
    (hskipw : skipWs w p = p) : keywordP s w p = none := by
  apply keywordP_none_at s k d hk
  rw [hskipw, align_get w p cdata hm k e hc]
  intro hcontra
  injection hcontra with hcontra
  exact hne hcontra.symm

theorem keywordP_none_ext (s : String) (k : Nat)
    (hk : s.data.get? k = some '[') (w : List Char) (p : Nat)
    (hnext : ∀ ch, w.get? (p + k) = some ch → ch ≠ '[')
    (hskipw : skipWs w p = p) : keywordP s w p = none := by
  apply keywordP_none_at s k '[' hk
  rw [hskipw]
  intro hcontra
  exact hnext '[' hcontra rfl

theorem nonUnionP_eval (lt : P) (fl : Nat) (w : List Char) (p : Nat)
    (v : Option (String × Nat))
    (h1 : luaListP w p = none) (h2 : luaTableP lt w p = none)
    (h3 : luaFuncP lt fl w p = none) (h4 : primitiveP w p = v) :
    nonUnionP lt fl w p = v := by
  unfold nonUnionP
  rw [h1, h2, h3, h4]
  simp only [Option.none_orElse]

theorem nonUnionP_eval_list (lt : P) (fl : Nat) (w : List Char) (p : Nat)
    (v : String × Nat) (h1 : luaListP w p = some v) :
    nonUnionP lt fl w p = some v := by
  unfold nonUnionP
  rw [h1]
  simp only [Option.some_orElse]

theorem nonUnionP_eval_table (lt : P) (fl : Nat) (w : List Char) (p : Nat)
    (v : String × Nat) (h1 : luaListP w p = none)
    (h2 : luaTableP lt w p = some v) : nonUnionP lt fl w p = some v := by
  unfold nonUnionP
  rw [h1, h2]
  simp only [Option.none_orElse, Option.some_orElse]

theorem nonUnionP_eval_fun (lt : P) (fl : Nat) (w : List Char) (p : Nat)
    (v : String × Nat) (h1 : luaListP w p = none)
    (h2 : luaTableP lt w p = none) (h3 : luaFuncP lt fl w p = some v) :
    nonUnionP lt fl w p = some v := by
  unfold nonUnionP
  rw [h1, h2, h3]
  simp only [Option.none_orElse, Option.some_orElse]

theorem keywordP_some_eq (s : String) (u : List Char) (i : Nat)
    (r : String × Nat) (h : keywordP s u i = some r) :
    r = (s, skipWs u i + s.length) := by
  unfold keywordP at h
  split at h
  · injection h with h
    exact h.symm
  · exact Option.noConfusion h

/-- Wrap a keyword-shaped canonical string into the `ReNu` record: the
embedding-independent parts are decidable, and the reparse always ends
exactly at the end of the keyword. -/
theorem renu_keyword (f : Nat) (u : List Char) (j : Nat) (s : String)
    (d : Char) (t : List Char) (hsd : s.data = d :: t)
    (hwd : isWhiteChar d = false)
    (hnt : ∀ ch ∈ s.data, ch ≠ '\t')
    (helims : ∀ w p, matchAt w p s.data = true → skipWs w p = p →
      PrevOk w p →
      (∀ ch, w.get? (p + s.data.length) = some ch →
        isIdentChar ch = false ∧ ch ≠ '[') →
      (∀ ch, w.get? (skipWs w (p + s.data.length)) = some ch →
        ch ≠ ':' ∧ ch ≠ '<') →
      ∀ g fl, nonUnionP (luaType g) fl w p
        = some (s, p + s.data.length)) :
    ReNu f u j s := by
  refine ⟨⟨d, t, hsd, hwd⟩, fun _ => hnt, ?_⟩
  intro w p hm hprev hcore hpipe g fl hg hfl
  have hskipw : skipWs w p = p := by
    rw [hsd] at hm
    exact skipWs_eq_of_head w p d t hm (white_not_skip_of_ne d hwd)
  refine ⟨p + s.data.length,
    helims w p hm hskipw hprev hcore.1 hcore.2 g fl, Nat.le_refl _,
    le_skipWs w (p + s.data.length), fun _ => rfl⟩

theorem litP_none_of_ne (s : String) (d : Char) (t : List Char)
    (hs : s.data = d :: t) (w : List Char) (q : Nat)
    (hne : ∀ ch, w.get? (skipWs w q) = some ch → ch ≠ d) :
    litP s w q = none := by
  apply litP_none
  rw [hs]
  apply matchAt_false_of_head
  intro hg
  exact hne d hg rfl

theorem renu_kw_string_list (f : Nat) (u : List Char) (j : Nat) :
    ReNu f u j "string[]" := by
  apply renu_keyword f u j "string[]" 's'
    ['t', 'r', 'i', 'n', 'g', '[', ']'] rfl (by decide) (by decide)
  intro w p hm hskipw hprev hid hcolon g fl
  have hb := keywordP_build "string[]" w p hm hskipw hprev
    (fun ch hg => (hid ch hg).1)
  apply nonUnionP_eval_list
  unfold luaListP
  rw [hb]
  simp only [Option.some_orElse]
  rfl

theorem renu_kw_integer_list (f : Nat) (u : List Char) (j : Nat) :
    ReNu f u j "integer[]" := by
  apply renu_keyword f u j "integer[]" 'i'
    ['n', 't', 'e', 'g', 'e', 'r', '[', ']'] rfl (by decide) (by decide)
  intro w p hm hskipw hprev hid hcolon g fl
  have e1 := keywordP_none_align "string[]" 0 's' 'i' rfl w p _ hm rfl
    (by decide) hskipw
  have hb := keywordP_build "integer[]" w p hm hskipw hprev
    (fun ch hg => (hid ch hg).1)
  apply nonUnionP_eval_list
  unfold luaListP
  rw [e1, hb]
  simp only [Option.none_orElse, Option.some_orElse]
  rfl

theorem renu_kw_number_list (f : Nat) (u : List Char) (j : Nat) :
    ReNu f u j "number[]" := by
  apply renu_keyword f u j "number[]" 'n'
    ['u', 'm', 'b', 'e', 'r', '[', ']'] rfl (by decide) (by decide)
  intro w p hm hskipw hprev hid hcolon g fl
  have e1 := keywordP_none_align "string[]" 0 's' 'n' rfl w p _ hm rfl
    (by decide) hskipw
  have e2 := keywordP_none_align "integer[]" 0 'i' 'n' rfl w p _ hm rfl
    (by decide) hskipw
  have hb := keywordP_build "number[]" w p hm hskipw hprev
    (fun ch hg => (hid ch hg).1)
  apply nonUnionP_eval_list
  unfold luaListP
  rw [e1, e2, hb]
  simp only [Option.none_orElse, Option.some_orElse]
  rfl

theorem renu_kw_any_list (f : Nat) (u : List Char) (j : Nat) :
    ReNu f u j "any[]" := by
  apply renu_keyword f u j "any[]" 'a' ['n', 'y', '[', ']'] rfl
    (by decide) (by decide)
  intro w p hm hskipw hprev hid hcolon g fl
  have e1 := keywordP_none_align "string[]" 0 's' 'a' rfl w p _ hm rfl
    (by decide) hskipw
  have e2 := keywordP_none_align "integer[]" 0 'i' 'a' rfl w p _ hm rfl
    (by decide) hskipw
  have e3 := keywordP_none_align "number[]" 0 'n' 'a' rfl w p _ hm rfl
    (by decide) hskipw
  have hb := keywordP_build "any[]" w p hm hskipw hprev
    (fun ch hg => (hid ch hg).1)
  apply nonUnionP_eval_list
  unfold luaListP
  rw [e1, e2, e3, hb]
  simp only [Option.none_orElse, Option.some_orElse]
  rfl

theorem renu_kw_boolean_list (f : Nat) (u : List Char) (j : Nat) :
    ReNu f u j "boolean[]" := by
  apply renu_keyword f u j "boolean[]" 'b'
    ['o', 'o', 'l', 'e', 'a', 'n', '[', ']'] rfl (by decide) (by decide)
  intro w p hm hskipw hprev hid hcolon g fl
  have e1 := keywordP_none_align "string[]" 0 's' 'b' rfl w p _ hm rfl
    (by decide) hskipw
  have e2 := keywordP_none_align "integer[]" 0 'i' 'b' rfl w p _ hm rfl
    (by decide) hskipw
  have e3 := keywordP_none_align "number[]" 0 'n' 'b' rfl w p _ hm rfl
    (by decide) hskipw
  have e4 := keywordP_none_align "any[]" 0 'a' 'b' rfl w p _ hm rfl
    (by decide) hskipw
  have hb := keywordP_build "boolean[]" w p hm hskipw hprev
    (fun ch hg => (hid ch hg).1)
  apply nonUnionP_eval_list
  unfold luaListP
  rw [e1, e2, e3, e4, hb]
  simp only [Option.none_orElse, Option.some_orElse]
  rfl

theorem renu_kw_nil (f : Nat) (u : List Char) (j : Nat) :
    ReNu f u j "nil" := by
  apply renu_keyword f u j "nil" 'n' ['i', 'l'] rfl (by decide) (by decide)
  intro w p hm hskipw hprev hid hcolon g fl
  have e1 := keywordP_none_align "string[]" 0 's' 'n' rfl w p _ hm rfl
    (by decide) hskipw
  have e2 := keywordP_none_align "integer[]" 0 'i' 'n' rfl w p _ hm rfl
    (by decide) hskipw
  have e3 := keywordP_none_align "number[]" 1 'u' 'i' rfl w p _ hm rfl
    (by decide) hskipw
  have e4 := keywordP_none_align "any[]" 0 'a' 'n' rfl w p _ hm rfl
    (by decide) hskipw
  have e5 := keywordP_none_align "boolean[]" 0 'b' 'n' rfl w p _ hm rfl
    (by decide) hskipw
  have hlist : luaListP w p = none := by
    unfold luaListP
    rw [e1, e2, e3, e4, e5]
    rfl
  have htab := luaTableP_none_kw (luaType g) w p
    (keywordP_none_align "table" 0 't' 'n' rfl w p _ hm rfl (by decide)
      hskipw)
  have hfun := luaFuncP_none_kw (luaType g) fl w p
    (keywordP_none_align "fun" 0 'f' 'n' rfl w p _ hm rfl (by decide)
      hskipw)
  have hb := keywordP_build "nil" w p hm hskipw hprev
    (fun ch hg => (hid ch hg).1)
  apply nonUnionP_eval _ _ w p _ hlist htab hfun
  unfold primitiveP
  rw [hb]
  simp only [Option.some_orElse]
  rfl

theorem renu_kw_string (f : Nat) (u : List Char) (j : Nat) :
    ReNu f u j "string" := by
  apply renu_keyword f u j "string" 's' ['t', 'r', 'i', 'n', 'g'] rfl
    (by decide) (by decide)
  intro w p hm hskipw hprev hid hcolon g fl
  have e1 := keywordP_none_ext "string[]" 6 rfl w p
    (fun ch hg => (hid ch hg).2) hskipw
  have e2 := keywordP_none_align "integer[]" 0 'i' 's' rfl w p _ hm rfl
    (by decide) hskipw
  have e3 := keywordP_none_align "number[]" 0 'n' 's' rfl w p _ hm rfl
    (by decide) hskipw
  have e4 := keywordP_none_align "any[]" 0 'a' 's' rfl w p _ hm rfl
    (by decide) hskipw
  have e5 := keywordP_none_align "boolean[]" 0 'b' 's' rfl w p _ hm rfl
    (by decide) hskipw
  have hlist : luaListP w p = none := by
    unfold luaListP
    rw [e1, e2, e3, e4, e5]
    rfl
  have htab := luaTableP_none_kw (luaType g) w p
    (keywordP_none_align "table" 0 't' 's' rfl w p _ hm rfl (by decide)
      hskipw)
  have hfun := luaFuncP_none_kw (luaType g) fl w p
    (keywordP_none_align "fun" 0 'f' 's' rfl w p _ hm rfl (by decide)
      hskipw)
  have e6 := keywordP_none_align "nil" 0 'n' 's' rfl w p _ hm rfl
    (by decide) hskipw
  have hb := keywordP_build "string" w p hm hskipw hprev
    (fun ch hg => (hid ch hg).1)
  apply nonUnionP_eval _ _ w p _ hlist htab hfun
  unfold primitiveP
  rw [e6, hb]
  simp only [Option.none_orElse, Option.some_orElse]
  rfl

theorem renu_kw_integer (f : Nat) (u : List Char) (j : Nat) :
    ReNu f u j "integer" := by
  apply renu_keyword f u j "integer" 'i' ['n', 't', 'e', 'g', 'e', 'r']
    rfl (by decide) (by decide)
  intro w p hm hskipw hprev hid hcolon g fl
  have e1 := keywordP_none_align "string[]" 0 's' 'i' rfl w p _ hm rfl
    (by decide) hskipw
  have e2 := keywordP_none_ext "integer[]" 7 rfl w p
    (fun ch hg => (hid ch hg).2) hskipw
  have e3 := keywordP_none_align "number[]" 0 'n' 'i' rfl w p _ hm rfl
    (by decide) hskipw
  have e4 := keywordP_none_align "any[]" 0 'a' 'i' rfl w p _ hm rfl
    (by decide) hskipw
  have e5 := keywordP_none_align "boolean[]" 0 'b' 'i' rfl w p _ hm rfl
    (by decide) hskipw
  have hlist : luaListP w p = none := by
    unfold luaListP
    rw [e1, e2, e3, e4, e5]
    rfl
  have htab := luaTableP_none_kw (luaType g) w p
    (keywordP_none_align "table" 0 't' 'i' rfl w p _ hm rfl (by decide)
      hskipw)
  have hfun := luaFuncP_none_kw (luaType g) fl w p
    (keywordP_none_align "fun" 0 'f' 'i' rfl w p _ hm rfl (by decide)
      hskipw)
  have e6 := keywordP_none_align "nil" 0 'n' 'i' rfl w p _ hm rfl
    (by decide) hskipw
  have e7 := keywordP_none_align "string" 0 's' 'i' rfl w p _ hm rfl
    (by decide) hskipw
  have hb := keywordP_build "integer" w p hm hskipw hprev
    (fun ch hg => (hid ch hg).1)
  apply nonUnionP_eval _ _ w p _ hlist htab hfun
  unfold primitiveP
  rw [e6, e7, hb]
  simp only [Option.none_orElse, Option.some_orElse]
  rfl

theorem renu_kw_boolean (f : Nat) (u : List Char) (j : Nat) :
    ReNu f u j "boolean" := by
  apply renu_keyword f u j "boolean" 'b' ['o', 'o', 'l', 'e', 'a', 'n']
    rfl (by decide) (by decide)
  intro w p hm hskipw hprev hid hcolon g fl
  have e1 := keywordP_none_align "string[]" 0 's' 'b' rfl w p _ hm rfl
    (by decide) hskipw
  have e2 := keywordP_none_align "integer[]" 0 'i' 'b' rfl w p _ hm rfl
    (by decide) hskipw
  have e3 := keywordP_none_align "number[]" 0 'n' 'b' rfl w p _ hm rfl
    (by decide) hskipw
  have e4 := keywordP_none_align "any[]" 0 'a' 'b' rfl w p _ hm rfl
    (by decide) hskipw
  have e5 := keywordP_none_ext "boolean[]" 7 rfl w p
    (fun ch hg => (hid ch hg).2) hskipw
  have hlist : luaListP w p = none := by
    unfold luaListP
    rw [e1, e2, e3, e4, e5]
    rfl
  have htab := luaTableP_none_kw (luaType g) w p
    (keywordP_none_align "table" 0 't' 'b' rfl w p _ hm rfl (by decide)
      hskipw)
  have hfun := luaFuncP_none_kw (luaType g) fl w p
    (keywordP_none_align "fun" 0 'f' 'b' rfl w p _ hm rfl (by decide)
      hskipw)
  have e6 := keywordP_none_align "nil" 0 'n' 'b' rfl w p _ hm rfl
    (by decide) hskipw
  have e7 := keywordP_none_align "string" 0 's' 'b' rfl w p _ hm rfl
    (by decide) hskipw
  have e8 := keywordP_none_align "integer" 0 'i' 'b' rfl w p _ hm rfl
    (by decide) hskipw
  have hb := keywordP_build "boolean" w p hm hskipw hprev
    (fun ch hg => (hid ch hg).1)
  apply nonUnionP_eval _ _ w p _ hlist htab hfun
  unfold primitiveP
  rw [e6, e7, e8, hb]
  simp only [Option.none_orElse, Option.some_orElse]
  rfl

theorem renu_kw_number (f : Nat) (u : List Char) (j : Nat) :
    ReNu f u j "number" := by
  apply renu_keyword f u j "number" 'n' ['u', 'm', 'b', 'e', 'r'] rfl
    (by decide) (by decide)
  intro w p hm hskipw hprev hid hcolon g fl
  have e1 := keywordP_none_align "string[]" 0 's' 'n' rfl w p _ hm rfl
    (by decide) hskipw
  have e2 := keywordP_none_align "integer[]" 0 'i' 'n' rfl w p _ hm rfl
    (by decide) hskipw
  have e3 := keywordP_none_ext "number[]" 6 rfl w p
    (fun ch hg => (hid ch hg).2) hskipw
  have e4 := keywordP_none_align "any[]" 0 'a' 'n' rfl w p _ hm rfl
    (by decide) hskipw
  have e5 := keywordP_none_align "boolean[]" 0 'b' 'n' rfl w p _ hm rfl
    (by decide) hskipw
  have hlist : luaListP w p = none := by
    unfold luaListP
    rw [e1, e2, e3, e4, e5]
    rfl
  have htab := luaTableP_none_kw (luaType g) w p
    (keywordP_none_align "table" 0 't' 'n' rfl w p _ hm rfl (by decide)
      hskipw)
  have hfun := luaFuncP_none_kw (luaType g) fl w p
    (keywordP_none_align "fun" 0 'f' 'n' rfl w p _ hm rfl (by decide)
      hskipw)
  have e6 := keywordP_none_align "nil" 1 'i' 'u' rfl w p _ hm rfl
    (by decide) hskipw
  have e7 := keywordP_none_align "string" 0 's' 'n' rfl w p _ hm rfl
    (by decide) hskipw
  have e8 := keywordP_none_align "integer" 0 'i' 'n' rfl w p _ hm rfl
    (by decide) hskipw
  have e9 := keywordP_none_align "boolean" 0 'b' 'n' rfl w p _ hm rfl
    (by decide) hskipw
  have hb := keywordP_build "number" w p hm hskipw hprev
    (fun ch hg => (hid ch hg).1)
  apply nonUnionP_eval _ _ w p _ hlist htab hfun
  unfold primitiveP
  rw [e6, e7, e8, e9, hb]
  simp only [Option.none_orElse, Option.some_orElse]
  rfl

theorem renu_kw_table (f : Nat) (u : List Char) (j : Nat) :
    ReNu f u j "table" := by
  apply renu_keyword f u j "table" 't' ['a', 'b', 'l', 'e'] rfl
    (by decide) (by decide)
  intro w p hm hskipw hprev hid hcolon g fl
  have e1 := keywordP_none_align "string[]" 0 's' 't' rfl w p _ hm rfl
    (by decide) hskipw
  have e2 := keywordP_none_align "integer[]" 0 'i' 't' rfl w p _ hm rfl
    (by decide) hskipw
  have e3 := keywordP_none_align "number[]" 0 'n' 't' rfl w p _ hm rfl
    (by decide) hskipw
  have e4 := keywordP_none_align "any[]" 0 'a' 't' rfl w p _ hm rfl
    (by decide) hskipw
  have e5 := keywordP_none_align "boolean[]" 0 'b' 't' rfl w p _ hm rfl
    (by decide) hskipw
  have hlist : luaListP w p = none := by
    unfold luaListP
    rw [e1, e2, e3, e4, e5]
    rfl
  have hb := keywordP_build "table" w p hm hskipw hprev
    (fun ch hg => (hid ch hg).1)
  have htab : luaTableP (luaType g) w p = none := by
    apply luaTableP_none_lit (luaType g) w p _ hb
    exact litP_none_of_ne "<" '<' [] rfl w _
      (fun ch hg => (hcolon ch hg).2)
  have hfun := luaFuncP_none_kw (luaType g) fl w p
    (keywordP_none_align "fun" 0 'f' 't' rfl w p _ hm rfl (by decide)
      hskipw)
  have e6 := keywordP_none_align "nil" 0 'n' 't' rfl w p _ hm rfl
    (by decide) hskipw
  have e7 := keywordP_none_align "string" 0 's' 't' rfl w p _ hm rfl
    (by decide) hskipw
  have e8 := keywordP_none_align "integer" 0 'i' 't' rfl w p _ hm rfl
    (by decide) hskipw
  have e9 := keywordP_none_align "boolean" 0 'b' 't' rfl w p _ hm rfl
    (by decide) hskipw
  have e10 := keywordP_none_align "number" 0 'n' 't' rfl w p _ hm rfl
    (by decide) hskipw
  apply nonUnionP_eval _ _ w p _ hlist htab hfun
  unfold primitiveP
  rw [e6, e7, e8, e9, e10, hb]
  simp only [Option.none_orElse, Option.some_orElse]
  rfl

theorem renu_kw_any (f : Nat) (u : List Char) (j : Nat) :
    ReNu f u j "any" := by
  apply renu_keyword f u j "any" 'a' ['n', 'y'] rfl (by decide) (by decide)
  intro w p hm hskipw hprev hid hcolon g fl
  have e1 := keywordP_none_align "string[]" 0 's' 'a' rfl w p _ hm rfl
    (by decide) hskipw
  have e2 := keywordP_none_align "integer[]" 0 'i' 'a' rfl w p _ hm rfl
    (by decide) hskipw
  have e3 := keywordP_none_align "number[]" 0 'n' 'a' rfl w p _ hm rfl
    (by decide) hskipw
  have e4 := keywordP_none_ext "any[]" 3 rfl w p
    (fun ch hg => (hid ch hg).2) hskipw
  have e5 := keywordP_none_align "boolean[]" 0 'b' 'a' rfl w p _ hm rfl
    (by decide) hskipw
  have hlist : luaListP w p = none := by
    unfold luaListP
    rw [e1, e2, e3, e4, e5]
    rfl
  have htab := luaTableP_none_kw (luaType g) w p
    (keywordP_none_align "table" 0 't' 'a' rfl w p _ hm rfl (by decide)
      hskipw)
  have hfun := luaFuncP_none_kw (luaType g) fl w p
    (keywordP_none_align "fun" 0 'f' 'a' rfl w p _ hm rfl (by decide)
      hskipw)
  have e6 := keywordP_none_align "nil" 0 'n' 'a' rfl w p _ hm rfl
    (by decide) hskipw
  have e7 := keywordP_none_align "string" 0 's' 'a' rfl w p _ hm rfl
    (by decide) hskipw
  have e8 := keywordP_none_align "integer" 0 'i' 'a' rfl w p _ hm rfl
    (by decide) hskipw
  have e9 := keywordP_none_align "boolean" 0 'b' 'a' rfl w p _ hm rfl
    (by decide) hskipw
  have e10 := keywordP_none_align "number" 0 'n' 'a' rfl w p _ hm rfl
    (by decide) hskipw
  have e11 := keywordP_none_align "table" 0 't' 'a' rfl w p _ hm rfl
    (by decide) hskipw
  have e12 : quotedP w p = none := by
    apply quotedP_none_head w p 'a'
    · rw [hskipw]
      exact matchAt_head w p 'a' ['n', 'y'] hm
    · decide
  have hb := keywordP_build "any" w p hm hskipw hprev
    (fun ch hg => (hid ch hg).1)
  apply nonUnionP_eval _ _ w p _ hlist htab hfun
  unfold primitiveP
  rw [e6, e7, e8, e9, e10, e11, e12, hb]
  simp only [Option.none_orElse, Option.some_orElse]
  rfl

theorem drop_cons_of_get (u : List Char) (n : Nat) (d : Char)
    (h : u.get? n = some d) : u.drop n = d :: u.drop (n + 1) := by
  have hlt : n < u.length := (List.get?_eq_some.mp h).1
  have h1 := List.drop_eq_getElem_cons hlt
  have h2 : u[n] = d := by
    have h3 : u.get? n = some u[n] := by
      rw [List.get?_eq_getElem?]
      exact (List.getElem?_eq_getElem hlt)
    rw [h] at h3
    injection h3 with h3
    exact h3.symm
  rw [h1, h2]

theorem mem_take_get {α : Type} (l : List α) (n : Nat) (a : α)
    (h : a ∈ l.take n) : ∃ k, k < n ∧ l.get? k = some a := by
  obtain ⟨k, hk⟩ := List.mem_iff_get?.mp h
  have hkl : k < (l.take n).length := (List.get?_eq_some.mp hk).1
  have hkn : k < n := by
    rw [List.length_take] at hkl
    omega
  refine ⟨k, hkn, ?_⟩
  rw [← List.get?_take hkn]
  exact hk

theorem run_take_all (pr : Char → Bool) (u : List Char) (q : Nat) :
    ∀ ch ∈ (u.drop q).take (runLen pr u q), pr ch = true := by
  intro ch h
  obtain ⟨k, hkn, hget⟩ := mem_take_get (u.drop q) (runLen pr u q) ch h
  rw [List.get?_drop] at hget
  obtain ⟨ch2, hg2, hp2⟩ := runLen_chars pr u q k hkn
  rw [hget] at hg2
  injection hg2 with hg2
  rw [hg2]
  exact hp2

theorem sub_mem (u : List Char) (i n : Nat) (ch : Char)
    (h : ch ∈ (sub u i n).data) : ch ∈ u := by
  unfold sub at h
  exact List.mem_of_mem_drop (List.mem_of_mem_take h)

theorem sub_all_run (pr : Char → Bool) (u : List Char) (q : Nat) :
    ∀ ch ∈ (sub u q (runLen pr u q)).data, pr ch = true := by
  intro ch h
  exact run_take_all pr u q ch h

theorem get?_append_at (a : List Char) (d : Char) (t : List Char) :
    (a ++ d :: t).get? a.length = some d := by
  rw [List.get?_append_right (Nat.le_refl _)]
  simp

theorem word_not_white (ch : Char) (h : isWordChar ch = true) :
    isWhiteChar ch = false := by
  cases hw : isWhiteChar ch with
  | false => rfl
  | true =>
    exfalso
    simp only [isWhiteChar, Bool.or_eq_true, decide_eq_true_eq] at hw
    rcases hw with ((h2 | h2) | h2) | h2 <;> subst h2 <;>
      revert h <;> decide

theorem word_ne_quote (ch : Char) (h : isWordChar ch = true) : ch ≠ '"' := by
  intro heq
  subst heq
  revert h
  decide

theorem sub_append_data (u : List Char) (q m n : Nat) :
    (sub u q (m + n)).data = (sub u q m).data ++ (sub u (q + m) n).data := by
  unfold sub
  show (u.drop q).take (m + n)
    = (u.drop q).take m ++ (u.drop (q + m)).take n
  rw [List.take_add]
  congr 1
  rw [List.drop_drop]

theorem sub_one_data (u : List Char) (q : Nat) (d : Char)
    (h : u.get? q = some d) : (sub u q 1).data = [d] := by
  unfold sub
  show (u.drop q).take 1 = [d]
  rw [drop_cons_of_get u q d h]
  rfl

/-- The canonical string of an original `QuotedString` parse reparses in
any embedding. -/
theorem renu_quoted (f : Nat) (u : List Char) (i j : Nat) (c : String)
    (horig : quotedP u i = some (c, j)) : ReNu f u j c := by
  unfold quotedP at horig
  split at horig
  case h_2 => exact Option.noConfusion horig
  case h_1 ch hg =>
    split at horig
    case isFalse => exact Option.noConfusion horig
    case isTrue hq =>
      subst hq
      split at horig
      case h_2 => exact Option.noConfusion horig
      case h_1 d hg2 =>
        split at horig
        case isFalse => exact Option.noConfusion horig
        case isTrue hq2 =>
          subst hq2
          injection horig with horig
          rw [Prod.mk.injEq] at horig
          obtain ⟨hc, hj⟩ := horig
          have hstruct0 : c.data
              = '"' :: ((sub u (skipWs u i + 1)
                  (runLen isQInner u (skipWs u i + 1))).data ++ ['"']) := by
            rw [← hc]
            show ((u.drop (skipWs u i)).take
              (runLen isQInner u (skipWs u i + 1) + 2)) = _
            rw [drop_cons_of_get u (skipWs u i) '"' hg]
            rw [show runLen isQInner u (skipWs u i + 1) + 2
              = (runLen isQInner u (skipWs u i + 1) + 1) + 1 from rfl]
            rw [List.take_succ_cons]
            congr 1
            rw [List.take_succ]
            congr 1
            rw [List.getElem?_drop, ← List.get?_eq_getElem?]
            rw [show skipWs u i + 1 + runLen isQInner u (skipWs u i + 1)
              = skipWs u i + runLen isQInner u (skipWs u i + 1) + 1 from
              by omega]
            rw [hg2]
            rfl
          set mid := (sub u (skipWs u i + 1)
            (runLen isQInner u (skipWs u i + 1))).data with hmid
          have hstruct : c.data = '"' :: mid ++ ['"'] := by
            rw [hstruct0]
            exact (List.cons_append '"' mid ['"']).symm
          have hmidall : ∀ ch2 ∈ mid, isQInner ch2 = true := by
            intro ch2 h2
            exact sub_all_run isQInner u (skipWs u i + 1) ch2 h2
          refine ⟨⟨'"', _, hstruct, by decide⟩, ?_, ?_⟩
          · intro hnt ch2 h2
            rw [← hc] at h2
            exact hnt ch2 (sub_mem u (skipWs u i) _ ch2 h2)
          · intro w p hm hprev hcore hpipe g fl hg' hfl
            have hm' : matchAt w p ('"' :: mid ++ ['"']) = true := by
              rw [← hstruct]
              exact hm
            have hskipw : skipWs w p = p := by
              rw [hstruct] at hm
              exact skipWs_eq_of_head w p '"' _ hm (by decide)
            have hbuild := quotedP_build w p mid hm' hskipw hmidall
            have hclen : c.data.length = mid.length + 2 := by
              rw [hstruct]
              simp [List.length_append]
            have hcmk : String.mk ('"' :: mid ++ ['"']) = c := by
              rw [← hstruct]
            have e1 := keywordP_none_align "string[]" 0 's' '"' rfl w p
              c.data hm (by rw [hstruct]; rfl) (by decide) hskipw
            have e2 := keywordP_none_align "integer[]" 0 'i' '"' rfl w p
              c.data hm (by rw [hstruct]; rfl) (by decide) hskipw
            have e3 := keywordP_none_align "number[]" 0 'n' '"' rfl w p
              c.data hm (by rw [hstruct]; rfl) (by decide) hskipw
            have e4 := keywordP_none_align "any[]" 0 'a' '"' rfl w p
              c.data hm (by rw [hstruct]; rfl) (by decide) hskipw
            have e5 := keywordP_none_align "boolean[]" 0 'b' '"' rfl w p
              c.data hm (by rw [hstruct]; rfl) (by decide) hskipw
            have hlist : luaListP w p = none := by
              unfold luaListP
              rw [e1, e2, e3, e4, e5]
              rfl
            have htab := luaTableP_none_kw (luaType g) w p
              (keywordP_none_align "table" 0 't' '"' rfl w p c.data hm
                (by rw [hstruct]; rfl) (by decide) hskipw)
            have hfun := luaFuncP_none_kw (luaType g) fl w p
              (keywordP_none_align "fun" 0 'f' '"' rfl w p c.data hm
                (by rw [hstruct]; rfl) (by decide) hskipw)
            have e6 := keywordP_none_align "nil" 0 'n' '"' rfl w p
              c.data hm (by rw [hstruct]; rfl) (by decide) hskipw
            have e7 := keywordP_none_align "string" 0 's' '"' rfl w p
              c.data hm (by rw [hstruct]; rfl) (by decide) hskipw
            have e8 := keywordP_none_align "integer" 0 'i' '"' rfl w p
              c.data hm (by rw [hstruct]; rfl) (by decide) hskipw
            have e9 := keywordP_none_align "boolean" 0 'b' '"' rfl w p
              c.data hm (by rw [hstruct]; rfl) (by decide) hskipw
            have e10 := keywordP_none_align "number" 0 'n' '"' rfl w p
              c.data hm (by rw [hstruct]; rfl) (by decide) hskipw
            have e11 := keywordP_none_align "table" 0 't' '"' rfl w p
              c.data hm (by rw [hstruct]; rfl) (by decide) hskipw
            have hprim : primitiveP w p = some (c, p + c.data.length) := by
              unfold primitiveP
              rw [e6, e7, e8, e9, e10, e11, hbuild]
              simp only [Option.none_orElse, Option.some_orElse]
              rw [hcmk, hclen]
              rw [show p + (mid.length + 2) = p + mid.length + 2 from by
                omega]
            refine ⟨p + c.data.length,
              nonUnionP_eval _ _ w p _ hlist htab hfun hprim,
              Nat.le_refl _, le_skipWs w _, fun _ => rfl⟩

theorem sub_run_len (pr : Char → Bool) (u : List Char) (q : Nat) :
    (sub u q (runLen pr u q)).data.length = runLen pr u q := by
  have h1 : runLen pr u q ≤ (u.drop q).length := takeCount_le pr (u.drop q)
  show ((u.drop q).take (runLen pr u q)).length = runLen pr u q
  rw [List.length_take]
  omega

theorem keyword_vs_dotted_none (s : String) (hdot : '.' ∉ s.data)
    (u : List Char) (i : Nat) (horig : keywordP s u i = none)
    (hprevU : PrevOk u (skipWs u i))
    (cdata : List Char) (halign : matchAt u (skipWs u i) cdata = true)
    (w1 rest : List Char) (hc : cdata = w1 ++ '.' :: rest)
    (w : List Char) (p : Nat) (hw : matchAt w p cdata = true)
    (hskipw : skipWs w p = p)
    (hnext : ∀ ch, w.get? (p + cdata.length) = some ch →
      isIdentChar ch = false) :
    keywordP s w p = none := by
  by_cases hcase : w1.length < s.data.length
  · obtain ⟨d, hd⟩ : ∃ d, s.data.get? w1.length = some d :=
      ⟨_, List.get?_eq_get hcase⟩
    have hdd : d ≠ '.' := fun h => hdot (h ▸ List.get?_mem hd)
    apply keywordP_none_of_match_false
    rw [hskipw]
    apply matchAt_ne_at w p s.data w1.length d hd
    have hcd : cdata.get? w1.length = some '.' := by
      rw [hc]
      exact get?_append_at w1 '.' rest
    rw [align_get w p cdata hw w1.length '.' hcd]
    intro hcon
    injection hcon with hcon
    exact hdd hcon.symm
  · apply keyword_transfer_none s u i cdata w p horig halign hw hprevU
    · rw [hc]
      simp only [List.length_append, List.length_cons]
      omega
    · intro heq
      have hlen2 : s.data.length = cdata.length := by rw [heq]
      rw [hc] at hlen2
      simp only [List.length_append, List.length_cons] at hlen2
      omega
    · exact hnext
    · exact hskipw

theorem composite_kw_vs_dotted (s : String) (hdot : '.' ∉ s.data)
    (cdata : List Char) (w1 rest : List Char) (hc : cdata = w1 ++ '.' :: rest)
    (hall1 : ∀ ch ∈ w1, isWordChar ch = true)
    (w : List Char) (p : Nat) (hw : matchAt w p cdata = true)
    (hskipw : skipWs w p = p) (hprev : PrevOk w p) :
    keywordP s w p = none ∨
      (keywordP s w p = some (s, p + s.length)
        ∧ w.get? (p + s.length) = some '.') := by
  by_cases h1 : w1.length < s.data.length
  · left
    obtain ⟨d, hd⟩ : ∃ d, s.data.get? w1.length = some d :=
      ⟨_, List.get?_eq_get h1⟩
    have hdd : d ≠ '.' := fun h => hdot (h ▸ List.get?_mem hd)
    apply keywordP_none_of_match_false
    rw [hskipw]
    apply matchAt_ne_at w p s.data w1.length d hd
    have hcd : cdata.get? w1.length = some '.' := by
      rw [hc]
      exact get?_append_at w1 '.' rest
    rw [align_get w p cdata hw w1.length '.' hcd]
    intro hcon
    injection hcon with hcon
    exact hdd hcon.symm
  · cases hm : matchAt w p s.data with
    | false =>
      left
      apply keywordP_none_of_match_false
      rw [hskipw]
      exact hm
    | true =>
      by_cases h2 : s.data.length < w1.length
      · left
        obtain ⟨d, hd⟩ : ∃ d, w1.get? s.data.length = some d :=
          ⟨_, List.get?_eq_get h2⟩
        have hword : isWordChar d = true := hall1 d (List.get?_mem hd)
        have hcd : cdata.get? s.data.length = some d := by
          rw [hc, List.get?_append h2]
          exact hd
        apply keywordP_none_next s w p d
        · rw [hskipw]
          exact align_get w p cdata hw s.data.length d hcd
        · exact word_ident d hword
      · have heq : s.data.length = w1.length := by omega
        right
        have hcd : cdata.get? s.data.length = some '.' := by
          rw [hc, heq]
          exact get?_append_at w1 '.' rest
        have hdotw : w.get? (p + s.data.length) = some '.' :=
          align_get w p cdata hw s.data.length '.' hcd
        refine ⟨?_, hdotw⟩
        apply keywordP_build s w p hm hskipw hprev
        intro ch hg
        have hch : ch = '.' := by
          have h3 := hdotw.symm.trans hg
          injection h3 with h3
          exact h3.symm
        subst hch
        decide

theorem renu_dotted_core (f : Nat) (u : List Char) (i j : Nat) (c : String)
    (hprevU : PrevOk u (skipWs u i))
    (eL1 : keywordP "string[]" u i = none)
    (eL2 : keywordP "integer[]" u i = none)
    (eL3 : keywordP "number[]" u i = none)
    (eL4 : keywordP "any[]" u i = none)
    (eL5 : keywordP "boolean[]" u i = none)
    (eP1 : keywordP "nil" u i = none)
    (eP2 : keywordP "string" u i = none)
    (eP3 : keywordP "integer" u i = none)
    (eP4 : keywordP "boolean" u i = none)
    (eP5 : keywordP "number" u i = none)
    (eP6 : keywordP "table" u i = none)
    (eP7 : keywordP "any" u i = none)
    (w1 w2 tl : List Char)
    (hl1 : 1 ≤ w1.length) (hl2 : 1 ≤ w2.length)
    (hall1 : ∀ ch ∈ w1, isWordChar ch = true)
    (hall2 : ∀ ch ∈ w2, isWordChar ch = true)
    (htl : tl = [] ∨ tl = ['[', ']'])
    (hstruct : c.data = w1 ++ '.' :: (w2 ++ tl))
    (halign : matchAt u (skipWs u i) c.data = true)
    (hsubu : ∀ ch ∈ c.data, ch ∈ u) : ReNu f u j c := by
  obtain ⟨d0, t0, h10⟩ : ∃ d t, w1 = d :: t := by
    cases w1 with
    | nil => simp at hl1
    | cons d t => exact ⟨d, t, rfl⟩
  have hd0w : isWordChar d0 = true := hall1 d0 (by rw [h10]; simp)
  have hhead : c.data = d0 :: (t0 ++ '.' :: (w2 ++ tl)) := by
    rw [hstruct, h10]
    rfl
  have hclen : c.data.length = w1.length + 1 + w2.length + tl.length := by
    rw [hstruct]
    simp only [List.length_append, List.length_cons]
    omega
  refine ⟨⟨d0, _, hhead, word_not_white d0 hd0w⟩, ?_, ?_⟩
  · intro hnt ch h2
    exact hnt ch (hsubu ch h2)
  · intro w p hm hprev hcore hpipe g fl hg' hfl
    have hskipw : skipWs w p = p := by
      rw [hhead] at hm
      exact skipWs_eq_of_head w p d0 _ hm
        (white_not_skip_of_ne d0 (word_not_white d0 hd0w))
    have hmS : matchAt w p (w1 ++ '.' :: (w2 ++ tl)) = true := by
      rw [← hstruct]
      exact hm
    have hid := hcore.1
    have hidW : ∀ ch, w.get? (p + c.data.length) = some ch →
        isIdentChar ch = false := fun ch hgx => (hid ch hgx).1
    have e1 := keyword_vs_dotted_none "string[]" (by decide) u i eL1
      hprevU c.data halign w1 (w2 ++ tl) hstruct w p hm hskipw hidW
    have e2 := keyword_vs_dotted_none "integer[]" (by decide) u i eL2
      hprevU c.data halign w1 (w2 ++ tl) hstruct w p hm hskipw hidW
    have e3 := keyword_vs_dotted_none "number[]" (by decide) u i eL3
      hprevU c.data halign w1 (w2 ++ tl) hstruct w p hm hskipw hidW
    have e4 := keyword_vs_dotted_none "any[]" (by decide) u i eL4
      hprevU c.data halign w1 (w2 ++ tl) hstruct w p hm hskipw hidW
    have e5 := keyword_vs_dotted_none "boolean[]" (by decide) u i eL5
      hprevU c.data halign w1 (w2 ++ tl) hstruct w p hm hskipw hidW
    have hlist : luaListP w p = none := by
      unfold luaListP
      rw [e1, e2, e3, e4, e5]
      rfl
    have p1 := keyword_vs_dotted_none "nil" (by decide) u i eP1
      hprevU c.data halign w1 (w2 ++ tl) hstruct w p hm hskipw hidW
    have p2 := keyword_vs_dotted_none "string" (by decide) u i eP2
      hprevU c.data halign w1 (w2 ++ tl) hstruct w p hm hskipw hidW
    have p3 := keyword_vs_dotted_none "integer" (by decide) u i eP3
      hprevU c.data halign w1 (w2 ++ tl) hstruct w p hm hskipw hidW
    have p4 := keyword_vs_dotted_none "boolean" (by decide) u i eP4
      hprevU c.data halign w1 (w2 ++ tl) hstruct w p hm hskipw hidW
    have p5 := keyword_vs_dotted_none "number" (by decide) u i eP5
      hprevU c.data halign w1 (w2 ++ tl) hstruct w p hm hskipw hidW
    have p6 := keyword_vs_dotted_none "table" (by decide) u i eP6
      hprevU c.data halign w1 (w2 ++ tl) hstruct w p hm hskipw hidW
    have p7 := keyword_vs_dotted_none "any" (by decide) u i eP7
      hprevU c.data halign w1 (w2 ++ tl) hstruct w p hm hskipw hidW
    have hquoted : quotedP w p = none := by
      apply quotedP_none_head w p d0
      · rw [hskipw]
        rw [hhead] at hm
        exact matchAt_head w p d0 _ hm
      · exact word_ne_quote d0 hd0w
    have htab : luaTableP (luaType g) w p = none := by
      rcases composite_kw_vs_dotted "table" (by decide) c.data w1
        (w2 ++ tl) hstruct hall1 w p hm hskipw hprev with h | ⟨hkw, hdw⟩
      · exact luaTableP_none_kw (luaType g) w p h
      · apply luaTableP_none_lit (luaType g) w p _ hkw
        apply litP_none_of_ne "<" '<' [] rfl
        intro ch hgx
        rw [skipWs_id w (p + String.length "table") '.' hdw (by decide)]
          at hgx
        have hch : ch = '.' := by
          have h3 := hdw.symm.trans hgx
          injection h3 with h3
          exact h3.symm
        subst hch
        decide
    have hfun : luaFuncP (luaType g) fl w p = none := by
      rcases composite_kw_vs_dotted "fun" (by decide) c.data w1
        (w2 ++ tl) hstruct hall1 w p hm hskipw hprev with h | ⟨hkw, hdw⟩
      · exact luaFuncP_none_kw (luaType g) fl w p h
      · apply luaFuncP_none_lit (luaType g) fl w p _ hkw
        apply litP_none_of_ne "(" '(' [] rfl
        intro ch hgx
        rw [skipWs_id w (p + String.length "fun") '.' hdw (by decide)]
          at hgx
        have hch : ch = '.' := by
          have h3 := hdw.symm.trans hgx
          injection h3 with h3
          exact h3.symm
        subst hch
        decide
    have hstop : ∀ ch, w.get? (p + w1.length + 1 + w2.length + tl.length)
        = some ch → isIdentChar ch = false ∧ ch ≠ '[' := by
      intro ch hgx
      apply hid ch
      rw [hclen]
      rw [show p + (w1.length + 1 + w2.length + tl.length)
        = p + w1.length + 1 + w2.length + tl.length from by omega]
      exact hgx
    have hbuild := dottedP_build w p w1 w2 tl hl1 hl2 hall1 hall2 htl
      hmS hskipw hstop
    have hcmk : String.mk (w1 ++ '.' :: (w2 ++ tl)) = c := by
      rw [← hstruct]
    have hdend : p + w1.length + 1 + w2.length + tl.length
        = p + c.data.length := by
      rw [hclen]
      omega
    have hprim : primitiveP w p = some (c, p + c.data.length) := by
      unfold primitiveP
      rw [p1, p2, p3, p4, p5, p6, hquoted, p7, hbuild]
      simp only [Option.none_orElse]
      rw [hcmk, hdend]
    refine ⟨p + c.data.length,
      nonUnionP_eval _ _ w p _ hlist htab hfun hprim,
      Nat.le_refl _, le_skipWs w _, fun _ => rfl⟩

theorem renu_dotted (f : Nat) (u : List Char) (i j : Nat) (c : String)
    (hprevU : PrevOk u (skipWs u i))
    (eL1 : keywordP "string[]" u i = none)
    (eL2 : keywordP "integer[]" u i = none)
    (eL3 : keywordP "number[]" u i = none)
    (eL4 : keywordP "any[]" u i = none)
    (eL5 : keywordP "boolean[]" u i = none)
    (eP1 : keywordP "nil" u i = none)
    (eP2 : keywordP "string" u i = none)
    (eP3 : keywordP "integer" u i = none)
    (eP4 : keywordP "boolean" u i = none)
    (eP5 : keywordP "number" u i = none)
    (eP6 : keywordP "table" u i = none)
    (eP7 : keywordP "any" u i = none)
    (horig : dottedP u i = some (c, j)) : ReNu f u j c := by
  unfold dottedP at horig
  split at horig
  · exact Option.noConfusion horig
  · rename_i hn1
    split at horig
    case h_2 => exact Option.noConfusion horig
    case h_1 ch hgdot =>
      split at horig
      case isFalse => exact Option.noConfusion horig
      case isTrue hdot =>
        subst hdot
        split at horig
        case isTrue => exact Option.noConfusion horig
        case isFalse hn2 =>
          have hde : dotEnd u (skipWs u i)
              = skipWs u i + runLen isWordChar u (skipWs u i) + 1
                + runLen isWordChar u (skipWs u i
                  + runLen isWordChar u (skipWs u i) + 1) := rfl
          have hl1 : 1 ≤ ((sub u (skipWs u i)
              (runLen isWordChar u (skipWs u i))).data).length := by
            rw [sub_run_len]
            omega
          have hl2 : 1 ≤ ((sub u (skipWs u i
              + runLen isWordChar u (skipWs u i) + 1)
              (runLen isWordChar u (skipWs u i
                + runLen isWordChar u (skipWs u i) + 1))).data).length := by
            rw [sub_run_len]
            omega
          split at horig
          case isTrue hbr =>
            injection horig with horig
            rw [Prod.mk.injEq] at horig
            obtain ⟨hc, hj⟩ := horig
            rw [hde] at hc
            rw [show skipWs u i + runLen isWordChar u (skipWs u i) + 1
                + runLen isWordChar u (skipWs u i
                  + runLen isWordChar u (skipWs u i) + 1) - skipWs u i + 2
              = runLen isWordChar u (skipWs u i)
                + (1 + (runLen isWordChar u (skipWs u i
                  + runLen isWordChar u (skipWs u i) + 1) + 2)) from by
              omega] at hc
            have hstruct : c.data
                = (sub u (skipWs u i)
                    (runLen isWordChar u (skipWs u i))).data
                  ++ '.' :: ((sub u (skipWs u i
                    + runLen isWordChar u (skipWs u i) + 1)
                    (runLen isWordChar u (skipWs u i
                      + runLen isWordChar u (skipWs u i) + 1))).data
                    ++ ['[', ']']) := by
              rw [← hc]
              rw [sub_append_data]
              congr 1
              rw [sub_append_data]
              rw [sub_one_data u _ '.' hgdot]
              rw [show skipWs u i + runLen isWordChar u (skipWs u i) + 1
                = skipWs u i + runLen isWordChar u (skipWs u i) + 1 from
                rfl]
              rw [sub_append_data]
              have hbrs : (sub u (skipWs u i
                  + runLen isWordChar u (skipWs u i) + 1
                  + runLen isWordChar u (skipWs u i
                    + runLen isWordChar u (skipWs u i) + 1)) 2).data
                  = ['[', ']'] := by
                have hms := matchAt_sub u (dotEnd u (skipWs u i))
                  ['[', ']'] hbr
                rw [hde] at hms
                rw [show (['[', ']'] : List Char).length = 2 from rfl]
                  at hms
                rw [hms]
              rw [hbrs]
              rfl
            apply renu_dotted_core f u i j c hprevU eL1 eL2 eL3 eL4 eL5
              eP1 eP2 eP3 eP4 eP5 eP6 eP7 _ _ ['[', ']'] hl1 hl2
              (sub_all_run isWordChar u (skipWs u i))
              (sub_all_run isWordChar u _) (Or.inr rfl) hstruct
            · rw [← hc]
              exact matchAt_sub_self u (skipWs u i) _
            · intro ch2 h2
              rw [← hc] at h2
              exact sub_mem u (skipWs u i) _ ch2 h2
          case isFalse hbr =>
            injection horig with horig
            rw [Prod.mk.injEq] at horig
            obtain ⟨hc, hj⟩ := horig
            rw [hde] at hc
            rw [show skipWs u i + runLen isWordChar u (skipWs u i) + 1
                + runLen isWordChar u (skipWs u i
                  + runLen isWordChar u (skipWs u i) + 1) - skipWs u i
              = runLen isWordChar u (skipWs u i)
                + (1 + runLen isWordChar u (skipWs u i
                  + runLen isWordChar u (skipWs u i) + 1)) from by
              omega] at hc
            have hstruct : c.data
                = (sub u (skipWs u i)
                    (runLen isWordChar u (skipWs u i))).data
                  ++ '.' :: ((sub u (skipWs u i
                    + runLen isWordChar u (skipWs u i) + 1)
                    (runLen isWordChar u (skipWs u i
                      + runLen isWordChar u (skipWs u i) + 1))).data
                    ++ []) := by
              rw [← hc]
              rw [sub_append_data]
              congr 1
              rw [sub_append_data]
              rw [sub_one_data u _ '.' hgdot]
              rw [List.append_nil]
              rfl
            apply renu_dotted_core f u i j c hprevU eL1 eL2 eL3 eL4 eL5
              eP1 eP2 eP3 eP4 eP5 eP6 eP7 _ _ [] hl1 hl2
              (sub_all_run isWordChar u (skipWs u i))
              (sub_all_run isWordChar u _) (Or.inl rfl) hstruct
            · rw [← hc]
              exact matchAt_sub_self u (skipWs u i) _
            · intro ch2 h2
              rw [← hc] at h2
              exact sub_mem u (skipWs u i) _ ch2 h2

theorem pin_exact (w : List Char) (E e : Nat) (d : Char)
    (h1 : E ≤ e) (h2 : e ≤ skipWs w E) (hg : w.get? E = some d)
    (hd : isSkipWs d = false) : e = E := by
  have hE : skipWs w E = E := skipWs_id w E d hg hd
  omega

theorem litP_some_eq (s : String) (u : List Char) (q : Nat)
    (r : String × Nat) (h : litP s u q = some r) :
    r = (s, skipWs u q + s.length)
      ∧ matchAt u (skipWs u q) s.data = true := by
  unfold litP at h
  split at h
  · rename_i hmm
    injection h with h
    exact ⟨h.symm, hmm⟩
  · exact Option.noConfusion h

theorem prevok_optWhite (u : List Char) (q : Nat) (hq : PrevOk u q) :
    PrevOk u (optWhite u q).2 := by
  have hov : (optWhite u q).2 = q + runLen isWhiteChar u q := rfl
  by_cases hz : runLen isWhiteChar u q = 0
  · rw [hov, hz]
    exact hq
  · right
    obtain ⟨ch, hg, hp⟩ := runLen_chars isWhiteChar u q
      (runLen isWhiteChar u q - 1) (by omega)
    refine ⟨ch, ?_, white_not_ident ch hp⟩
    rw [hov, show q + runLen isWhiteChar u q - 1
      = q + (runLen isWhiteChar u q - 1) from by omega]
    exact hg

theorem optWhite_fst (u : List Char) (q : Nat) :
    (optWhite u q).1 = sub u q (runLen isWhiteChar u q) := rfl

theorem optWhite_all_white (u : List Char) (q : Nat) :
    ∀ ch ∈ (optWhite u q).1.data, isWhiteChar ch = true := by
  intro ch h
  exact sub_all_run isWhiteChar u q ch h

theorem renu_table (f : Nat) (hLt : PhiLt f) (u : List Char)
    (i j : Nat) (c : String)
    (hi : i ≤ u.length) (hf : u.length + 1 ≤ f + i)
    (horig : luaTableP (luaType f) u i = some (c, j)) : ReNu f u j c := by
  unfold luaTableP at horig
  rcases Option.bind_eq_some.mp horig with ⟨r1, h1, horig⟩
  rcases Option.bind_eq_some.mp horig with ⟨r2, h2, horig⟩
  rcases Option.bind_eq_some.mp horig with ⟨rk, hk, horig⟩
  rcases Option.bind_eq_some.mp horig with ⟨r4, h4, horig⟩
  rcases Option.bind_eq_some.mp horig with ⟨rv, hv, horig⟩
  rcases Option.bind_eq_some.mp horig with ⟨r7, h7, horig⟩
  injection horig with horig
  rw [Prod.mk.injEq] at horig
  obtain ⟨hcE, hjE⟩ := horig
  have hS : Strict (luaType f) := luaType_strict f
  have b1 := strict_pair (keywordP_strict "table" (by decide)) h1
  have b2 := strict_pair (litP_strict "<" (by decide)) h2
  have bk := strict_pair hS hk
  have b4 := strict_pair (litP_strict "," (by decide)) h4
  have bo := optWhite_bounds u r4.2 b4.2
  have bv := strict_pair hS hv
  have b7 := strict_pair (litP_strict ">" (by decide)) h7
  have hm2 := (litP_some_eq "<" u r1.2 r2 h2).2
  have hr22 : r2.2 = skipWs u r1.2 + 1 := by
    rw [(litP_some_eq "<" u r1.2 r2 h2).1]
    rfl
  have hprevK : PrevOk u r2.2 := by
    right
    refine ⟨'<', ?_, by decide⟩
    rw [hr22, show skipWs u r1.2 + 1 - 1 = skipWs u r1.2 from by omega]
    exact matchAt_head u (skipWs u r1.2) '<' [] hm2
  have hReK : ReLt u rk.2 rk.1 := hLt u r2.2 rk.1 rk.2 b2.2 (by omega)
    hprevK hk
  have hm4 := (litP_some_eq "," u rk.2 r4 h4).2
  have hr42 : r4.2 = skipWs u rk.2 + 1 := by
    rw [(litP_some_eq "," u rk.2 r4 h4).1]
    rfl
  have hprevV : PrevOk u (optWhite u r4.2).2 := by
    apply prevok_optWhite
    right
    refine ⟨',', ?_, by decide⟩
    rw [hr42, show skipWs u rk.2 + 1 - 1 = skipWs u rk.2 from by omega]
    exact matchAt_head u (skipWs u rk.2) ',' [] hm4
  have hReV : ReLt u rv.2 rv.1 := hLt u (optWhite u r4.2).2 rv.1 rv.2 bo.2
    (by omega) hprevV hv
  obtain ⟨dk, tk, hdk, hdkw⟩ := hReK.1
  obtain ⟨dv, tv, hdv, hdvw⟩ := hReV.1
  have hflat : c.data = 't' :: 'a' :: 'b' :: 'l' :: 'e' :: '<' ::
      (rk.1.data ++ (',' :: ((optWhite u r4.2).1.data
        ++ (rv.1.data ++ ['>'])))) := by
    rw [← hcE]
    simp only [String.data_append, List.append_assoc]
    rfl
  have hclen : c.data.length = rk.1.data.length
      + (optWhite u r4.2).1.data.length + rv.1.data.length + 8 := by
    rw [hflat]
    simp only [List.length_cons, List.length_append, List.length_nil]
    omega
  refine ⟨⟨'t', _, hflat, by decide⟩, ?_, ?_⟩
  · intro hnt ch hch
    rw [hflat] at hch
    simp only [List.mem_cons, List.mem_append] at hch
    rcases hch with h | h | h | h | h | h | h | h | h | h | h | h
    · subst h; decide
    · subst h; decide
    · subst h; decide
    · subst h; decide
    · subst h; decide
    · subst h; decide
    · exact hReK.2.1 hnt ch h
    · subst h; decide
    · exact hnt ch (sub_mem u r4.2 _ ch h)
    · exact hReV.2.1 hnt ch h
    · subst h; decide
    · exact absurd h (List.not_mem_nil ch)
  · intro w p hm hprev hcore hpipe g fl hg' hfl'
    rw [hflat] at hm
    have hm' : matchAt w p ((['t', 'a', 'b', 'l', 'e', '<'] : List Char)
        ++ (rk.1.data ++ (',' :: ((optWhite u r4.2).1.data
          ++ (rv.1.data ++ ['>']))))) = true := hm
    have s1 := (matchAt_append w p ['t', 'a', 'b', 'l', 'e', '<'] _).mp hm'
    have mHead6 := s1.1
    have sRest : matchAt w (p + 6) (rk.1.data
        ++ (',' :: ((optWhite u r4.2).1.data
          ++ (rv.1.data ++ ['>'])))) = true := s1.2
    have s1b := (matchAt_append w p ['t', 'a', 'b', 'l', 'e'] ['<']).mp
      (by exact mHead6)
    have mTable := s1b.1
    have mLt : matchAt w (p + 5) ['<'] = true := s1b.2
    have s2 := (matchAt_append w (p + 6) rk.1.data _).mp sRest
    have mK := s2.1
    have sRest2 : matchAt w (p + 6 + rk.1.data.length)
        (([','] : List Char) ++ ((optWhite u r4.2).1.data
          ++ (rv.1.data ++ ['>']))) = true := s2.2
    have s3 := (matchAt_append w (p + 6 + rk.1.data.length) [','] _).mp
      sRest2
    have mComma := s3.1
    have sRest3 : matchAt w (p + 7 + rk.1.data.length)
        ((optWhite u r4.2).1.data ++ (rv.1.data ++ ['>'])) = true := by
      have h := s3.2
      rwa [show p + 6 + rk.1.data.length + [','].length
        = p + 7 + rk.1.data.length from by
          simp only [List.length_cons, List.length_nil]; omega] at h
    have s4 := (matchAt_append w (p + 7 + rk.1.data.length)
      (optWhite u r4.2).1.data _).mp sRest3
    have mW := s4.1
    have sRest4 : matchAt w (p + 7 + rk.1.data.length
        + (optWhite u r4.2).1.data.length)
        (rv.1.data ++ ['>']) = true := s4.2
    have s5 := (matchAt_append w _ rv.1.data ['>']).mp sRest4
    have mV := s5.1
    have mGt : matchAt w (p + 7 + rk.1.data.length
        + (optWhite u r4.2).1.data.length + rv.1.data.length)
        ['>'] = true := s5.2
    have hgLt : w.get? (p + 5) = some '<' := matchAt_head _ _ _ _ mLt
    have hgComma : w.get? (p + 6 + rk.1.data.length) = some ',' :=
      matchAt_head _ _ _ _ mComma
    have hgGt : w.get? (p + 7 + rk.1.data.length
        + (optWhite u r4.2).1.data.length + rv.1.data.length)
        = some '>' := matchAt_head _ _ _ _ mGt
    have hskipw : skipWs w p = p :=
      skipWs_eq_of_head w p 't' _ hm (by decide)
    -- keyword "table"
    have hKw : keywordP "table" w p = some ("table", p + 5) := by
      have hb := keywordP_build "table" w p mTable hskipw hprev
        (fun ch hgx => by
          have hch : ch = '<' := by
            have h3 := hgLt.symm.trans hgx
            injection h3 with h3
            exact h3.symm
          subst hch
          decide)
      exact hb
    -- litP "<"
    have hskip5 : skipWs w (p + 5) = p + 5 :=
      skipWs_id w (p + 5) '<' hgLt (by decide)
    have hLit1 : litP "<" w (p + 5) = some ("<", p + 6) := by
      have hb := litP_build "<" w (p + 5) (by rw [hskip5]; exact mLt)
      rw [hskip5] at hb
      exact hb
    -- inner key type
    obtain ⟨eK, hEK, hEKl, hEKu, _⟩ := hReK.2.2 w (p + 6) mK
      (Or.inr ⟨'<', by
        rw [show p + 6 - 1 = p + 5 from by omega]
        exact hgLt, by decide⟩)
      (⟨fun ch hgx => by
          have hch : ch = ',' := by
            have h3 := hgComma.symm.trans hgx
            injection h3 with h3
            exact h3.symm
          subst hch
          exact ⟨by decide, by decide⟩,
        fun ch hgx => by
          rw [skipWs_id w (p + 6 + rk.1.data.length) ',' hgComma
            (by decide)] at hgx
          have hch : ch = ',' := by
            have h3 := hgComma.symm.trans hgx
            injection h3 with h3
            exact h3.symm
          subst hch
          exact ⟨by decide, by decide⟩⟩)
      (fun ch hgx => by
        rw [skipWs_id w (p + 6 + rk.1.data.length) ',' hgComma
          (by decide)] at hgx
        have hch : ch = ',' := by
          have h3 := hgComma.symm.trans hgx
          injection h3 with h3
          exact h3.symm
        subst hch
        decide)
      g (by omega)
    have heK : eK = p + 6 + rk.1.data.length :=
      pin_exact w (p + 6 + rk.1.data.length) eK ',' hEKl hEKu hgComma
        (by decide)
    subst heK
    -- litP ","
    have hskipc : skipWs w (p + 6 + rk.1.data.length)
        = p + 6 + rk.1.data.length :=
      skipWs_id w _ ',' hgComma (by decide)
    have hLit2 : litP "," w (p + 6 + rk.1.data.length)
        = some (",", p + 7 + rk.1.data.length) := by
      have hb := litP_build "," w (p + 6 + rk.1.data.length)
        (by rw [hskipc]; exact mComma)
      rw [hskipc] at hb
      rw [hb, show p + 6 + rk.1.data.length + ",".length
        = p + 7 + rk.1.data.length from by
          show p + 6 + rk.1.data.length + 1 = p + 7 + rk.1.data.length
          omega]
    -- optWhite capture
    have hVhead : w.get? (p + 7 + rk.1.data.length
        + (optWhite u r4.2).1.data.length) = some dv := by
      rw [hdv] at mV
      exact matchAt_head _ _ _ _ mV
    have hOW : optWhite w (p + 7 + rk.1.data.length)
        = ((optWhite u r4.2).1, p + 7 + rk.1.data.length
          + (optWhite u r4.2).1.data.length) := by
      have hb := optWhite_block w (p + 7 + rk.1.data.length)
        (optWhite u r4.2).1 mW (optWhite_all_white u r4.2)
        (fun ch hgx => by
          have hch : ch = dv := by
            have h3 := hVhead.symm.trans hgx
            injection h3 with h3
            exact h3.symm
          subst hch
          exact hdvw)
      exact hb
    -- inner value type
    have hprevVw : PrevOk w (p + 7 + rk.1.data.length
        + (optWhite u r4.2).1.data.length) := by
      by_cases hlw : (optWhite u r4.2).1.data.length = 0
      · right
        refine ⟨',', ?_, by decide⟩
        rw [hlw]
        rw [show p + 7 + rk.1.data.length + 0 - 1
          = p + 6 + rk.1.data.length from by omega]
        exact hgComma
      · right
        obtain ⟨d2, hd2⟩ : ∃ d2, (optWhite u r4.2).1.data.get?
            ((optWhite u r4.2).1.data.length - 1) = some d2 :=
          ⟨_, List.get?_eq_get (by omega)⟩
        have hw2 : isWhiteChar d2 = true :=
          optWhite_all_white u r4.2 d2 (List.get?_mem hd2)
        refine ⟨d2, ?_, white_not_ident d2 hw2⟩
        rw [show p + 7 + rk.1.data.length
            + (optWhite u r4.2).1.data.length - 1
          = p + 7 + rk.1.data.length
            + ((optWhite u r4.2).1.data.length - 1) from by omega]
        exact align_get w (p + 7 + rk.1.data.length) _ mW _ d2 hd2
    obtain ⟨eV, hEV, hEVl, hEVu, _⟩ := hReV.2.2 w
      (p + 7 + rk.1.data.length + (optWhite u r4.2).1.data.length) mV
      hprevVw
      (⟨fun ch hgx => by
          have hch : ch = '>' := by
            have h3 := hgGt.symm.trans hgx
            injection h3 with h3
            exact h3.symm
          subst hch
          exact ⟨by decide, by decide⟩,
        fun ch hgx => by
          rw [skipWs_id w _ '>' hgGt (by decide)] at hgx
          have hch : ch = '>' := by
            have h3 := hgGt.symm.trans hgx
            injection h3 with h3
            exact h3.symm
          subst hch
          exact ⟨by decide, by decide⟩⟩)
      (fun ch hgx => by
        rw [skipWs_id w _ '>' hgGt (by decide)] at hgx
        have hch : ch = '>' := by
          have h3 := hgGt.symm.trans hgx
          injection h3 with h3
          exact h3.symm
        subst hch
        decide)
      g (by omega)
    have heV : eV = p + 7 + rk.1.data.length
        + (optWhite u r4.2).1.data.length + rv.1.data.length :=
      pin_exact w _ eV '>' hEVl hEVu hgGt (by decide)
    subst heV
    -- litP ">"
    have hskipg : skipWs w (p + 7 + rk.1.data.length
        + (optWhite u r4.2).1.data.length + rv.1.data.length)
        = p + 7 + rk.1.data.length + (optWhite u r4.2).1.data.length
          + rv.1.data.length :=
      skipWs_id w _ '>' hgGt (by decide)
    have hLit3 : litP ">" w (p + 7 + rk.1.data.length
        + (optWhite u r4.2).1.data.length + rv.1.data.length)
        = some (">", p + 8 + rk.1.data.length
          + (optWhite u r4.2).1.data.length + rv.1.data.length) := by
      have hb := litP_build ">" w _ (by rw [hskipg]; exact mGt)
      rw [hskipg] at hb
      rw [hb]
      rw [show p + 7 + rk.1.data.length + (optWhite u r4.2).1.data.length
          + rv.1.data.length + (">" : String).length
        = p + 8 + rk.1.data.length + (optWhite u r4.2).1.data.length
          + rv.1.data.length from by
        rw [show (">" : String).length = 1 from rfl]
        omega]
    -- assemble the table parse
    have hTab : luaTableP (luaType g) w p
        = some (c, p + c.data.length) := by
      unfold luaTableP
      rw [hKw]
      simp only [Option.some_bind]
      rw [hLit1]
      simp only [Option.some_bind]
      rw [hEK]
      simp only [Option.some_bind]
      rw [hLit2]
      simp only [Option.some_bind]
      rw [hOW]
      simp only
      rw [hEV]
      simp only [Option.some_bind]
      rw [hLit3]
      simp only [Option.some_bind]
      rw [hcE]
      rw [show p + 8 + rk.1.data.length + (optWhite u r4.2).1.data.length
          + rv.1.data.length = p + c.data.length from by
        rw [hclen]
        omega]
    -- earlier alternatives
    have hcd0 : c.data.get? 0 = some 't' := by
      rw [hflat]
      rfl
    have hmc : matchAt w p c.data = true := by
      rw [hflat]
      exact hm
    have e1 := keywordP_none_align "string[]" 0 's' 't' rfl w p c.data
      hmc hcd0 (by decide) hskipw
    have e2 := keywordP_none_align "integer[]" 0 'i' 't' rfl w p c.data
      hmc hcd0 (by decide) hskipw
    have e3 := keywordP_none_align "number[]" 0 'n' 't' rfl w p c.data
      hmc hcd0 (by decide) hskipw
    have e4 := keywordP_none_align "any[]" 0 'a' 't' rfl w p c.data
      hmc hcd0 (by decide) hskipw
    have e5 := keywordP_none_align "boolean[]" 0 'b' 't' rfl w p c.data
      hmc hcd0 (by decide) hskipw
    have hlist : luaListP w p = none := by
      unfold luaListP
      rw [e1, e2, e3, e4, e5]
      rfl
    refine ⟨p + c.data.length, ?_, Nat.le_refl _,
      le_skipWs w _, fun _ => rfl⟩
    exact nonUnionP_eval_table _ _ w p _ hlist hTab

theorem alpha_ident (ch : Char) (h : isAsciiAlpha ch = true) :
    isIdentChar ch = true := by
  simp only [isIdentChar, isAsciiAlphanum, Bool.or_eq_true]
  exact Or.inl (Or.inl (Or.inl h))

theorem alpha_not_white (ch : Char) (h : isAsciiAlpha ch = true) :
    isWhiteChar ch = false := by
  cases hw : isWhiteChar ch with
  | false => rfl
  | true =>
    exfalso
    simp only [isWhiteChar, Bool.or_eq_true, decide_eq_true_eq] at hw
    rcases hw with ((hw | hw) | hw) | hw <;> subst hw <;>
      exact absurd h (by decide)

theorem white_ne_bracket (ch : Char) (h : isWhiteChar ch = true) :
    ch ≠ '[' := by
  intro he
  rw [he] at h
  exact absurd h (by decide)

theorem skip_of_not_white (ch : Char) (h : isWhiteChar ch = false) :
    isSkipWs ch = false := by
  cases hs : isSkipWs ch with
  | false => rfl
  | true => rw [skip_white ch hs] at h; exact Bool.noConfusion h

theorem litAtP_some_eq (s : String) (u : List Char) (q : Nat)
    (r : String × Nat) (h : litAtP s u q = some r) :
    r = (s, q + s.length) ∧ matchAt u q s.data = true := by
  unfold litAtP at h
  split at h
  · rename_i hm
    injection h with h
    exact ⟨h.symm, hm⟩
  · exact Option.noConfusion h

theorem wordAtP_none (init body : Char → Bool) (w : List Char) (p : Nat)
    (d : Char) (hg : w.get? p = some d) (hd : init d = false) :
    wordAtP init body w p = none := by
  have hred : wordAtP init body w p
      = if init d = true then
          some (sub w p (runLen body w (p + 1) + 1),
            p + runLen body w (p + 1) + 1)
        else none := by
    unfold wordAtP
    rw [hg]
  rw [hred, hd]
  rfl

theorem take_head (l : List Char) (n : Nat) (d : Char) (t : List Char)
    (h : l.take n = d :: t) : l.get? 0 = some d := by
  cases n with
  | zero => exact List.noConfusion h
  | succ m =>
    cases l with
    | nil => exact List.noConfusion h
    | cons a l' =>
      simp only [List.take_succ_cons, List.cons.injEq] at h
      simp [h.1]

theorem optWhite_ne_skip (u : List Char) (q : Nat) (d : Char)
    (t : List Char) (h : (optWhite u q).1.data = d :: t)
    (hd : isSkipWs d = true) : skipWs u q ≠ q := by
  have hdata : (optWhite u q).1.data
      = (u.drop q).take (runLen isWhiteChar u q) := rfl
  rw [hdata] at h
  have hg : u.get? q = some d := by
    have h0 := take_head (u.drop q) (runLen isWhiteChar u q) d t h
    rwa [List.get?_drop, Nat.add_zero] at h0
  have hrun : 1 ≤ runLen isSkipWs u q := by
    unfold runLen
    rw [takeCount_succ_of_head isSkipWs (u.drop q) d
      (by rw [List.get?_drop, Nat.add_zero]; exact hg) hd]
    omega
  unfold skipWs
  omega

theorem wordAtP_none_of_get_none (init body : Char → Bool) (u : List Char)
    (i : Nat) (hg : u.get? i = none) : wordAtP init body u i = none := by
  unfold wordAtP
  rw [hg]

theorem wordAtP_some_shape (init body : Char → Bool) (u : List Char)
    (i : Nat) (r : String × Nat) (h : wordAtP init body u i = some r) :
    ∃ d rest, r.1.data = d :: rest ∧ init d = true ∧
      (∀ ch ∈ rest, body ch = true) ∧
      r.2 = i + rest.length + 1 ∧ (∀ ch ∈ r.1.data, ch ∈ u) ∧
      u.get? i = some d := by
  cases hg : u.get? i with
  | none =>
    rw [wordAtP_none_of_get_none init body u i hg] at h
    exact Option.noConfusion h
  | some d =>
    have hred : wordAtP init body u i
        = if init d = true then
            some (sub u i (runLen body u (i + 1) + 1),
              i + runLen body u (i + 1) + 1)
          else none := by
      unfold wordAtP
      rw [hg]
    rw [hred] at h
    split at h
    · rename_i hinit
      injection h with h
      have hi1 : i < u.length := (List.get?_eq_some.mp hg).1
      have hRle : i + 1 + runLen body u (i + 1) ≤ u.length :=
        runLen_le_of_le body u (i + 1) (by omega)
      have hr1 : r.1 = sub u i (runLen body u (i + 1) + 1) :=
        (congrArg Prod.fst h).symm
      have hr2 : r.2 = i + runLen body u (i + 1) + 1 :=
        (congrArg Prod.snd h).symm
      have hdrop : u.drop i = d :: u.drop (i + 1) := drop_cons_of_get u i d hg
      have hdata : r.1.data
          = d :: (u.drop (i + 1)).take (runLen body u (i + 1)) := by
        rw [hr1]
        show (u.drop i).take (runLen body u (i + 1) + 1) = _
        rw [hdrop, List.take_succ_cons]
      have hlen : ((u.drop (i + 1)).take (runLen body u (i + 1))).length
          = runLen body u (i + 1) := by
        rw [List.length_take, List.length_drop]
        omega
      refine ⟨d, _, hdata, hinit, ?_, by rw [hr2, hlen], ?_, rfl⟩
      · exact run_take_all body u (i + 1)
      · intro ch hch
        rw [hdata] at hch
        rcases List.mem_cons.mp hch with hch | hch
        · subst hch
          exact List.get?_mem hg
        · exact List.mem_of_mem_drop (List.mem_of_mem_take hch)
    · exact Option.noConfusion h

theorem luaFuncParamP_re (f : Nat) (hLt : PhiLt f) (u : List Char)
    (i0 : Nat) (pp : String × Nat)
    (hi : i0 ≤ u.length) (hf : u.length + 1 ≤ f + i0)
    (horig : luaFuncParamP (luaType f) u i0 = some pp) :
    1 ≤ pp.1.data.length ∧
    ((∀ ch ∈ u, ch ≠ '\t') → ∀ ch ∈ pp.1.data, ch ≠ '\t') ∧
    ∀ w p nc, matchAt w p pp.1.data = true →
      w.get? (p + pp.1.data.length) = some nc →
      isWhiteChar nc = false → isIdentChar nc = false →
      nc ≠ ':' → nc ≠ '<' → nc ≠ '|' → nc ≠ '[' →
      ∀ g, pp.1.data.length + 2 ≤ g →
      luaFuncParamP (luaType g) w p
        = some (pp.1, p + pp.1.data.length) := by
  unfold luaFuncParamP at horig
  rcases Option.bind_eq_some.mp horig with ⟨rn, hrn, horig⟩
  rcases Option.bind_eq_some.mp horig with ⟨rc, hrc, horig⟩
  rcases Option.bind_eq_some.mp horig with ⟨rt, hrt, horig⟩
  injection horig with horig
  have hppE : pp.1 = (optWhite u i0).1 ++ rn.1 ++ ":" ++ (optWhite u rc.2).1
      ++ rt.1 ++ (optWhite u rt.2).1 := (congrArg Prod.fst horig).symm
  obtain ⟨dN, tN, hNdata, hNinit, hNbody, hN2, hNmem, hNget⟩ :=
    wordAtP_some_shape isAsciiAlpha (fun c => isAsciiAlphanum c || c = '_')
      u (optWhite u i0).2 rn hrn
  obtain ⟨hrcE, hrcM⟩ := litAtP_some_eq ":" u rn.2 rc hrc
  have hColonGet : u.get? rn.2 = some ':' := matchAt_head u rn.2 ':' [] hrcM
  have hposN := optWhite_bounds u i0 hi
  have hrn2lt : rn.2 < u.length := (List.get?_eq_some.mp hColonGet).1
  have hrc2 : rc.2 = rn.2 + 1 := by rw [hrcE]; rfl
  have hposT := optWhite_bounds u rc.2 (by omega)
  have hTge := optWhite_le u rc.2
  have brt := strict_pair (luaType_strict f) hrt
  have hprevT : PrevOk u (optWhite u rc.2).2 := by
    apply prevok_optWhite
    right
    refine ⟨':', ?_, by decide⟩
    rw [hrc2, show rn.2 + 1 - 1 = rn.2 from by omega]
    exact hColonGet
  have hReT : ReLt u rt.2 rt.1 := hLt u (optWhite u rc.2).2 rt.1 rt.2
    hposT.2 (by omega) hprevT hrt
  obtain ⟨dT, tT, hTdata, hTw⟩ := hReT.1
  have hflat : pp.1.data = (optWhite u i0).1.data
      ++ (dN :: (tN ++ (':' :: ((optWhite u rc.2).1.data
        ++ (rt.1.data ++ (optWhite u rt.2).1.data))))) := by
    rw [hppE]
    simp only [String.data_append, List.append_assoc]
    rw [hNdata]
    rfl
  have hplen : pp.1.data.length = (optWhite u i0).1.data.length
      + tN.length + 2 + (optWhite u rc.2).1.data.length
      + rt.1.data.length + (optWhite u rt.2).1.data.length := by
    rw [hflat]
    simp only [List.length_append, List.length_cons]
    omega
  refine ⟨by omega, ?_, ?_⟩
  · intro hnt ch hch
    rw [hflat] at hch
    simp only [List.mem_append, List.mem_cons] at hch
    rcases hch with h | h | h | h | h | h | h
    · exact hnt ch (sub_mem u i0 _ ch h)
    · subst h
      refine hnt ch (hNmem ch ?_)
      rw [hNdata]
      exact List.mem_cons_self _ _
    · refine hnt ch (hNmem ch ?_)
      rw [hNdata]
      exact List.mem_cons_of_mem _ h
    · subst h; decide
    · exact hnt ch (sub_mem u rc.2 _ ch h)
    · exact hReT.2.1 hnt ch h
    · exact hnt ch (sub_mem u rt.2 _ ch h)
  · intro w p nc hm hnc hncW hncI hncC hncLt hncPipe hncBr g hg
    rw [hflat] at hm
    have s1 := (matchAt_append w p (optWhite u i0).1.data _).mp hm
    have mOwA := s1.1
    have sR1 : matchAt w (p + (optWhite u i0).1.data.length)
        (dN :: (tN ++ (':' :: ((optWhite u rc.2).1.data
          ++ (rt.1.data ++ (optWhite u rt.2).1.data))))) = true := s1.2
    have s2 := (matchAt_append w (p + (optWhite u i0).1.data.length)
      (dN :: tN) (':' :: ((optWhite u rc.2).1.data
        ++ (rt.1.data ++ (optWhite u rt.2).1.data)))).mp (by exact sR1)
    have mName := s2.1
    have sR2 : matchAt w (p + (optWhite u i0).1.data.length + tN.length + 1)
        (':' :: ((optWhite u rc.2).1.data
          ++ (rt.1.data ++ (optWhite u rt.2).1.data))) = true := by
      have h2 := s2.2
      rwa [show p + (optWhite u i0).1.data.length + (dN :: tN).length
        = p + (optWhite u i0).1.data.length + tN.length + 1 from by
          simp only [List.length_cons]; omega] at h2
    have hColGet : w.get? (p + (optWhite u i0).1.data.length + tN.length + 1)
        = some ':' := matchAt_head _ _ _ _ sR2
    have s3 := (matchAt_append w (p + (optWhite u i0).1.data.length
      + tN.length + 1) [':'] ((optWhite u rc.2).1.data
        ++ (rt.1.data ++ (optWhite u rt.2).1.data))).mp (by exact sR2)
    have sR3 : matchAt w (p + (optWhite u i0).1.data.length + tN.length + 1
        + 1) ((optWhite u rc.2).1.data
          ++ (rt.1.data ++ (optWhite u rt.2).1.data)) = true := by
      have h3 := s3.2
      rwa [show p + (optWhite u i0).1.data.length + tN.length + 1
          + [':'].length
        = p + (optWhite u i0).1.data.length + tN.length + 1 + 1
          from rfl] at h3
    have s4 := (matchAt_append w (p + (optWhite u i0).1.data.length
      + tN.length + 1 + 1) (optWhite u rc.2).1.data
      (rt.1.data ++ (optWhite u rt.2).1.data)).mp sR3
    have mOwB := s4.1
    have s5 := (matchAt_append w (p + (optWhite u i0).1.data.length
      + tN.length + 1 + 1 + (optWhite u rc.2).1.data.length)
      rt.1.data (optWhite u rt.2).1.data).mp s4.2
    have mT := s5.1
    have mOwC := s5.2
    have hncPos : w.get? (p + (optWhite u i0).1.data.length + tN.length
        + 1 + 1 + (optWhite u rc.2).1.data.length + rt.1.data.length
        + (optWhite u rt.2).1.data.length) = some nc := by
      rw [show p + (optWhite u i0).1.data.length + tN.length + 1 + 1
          + (optWhite u rc.2).1.data.length + rt.1.data.length
          + (optWhite u rt.2).1.data.length
        = p + pp.1.data.length from by rw [hplen]; omega]
      exact hnc
    have hdNw : isWhiteChar dN = false := alpha_not_white dN hNinit
    have hNhead : w.get? (p + (optWhite u i0).1.data.length) = some dN :=
      matchAt_head _ _ _ _ mName
    have hOWA : optWhite w p = ((optWhite u i0).1,
        p + (optWhite u i0).1.data.length) :=
      optWhite_block w p (optWhite u i0).1 mOwA (optWhite_all_white u i0)
        (fun ch hgx => by
          have hch : ch = dN := by
            have h3 := hNhead.symm.trans hgx
            injection h3 with h3
            exact h3.symm
          subst hch
          exact hdNw)
    have hVar : varnameAtP w (p + (optWhite u i0).1.data.length)
        = some (rn.1,
          p + (optWhite u i0).1.data.length + tN.length + 1) := by
      have hb := wordAtP_build isAsciiAlpha
        (fun c => isAsciiAlphanum c || c = '_') w
        (p + (optWhite u i0).1.data.length) dN tN mName hNinit hNbody
        (fun ch hgx => by
          have hch : ch = ':' := by
            have h3 := hColGet.symm.trans hgx
            injection h3 with h3
            exact h3.symm
          subst hch
          decide)
      rw [show String.mk (dN :: tN) = rn.1 from by rw [← hNdata]] at hb
      exact hb
    have hColon : litAtP ":" w (p + (optWhite u i0).1.data.length
        + tN.length + 1) = some (":",
          p + (optWhite u i0).1.data.length + tN.length + 1 + 1) :=
      litAtP_build ":" w _ s3.1
    have hThead : w.get? (p + (optWhite u i0).1.data.length + tN.length
        + 1 + 1 + (optWhite u rc.2).1.data.length) = some dT := by
      have mT' := mT
      rw [hTdata] at mT'
      exact matchAt_head _ _ _ _ mT'
    have hOWB : optWhite w (p + (optWhite u i0).1.data.length + tN.length
        + 1 + 1) = ((optWhite u rc.2).1,
          p + (optWhite u i0).1.data.length + tN.length + 1 + 1
            + (optWhite u rc.2).1.data.length) :=
      optWhite_block w _ (optWhite u rc.2).1 mOwB
        (optWhite_all_white u rc.2)
        (fun ch hgx => by
          have hch : ch = dT := by
            have h3 := hThead.symm.trans hgx
            injection h3 with h3
            exact h3.symm
          subst hch
          exact hTw)
    have hprevTw : PrevOk w (p + (optWhite u i0).1.data.length + tN.length
        + 1 + 1 + (optWhite u rc.2).1.data.length) := by
      by_cases hlw : (optWhite u rc.2).1.data.length = 0
      · right
        refine ⟨':', ?_, by decide⟩
        rw [hlw, show p + (optWhite u i0).1.data.length + tN.length + 1 + 1
            + 0 - 1
          = p + (optWhite u i0).1.data.length + tN.length + 1 from by omega]
        exact hColGet
      · right
        obtain ⟨d2, hd2⟩ : ∃ d2, (optWhite u rc.2).1.data.get?
            ((optWhite u rc.2).1.data.length - 1) = some d2 :=
          ⟨_, List.get?_eq_get (by omega)⟩
        have hw2 : isWhiteChar d2 = true :=
          optWhite_all_white u rc.2 d2 (List.get?_mem hd2)
        refine ⟨d2, ?_, white_not_ident d2 hw2⟩
        rw [show p + (optWhite u i0).1.data.length + tN.length + 1 + 1
            + (optWhite u rc.2).1.data.length - 1
          = p + (optWhite u i0).1.data.length + tN.length + 1 + 1
            + ((optWhite u rc.2).1.data.length - 1) from by omega]
        exact align_get w _ _ mOwB _ d2 hd2
    have htail := skipWs_target w (p + (optWhite u i0).1.data.length
        + tN.length + 1 + 1 + (optWhite u rc.2).1.data.length
        + rt.1.data.length) (optWhite u rt.2).1.data mOwC
      (optWhite_all_white u rt.2)
      (fun ch hgx => by
        have hch : ch = nc := by
          have h3 := hncPos.symm.trans hgx
          injection h3 with h3
          exact h3.symm
        subst hch
        exact hncW)
    have hcoreT : NextOkCore w (p + (optWhite u i0).1.data.length
        + tN.length + 1 + 1 + (optWhite u rc.2).1.data.length
        + rt.1.data.length) := by
      constructor
      · intro ch hgx
        by_cases hcc : (optWhite u rt.2).1.data.length = 0
        · have h0 : w.get? (p + (optWhite u i0).1.data.length + tN.length
              + 1 + 1 + (optWhite u rc.2).1.data.length
              + rt.1.data.length) = some nc := by
            rw [show p + (optWhite u i0).1.data.length + tN.length + 1 + 1
                + (optWhite u rc.2).1.data.length + rt.1.data.length
              = p + (optWhite u i0).1.data.length + tN.length + 1 + 1
                + (optWhite u rc.2).1.data.length + rt.1.data.length
                + (optWhite u rt.2).1.data.length from by omega]
            exact hncPos
          have hch : ch = nc := by
            have h3 := h0.symm.trans hgx
            injection h3 with h3
            exact h3.symm
          subst hch
          exact ⟨hncI, hncBr⟩
        · cases hCd : (optWhite u rt.2).1.data with
          | nil => rw [hCd] at hcc; simp at hcc
          | cons d0 t0 =>
            have hgd0 : w.get? (p + (optWhite u i0).1.data.length
                + tN.length + 1 + 1 + (optWhite u rc.2).1.data.length
                + rt.1.data.length) = some d0 := by
              have mOwC' := mOwC
              rw [hCd] at mOwC'
              exact matchAt_head _ _ _ _ mOwC'
            have hch : ch = d0 := by
              have h3 := hgd0.symm.trans hgx
              injection h3 with h3
              exact h3.symm
            subst hch
            have hwd0 : isWhiteChar ch = true := by
              apply optWhite_all_white u rt.2
              rw [hCd]
              exact List.mem_cons_self _ _
            exact ⟨white_not_ident ch hwd0, white_ne_bracket ch hwd0⟩
      · intro ch hgx
        rcases htail ch hgx with h | h | h
        · subst h; exact ⟨by decide, by decide⟩
        · subst h; exact ⟨by decide, by decide⟩
        · have hch : ch = nc := by
            have h3 := hncPos.symm.trans h.2
            injection h3 with h3
            exact h3.symm
          subst hch
          exact ⟨hncC, hncLt⟩
    have hpipeT : NoPipeAfter w (p + (optWhite u i0).1.data.length
        + tN.length + 1 + 1 + (optWhite u rc.2).1.data.length
        + rt.1.data.length) := by
      intro ch hgx
      rcases htail ch hgx with h | h | h
      · subst h; decide
      · subst h; decide
      · have hch : ch = nc := by
          have h3 := hncPos.symm.trans h.2
          injection h3 with h3
          exact h3.symm
        subst hch
        exact hncPipe
    obtain ⟨eT, hET, hETl, hETu, hETimp⟩ := hReT.2.2 w
      (p + (optWhite u i0).1.data.length + tN.length + 1 + 1
        + (optWhite u rc.2).1.data.length) mT hprevTw hcoreT hpipeT
      g (by omega)
    have heT : eT = p + (optWhite u i0).1.data.length + tN.length + 1 + 1
        + (optWhite u rc.2).1.data.length + rt.1.data.length := by
      by_cases hcc : (optWhite u rt.2).1.data.length = 0
      · have h0 : w.get? (p + (optWhite u i0).1.data.length + tN.length
            + 1 + 1 + (optWhite u rc.2).1.data.length
            + rt.1.data.length) = some nc := by
          rw [show p + (optWhite u i0).1.data.length + tN.length + 1 + 1
              + (optWhite u rc.2).1.data.length + rt.1.data.length
            = p + (optWhite u i0).1.data.length + tN.length + 1 + 1
              + (optWhite u rc.2).1.data.length + rt.1.data.length
              + (optWhite u rt.2).1.data.length from by omega]
          exact hncPos
        exact pin_exact w _ eT nc hETl hETu h0 (skip_of_not_white nc hncW)
      · cases hCd : (optWhite u rt.2).1.data with
        | nil => rw [hCd] at hcc; simp at hcc
        | cons d0 t0 =>
          by_cases hsk0 : isSkipWs d0 = true
          · exact hETimp (optWhite_ne_skip u rt.2 d0 t0 hCd hsk0)
          · have hgd0 : w.get? (p + (optWhite u i0).1.data.length
                + tN.length + 1 + 1 + (optWhite u rc.2).1.data.length
                + rt.1.data.length) = some d0 := by
              have mOwC' := mOwC
              rw [hCd] at mOwC'
              exact matchAt_head _ _ _ _ mOwC'
            exact pin_exact w _ eT d0 hETl hETu hgd0
              (Bool.eq_false_iff.mpr hsk0)
    have hT : luaType g w (p + (optWhite u i0).1.data.length + tN.length
        + 1 + 1 + (optWhite u rc.2).1.data.length)
        = some (rt.1, p + (optWhite u i0).1.data.length + tN.length + 1 + 1
          + (optWhite u rc.2).1.data.length + rt.1.data.length) := by
      rw [← heT]
      exact hET
    have hOWC : optWhite w (p + (optWhite u i0).1.data.length + tN.length
        + 1 + 1 + (optWhite u rc.2).1.data.length + rt.1.data.length)
        = ((optWhite u rt.2).1,
          p + (optWhite u i0).1.data.length + tN.length + 1 + 1
            + (optWhite u rc.2).1.data.length + rt.1.data.length
            + (optWhite u rt.2).1.data.length) :=
      optWhite_block w _ (optWhite u rt.2).1 mOwC
        (optWhite_all_white u rt.2)
        (fun ch hgx => by
          have hch : ch = nc := by
            have h3 := hncPos.symm.trans hgx
            injection h3 with h3
            exact h3.symm
          subst hch
          exact hncW)
    have hgoalE : (pp.1, p + pp.1.data.length)
        = ((optWhite u i0).1 ++ rn.1 ++ ":" ++ (optWhite u rc.2).1
            ++ rt.1 ++ (optWhite u rt.2).1,
          p + (optWhite u i0).1.data.length + tN.length + 1 + 1
            + (optWhite u rc.2).1.data.length + rt.1.data.length
            + (optWhite u rt.2).1.data.length) := by
      rw [Prod.mk.injEq]
      exact ⟨hppE, by rw [hplen]; omega⟩
    rw [hgoalE]
    unfold luaFuncParamP
    rw [hOWA]
    simp only
    rw [hVar]
    simp only [Option.some_bind]
    rw [hColon]
    simp only [Option.some_bind]
    rw [hOWB]
    simp only
    rw [hT]
    simp only [Option.some_bind]
    rw [hOWC]

theorem paramsLoopP_re_nil (lt : P) (w : List Char) (p : Nat)
    (accW : String) (hnext : w.get? p = some ')') (k : Nat) (hk : 1 ≤ k) :
    paramsLoopP lt k accW w p = some (accW, p) := by
  obtain ⟨k1, rfl⟩ : ∃ k1, k = k1 + 1 := ⟨k - 1, by omega⟩
  simp only [paramsLoopP]
  split
  · rfl
  · rename_i rcw hrcw
    obtain ⟨hrcwE, hrcwM⟩ := litAtP_some_eq "," w p rcw hrcw
    have hcg : w.get? p = some ',' := matchAt_head w p ',' [] hrcwM
    have h9 := hcg.symm.trans hnext
    injection h9 with h9
    exact absurd h9 (by decide)

theorem paramsLoopP_re (f : Nat) (hLt : PhiLt f) :
    ∀ fl acc u cur res, cur ≤ u.length → u.length + 1 ≤ f + cur →
      paramsLoopP (luaType f) fl acc u cur = some res →
      ∃ restD : List Char, res.1.data = acc.data ++ restD ∧
        (restD = [] ∨ ∃ t2, restD = ',' :: t2) ∧
        ((∀ ch ∈ u, ch ≠ '\t') → ∀ ch ∈ restD, ch ≠ '\t') ∧
        ∀ w p accW, matchAt w p restD = true →
          w.get? (p + restD.length) = some ')' →
          ∀ g k, restD.length + 2 ≤ g → restD.length + 1 ≤ k →
          ∃ v : String × Nat, paramsLoopP (luaType g) k accW w p = some v ∧
            v.1.data = accW.data ++ restD ∧ v.2 = p + restD.length := by
  intro fl
  induction fl with
  | zero =>
    intro acc u cur res h1 h2 h
    simp only [paramsLoopP] at h
    exact Option.noConfusion h
  | succ n ih =>
    intro acc u cur res h1 h2 h
    simp only [paramsLoopP] at h
    split at h
    · injection h with h
      refine ⟨[], by rw [← h]; simp, Or.inl rfl, ?_, ?_⟩
      · intro hnt ch hch
        exact absurd hch (List.not_mem_nil ch)
      · intro w p accW hm hnext g k hg hk
        exact ⟨(accW, p),
          paramsLoopP_re_nil (luaType g) w p accW (by exact hnext) k
            (by omega), by simp, by simp⟩
    · rename_i rc hrc
      split at h
      · injection h with h
        refine ⟨[], by rw [← h]; simp, Or.inl rfl, ?_, ?_⟩
        · intro hnt ch hch
          exact absurd hch (List.not_mem_nil ch)
        · intro w p accW hm hnext g k hg hk
          exact ⟨(accW, p),
            paramsLoopP_re_nil (luaType g) w p accW (by exact hnext) k
              (by omega), by simp, by simp⟩
      · rename_i rp hrp
        obtain ⟨hrcE2, hrcM2⟩ := litAtP_some_eq "," u cur rc hrc
        have hcurGet : u.get? cur = some ',' :=
          matchAt_head u cur ',' [] hrcM2
        have hcurlt : cur < u.length := (List.get?_eq_some.mp hcurGet).1
        have hrc22 : rc.2 = cur + 1 := by rw [hrcE2]; rfl
        have brp := strict_pair
          (luaFuncParamP_strict (luaType_strict f)) hrp
        obtain ⟨hp1, hpnt, hpre⟩ := luaFuncParamP_re f hLt u rc.2 rp
          (by omega) (by omega) hrp
        obtain ⟨restD2, hdata2, hshape2, hnt2, hre2⟩ :=
          ih (acc ++ "," ++ rp.1) u rp.2 res (by omega) (by omega) h
        refine ⟨',' :: (rp.1.data ++ restD2), ?_, Or.inr ⟨_, rfl⟩, ?_, ?_⟩
        · rw [hdata2]
          simp only [String.data_append, List.append_assoc]
          rfl
        · intro hnt ch hch
          rcases List.mem_cons.mp hch with hc | hc
          · subst hc; decide
          rcases List.mem_append.mp hc with hc | hc
          · exact hpnt hnt ch hc
          · exact hnt2 hnt ch hc
        · intro w p accW hm hnext g k hg hk
          simp only [List.length_cons, List.length_append] at hg hk
          have s1 := (matchAt_append w p [','] (rp.1.data ++ restD2)).mp
            (by exact hm)
          have mP2 : matchAt w (p + 1) (rp.1.data ++ restD2) = true := s1.2
          have s2 := (matchAt_append w (p + 1) rp.1.data restD2).mp mP2
          have mP := s2.1
          have mRest := s2.2
          have hcommaW : litAtP "," w p = some (",", p + 1) :=
            litAtP_build "," w p (by exact s1.1)
          have hnext' : w.get? (p + 1 + rp.1.data.length + restD2.length)
              = some ')' := by
            rw [show p + 1 + rp.1.data.length + restD2.length
              = p + (',' :: (rp.1.data ++ restD2)).length from by
                simp only [List.length_cons, List.length_append]; omega]
            exact hnext
          have hP : luaFuncParamP (luaType g) w (p + 1)
              = some (rp.1, p + 1 + rp.1.data.length) := by
            rcases hshape2 with hnil | ⟨t2, ht2⟩
            · have hnc : w.get? (p + 1 + rp.1.data.length)
                  = some ')' := by
                rw [show p + 1 + rp.1.data.length
                  = p + 1 + rp.1.data.length + restD2.length from by
                    rw [hnil]; simp]
                exact hnext'
              exact hpre w (p + 1) ')' mP hnc (by decide) (by decide)
                (by decide) (by decide) (by decide) (by decide) g (by omega)
            · have hnc : w.get? (p + 1 + rp.1.data.length)
                  = some ',' := by
                have mRest' := mRest
                rw [ht2] at mRest'
                exact matchAt_head _ _ _ _ mRest'
              exact hpre w (p + 1) ',' mP hnc (by decide) (by decide)
                (by decide) (by decide) (by decide) (by decide) g (by omega)
          obtain ⟨k1, rfl⟩ : ∃ k1, k = k1 + 1 := ⟨k - 1, by omega⟩
          obtain ⟨v, hv, hvdata, hvend⟩ := hre2 w
            (p + 1 + rp.1.data.length) (accW ++ "," ++ rp.1) mRest
            (by exact hnext') g k1 (by omega) (by omega)
          refine ⟨v, ?_, ?_, ?_⟩
          · simp only [paramsLoopP]
            split
            · rename_i hnone
              rw [hcommaW] at hnone
              exact Option.noConfusion hnone
            · rename_i rcw hrcw
              rw [hcommaW] at hrcw
              injection hrcw with hrcw
              subst hrcw
              split
              · rename_i hpn
                have hpn' : luaFuncParamP (luaType g) w (p + 1)
                    = none := hpn
                rw [hP] at hpn'
                exact Option.noConfusion hpn'
              · rename_i rpw hrpw
                have hrpw' : luaFuncParamP (luaType g) w (p + 1)
                    = some rpw := hrpw
                rw [hP] at hrpw'
                injection hrpw' with hrpw'
                rw [← hrpw']
                exact hv
          · rw [hvdata]
            simp only [String.data_append, List.append_assoc]
            rfl
          · rw [hvend]
            simp only [List.length_cons, List.length_append]
            omega

theorem drop_append_len (Al T : List Char) (m : Nat) :
    (Al ++ T).drop (Al.length + m) = T.drop m := by
  induction Al with
  | nil => simp
  | cons a l ihp =>
    rw [List.cons_append,
      show (a :: l).length + m = l.length + m + 1 from by
        simp only [List.length_cons]; omega,
      List.drop_succ_cons]
    exact ihp

theorem matchAt_shift (Al T : List Char) (m : Nat) (S : List Char) :
    matchAt (Al ++ T) (Al.length + m) S = matchAt T m S := by
  unfold matchAt
  rw [drop_append_len]

theorem get?_shift (Al T : List Char) (m : Nat) :
    (Al ++ T).get? (Al.length + m) = T.get? m := by
  rw [List.get?_append_right (Nat.le_add_right _ _)]
  congr 1
  omega

theorem matchAt_append_left (Al T S : List Char) (q : Nat)
    (h : matchAt Al q S = true) : matchAt (Al ++ T) q S = true := by
  unfold matchAt at h ⊢
  rw [List.isPrefixOf_iff_prefix] at h ⊢
  obtain ⟨t2, ht2⟩ := h
  rw [List.drop_append_eq_append_drop, ← ht2, List.append_assoc]
  exact ⟨_, rfl⟩

theorem matchAt_single (u : List Char) (q : Nat) (c : Char)
    (hg : u.get? q = some c) : matchAt u q [c] = true := by
  unfold matchAt
  rw [drop_cons_of_get u q c hg, List.isPrefixOf_iff_prefix]
  exact ⟨_, rfl⟩

theorem keywordP_build_at (s : String) (w : List Char) (p q : Nat)
    (hq : skipWs w p = q) (hm : matchAt w q s.data = true)
    (hprev : PrevOk w q)
    (hnext : ∀ ch, w.get? (q + s.length) = some ch →
      isIdentChar ch = false) :
    keywordP s w p = some (s, q + s.length) := by
  unfold keywordP
  rw [hq, hm]
  have hb2 : boundaryOk w (q + s.length) = true := by
    unfold boundaryOk
    cases hg : w.get? (q + s.length) with
    | none => rfl
    | some ch => simp [hnext ch hg]
  have hb1 : (q == 0 || boundaryOk w (q - 1)) = true := by
    rcases hprev with h | ⟨ch, hg, hni⟩
    · subst h; rfl
    · unfold boundaryOk
      rw [hg]
      simp [hni]
  rw [hb1, hb2]
  rfl

theorem keywordP_none_head_at (s : String) (d0 : Char) (t0 : List Char)
    (hs : s.data = d0 :: t0) (w : List Char) (p q : Nat) (e : Char)
    (hq : skipWs w p = q) (hg : w.get? q = some e) (hne : d0 ≠ e) :
    keywordP s w p = none := by
  apply keywordP_none_head s d0 t0 hs
  rw [hq, hg]
  intro hc
  injection hc with hc
  exact hne hc.symm

theorem keywordP_none_at_idx (s : String) (kk : Nat) (d : Char)
    (hk : s.data.get? kk = some d) (w : List Char) (p q : Nat) (e : Char)
    (hq : skipWs w p = q) (hg : w.get? (q + kk) = some e) (hne : d ≠ e) :
    keywordP s w p = none := by
  apply keywordP_none_at s kk d hk
  rw [hq, hg]
  intro hc
  injection hc with hc
  exact hne hc.symm

theorem whiteP_build (w : List Char) (q : Nat) (ws : String)
    (hne : ws.data ≠ [])
    (hm : matchAt w q ws.data = true)
    (hall : ∀ ch ∈ ws.data, isWhiteChar ch = true)
    (hstop : ∀ ch, w.get? (q + ws.data.length) = some ch →
      isWhiteChar ch = false) :
    whiteP w q = some (ws, q + ws.data.length) := by
  have hr := runLen_of_block isWhiteChar w q ws.data hm hall hstop
  unfold whiteP
  rw [hr, if_neg (by intro hz; exact hne (List.length_eq_zero.mp hz)),
    matchAt_sub w q ws.data hm]

theorem descOpt_nl (u : List Char) (i : Nat) (hsk : skipWs u i = i)
    (hg : u.get? i = some '\n') : descOpt u i = ("", i) := by
  unfold descOpt
  rw [hsk, runLen_zero isDotChar u i '\n' hg (by decide)]
  rfl

theorem lineEndP_nl (u : List Char) (i : Nat) (hsk : skipWs u i = i)
    (hg : u.get? i = some '\n') : lineEndP u i = some ("\n", i + 1) := by
  unfold lineEndP
  rw [hsk, hg]
  rfl

theorem luaType_build (f : Nat) (u : List Char) (i : Nat) (v : String × Nat)
    (hf : 1 ≤ f)
    (h1 : nonUnionP (luaType f) f u i = some v)
    (hsk : skipWs u v.2 = v.2)
    (h2 : litAtP "|" u v.2 = none) :
    luaType (f + 1) u i = some v := by
  obtain ⟨f1, rfl⟩ : ∃ f1, f = f1 + 1 := ⟨f - 1, by omega⟩
  show (unionTypeP (luaType (f1 + 1)) (f1 + 1) u i
    <|> nonUnionP (luaType (f1 + 1)) (f1 + 1) u i) = some v
  have hu : unionTypeP (luaType (f1 + 1)) (f1 + 1) u i = some v := by
    unfold unionTypeP
    rw [h1, Option.some_bind, hsk]
    simp only [unionLoopP]
    rw [hsk, h2]
  rw [hu]
  rfl

theorem subparamsLoopP_step (kk : Nat) (u : List Char) (cur : Nat)
    (rp : LuaParam × Nat) (h : subparamP u cur = some rp) :
    subparamsLoopP (kk + 1) u cur
      = (subparamsLoopP kk u rp.2).map fun rest =>
          (rp.1 :: rest.1, rest.2) := by
  simp only [subparamsLoopP]
  rw [h]

theorem subparamsLoopP_stop (kk : Nat) (u : List Char) (cur : Nat)
    (h : subparamP u cur = none) :
    subparamsLoopP (kk + 1) u cur = some ([], cur) := by
  simp only [subparamsLoopP]
  rw [h]

theorem tagsLoopP_step (kk : Nat) (u : List Char) (cur : Nat)
    (rt : Tok × Nat) (h : tagP u cur = some rt) :
    tagsLoopP (kk + 1) u cur
      = (tagsLoopP kk u rt.2).map fun rest => (rt.1 :: rest.1, rest.2) := by
  simp only [tagsLoopP]
  rw [h]

theorem tagsLoopP_stop (kk : Nat) (u : List Char) (cur : Nat)
    (h : tagP u cur = none) :
    tagsLoopP (kk + 1) u cur = some ([], cur) := by
  simp only [tagsLoopP]
  rw [h]

theorem tagBlockP_none_lit (tagLit : String) (u : List Char) (i : Nat)
    (h : litP tagLit u i = none) : tagBlockP tagLit u i = none := by
  unfold tagBlockP
  rw [h]
  rfl

theorem subparam_core (k : Nat) (u : List Char)
    (hu : u = "@param a table\n".data
      ++ (List.replicate k ' ' ++ "b string\n".data))
    (hk : 1 ≤ k) :
    annotationP u = some [Tok.param (LuaParam.mk "a" "table" ""
      [LuaParam.mk "b" "string" "" []])] := by
  have hlen : u.length = k + 24 := by
    rw [hu, List.length_append, List.length_append, List.length_replicate,
      show ("@param a table\n".data).length = 15 from rfl,
      show ("b string\n".data).length = 9 from rfl]
    omega
  have hmL1 : matchAt u 0 ("@param a table\n".data) = true := by
    rw [hu]
    exact matchAt_refl _ _
  have hg0 : u.get? 0 = some '@' := align_get u 0 _ hmL1 0 '@' (by decide)
  have hg6 : u.get? 6 = some ' ' := align_get u 0 _ hmL1 6 ' ' (by decide)
  have hg7 : u.get? 7 = some 'a' := align_get u 0 _ hmL1 7 'a' (by decide)
  have hg8 : u.get? 8 = some ' ' := align_get u 0 _ hmL1 8 ' ' (by decide)
  have hg9 : u.get? 9 = some 't' := align_get u 0 _ hmL1 9 't' (by decide)
  have hg14 : u.get? 14 = some '\n' :=
    align_get u 0 _ hmL1 14 '\n' (by decide)
  have hTB : ∀ off, u.get? (15 + k + off) = ("b string\n".data).get? off := by
    intro off
    rw [hu]
    have h1 := get?_shift "@param a table\n".data
      (List.replicate k ' ' ++ "b string\n".data) (k + off)
    have h2 := get?_shift (List.replicate k ' ') "b string\n".data off
    rw [List.length_replicate] at h2
    rw [show 15 + k + off = ("@param a table\n".data).length + (k + off)
      from by rw [show ("@param a table\n".data).length = 15 from rfl]; omega]
    rw [h1]
    exact h2
  have hgb : u.get? (15 + k) = some 'b' := hTB 0
  have hgsp : u.get? (15 + k + 1) = some ' ' := hTB 1
  have hgs : u.get? (15 + k + 2) = some 's' := hTB 2
  have hgnl2 : u.get? (15 + k + 8) = some '\n' := hTB 8
  have hgend : u.get? (15 + k + 9) = none := hTB 9
  have hm0 : matchAt u 0 ("@param".data) = true :=
    ((matchAt_append u 0 "@param".data (" a table\n".data)).mp
      (by exact hmL1)).1
  have hm9 : matchAt u 9 ("table".data) = true := by
    have hs1 := ((matchAt_append u 0 ("@param a ".data)
      ("table\n".data)).mp (by exact hmL1)).2
    exact ((matchAt_append u 9 "table".data ("\n".data)).mp
      (by exact hs1)).1
  have hm15 : matchAt u 15 (List.replicate k ' ') = true := by
    rw [hu, show (15 : Nat) = ("@param a table\n".data).length + 0 from rfl,
      matchAt_shift]
    exact matchAt_refl _ _
  have hm17k : matchAt u (15 + k + 2) ("string".data) = true := by
    rw [hu, show 15 + k + 2 = ("@param a table\n".data).length + (k + 2)
        from by rw [show ("@param a table\n".data).length = 15 from rfl]
                omega,
      matchAt_shift,
      show k + 2 = (List.replicate k ' ').length + 2 from by
        rw [List.length_replicate],
      matchAt_shift]
    decide
  have hsk0 : skipWs u 0 = 0 := skipWs_id u 0 '@' hg0 (by decide)
  have hsk6 : skipWs u 6 = 7 := by
    have hr : runLen isSkipWs u 6 = 1 := by
      have h := runLen_of_block isSkipWs u 6 [' ']
        (matchAt_single u 6 ' ' hg6)
        (by intro ch hch; cases List.mem_singleton.mp hch; decide)
        (fun ch hgx => by
          have h3 := hg7.symm.trans hgx
          injection h3 with h3
          rw [← h3]
          decide)
      exact h
    show 6 + runLen isSkipWs u 6 = 7
    rw [hr]
  have hsk8 : skipWs u 8 = 9 := by
    have hr : runLen isSkipWs u 8 = 1 := by
      have h := runLen_of_block isSkipWs u 8 [' ']
        (matchAt_single u 8 ' ' hg8)
        (by intro ch hch; cases List.mem_singleton.mp hch; decide)
        (fun ch hgx => by
          have h3 := hg9.symm.trans hgx
          injection h3 with h3
          rw [← h3]
          decide)
      exact h
    show 8 + runLen isSkipWs u 8 = 9
    rw [hr]
  have hsk14 : skipWs u 14 = 14 := skipWs_id u 14 '\n' hg14 (by decide)
  have hskB : skipWs u (15 + k) = 15 + k :=
    skipWs_id u (15 + k) 'b' hgb (by decide)
  have hskSp : skipWs u (15 + k + 1) = 15 + k + 2 := by
    have hr : runLen isSkipWs u (15 + k + 1) = 1 := by
      have h := runLen_of_block isSkipWs u (15 + k + 1) [' ']
        (matchAt_single u (15 + k + 1) ' ' hgsp)
        (by intro ch hch; cases List.mem_singleton.mp hch; decide)
        (fun ch hgx => by
          have h3 := hgs.symm.trans hgx
          injection h3 with h3
          rw [← h3]
          decide)
      exact h
    show 15 + k + 1 + runLen isSkipWs u (15 + k + 1) = 15 + k + 2
    rw [hr]
  have hskS : skipWs u (15 + k + 2) = 15 + k + 2 :=
    skipWs_id u (15 + k + 2) 's' hgs (by decide)
  have hskNl2 : skipWs u (15 + k + 8) = 15 + k + 8 :=
    skipWs_id u (15 + k + 8) '\n' hgnl2 (by decide)
  have hskEnd : skipWs u (15 + k + 9) = 15 + k + 9 :=
    skipWs_id_of_none u (15 + k + 9) hgend
  -- summary
  have hsum : summaryP u = none := by
    unfold summaryP
    rw [hsk0, hg0]
    rfl
  have hsumToks : summaryToks u = ([], 0) := by
    unfold summaryToks
    rw [hsum, hsk0]
  -- the @param tag
  have hlitParam : litP "@param" u 0 = some ("@param", 6) := by
    have hb := litP_build "@param" u 0 (by rw [hsk0]; exact hm0)
    rw [hsk0] at hb
    exact hb
  have hvarA : varnameP u 6 = some ("a", 8) := by
    unfold varnameP
    rw [hsk6]
    exact wordAtP_build isAsciiAlpha (fun c => isAsciiAlphanum c || c = '_')
      u 7 'a' [] (matchAt_single u 7 'a' hg7) (by decide)
      (by intro ch hch; exact absurd hch (List.not_mem_nil ch))
      (fun ch hgx => by
        have h3 := hg8.symm.trans hgx
        injection h3 with h3
        rw [← h3]
        decide)
  have hkwTable : keywordP "table" u 8 = some ("table", 14) :=
    keywordP_build_at "table" u 8 9 hsk8 hm9
      (Or.inr ⟨' ', by rw [show (9 : Nat) - 1 = 8 from rfl]; exact hg8,
        by decide⟩)
      (fun ch hgx => by
        have h3 := hg14.symm.trans hgx
        injection h3 with h3
        rw [← h3]
        decide)
  have hlitLt : litP "<" u 14 = none :=
    litP_none_of_ne "<" '<' [] rfl u 14
      (fun ch hgx => by
        rw [hsk14] at hgx
        have h3 := hg14.symm.trans hgx
        injection h3 with h3
        rw [← h3]
        decide)
  have htbl8 : luaTableP (luaType (u.length + 1)) u 8 = none :=
    luaTableP_none_lit _ u 8 ("table", 14) hkwTable hlitLt
  have hlist8 : luaListP u 8 = none := by
    unfold luaListP
    rw [keywordP_none_head_at "string[]" 's' _ rfl u 8 9 't' hsk8 hg9
        (by decide),
      keywordP_none_head_at "integer[]" 'i' _ rfl u 8 9 't' hsk8 hg9
        (by decide),
      keywordP_none_head_at "number[]" 'n' _ rfl u 8 9 't' hsk8 hg9
        (by decide),
      keywordP_none_head_at "any[]" 'a' _ rfl u 8 9 't' hsk8 hg9
        (by decide),
      keywordP_none_head_at "boolean[]" 'b' _ rfl u 8 9 't' hsk8 hg9
        (by decide)]
    rfl
  have hfun8 : luaFuncP (luaType (u.length + 1)) (u.length + 1) u 8
      = none :=
    luaFuncP_none_kw _ _ u 8
      (keywordP_none_head_at "fun" 'f' _ rfl u 8 9 't' hsk8 hg9 (by decide))
  have hprim8 : primitiveP u 8 = some ("table", 14) := by
    unfold primitiveP
    rw [keywordP_none_head_at "nil" 'n' _ rfl u 8 9 't' hsk8 hg9
        (by decide),
      keywordP_none_head_at "string" 's' _ rfl u 8 9 't' hsk8 hg9
        (by decide),
      keywordP_none_head_at "integer" 'i' _ rfl u 8 9 't' hsk8 hg9
        (by decide),
      keywordP_none_head_at "boolean" 'b' _ rfl u 8 9 't' hsk8 hg9
        (by decide),
      keywordP_none_head_at "number" 'n' _ rfl u 8 9 't' hsk8 hg9
        (by decide),
      hkwTable]
    simp only [Option.none_orElse, Option.some_orElse]
  have hnu8 : nonUnionP (luaType (u.length + 1)) (u.length + 1) u 8
      = some ("table", 14) :=
    nonUnionP_eval _ _ u 8 _ hlist8 htbl8 hfun8 hprim8
  have hpipe14 : litAtP "|" u 14 = none :=
    litAtP_none "|" u 14 (matchAt_false_of_head u 14 '|' []
      (by rw [hg14]; decide))
  have hty8 : luaTypeF u 8 = some ("table", 14) := by
    show luaType (u.length + 2) u 8 = some ("table", 14)
    exact luaType_build (u.length + 1) u 8 ("table", 14) (by omega)
      hnu8 hsk14 hpipe14
  have hdesc14 : descOpt u 14 = ("", 14) := descOpt_nl u 14 hsk14 hg14
  have hle14 : lineEndP u 14 = some ("\n", 15) := lineEndP_nl u 14 hsk14 hg14
  -- the sub-parameter line
  have hls15 : lineStartOk u 15 = true := by
    show ((15 : Nat) == 0 || u.get? 14 == some '\n') = true
    rw [hg14]
    rfl
  have hRlen : (String.mk (List.replicate k ' ')).data.length = k :=
    List.length_replicate k ' '
  have hwhite15 : whiteP u 15 = some (String.mk (List.replicate k ' '),
      15 + k) := by
    have hb := whiteP_build u 15 (String.mk (List.replicate k ' '))
      (by
        intro hz
        have h0 := congrArg List.length hz
        rw [hRlen] at h0
        simp at h0
        omega)
      (by exact hm15)
      (by
        intro ch hch
        have := List.eq_of_mem_replicate (by exact hch)
        rw [this]
        decide)
      (fun ch hgx => by
        rw [hRlen] at hgx
        have h3 := hgb.symm.trans hgx
        injection h3 with h3
        rw [← h3]
        decide)
    rw [hRlen] at hb
    exact hb
  have hvarB : varnameP u (15 + k) = some ("b", 15 + k + 1) := by
    unfold varnameP
    rw [hskB]
    exact wordAtP_build isAsciiAlpha (fun c => isAsciiAlphanum c || c = '_')
      u (15 + k) 'b' [] (matchAt_single u (15 + k) 'b' hgb) (by decide)
      (by intro ch hch; exact absurd hch (List.not_mem_nil ch))
      (fun ch hgx => by
        have h3 := hgsp.symm.trans hgx
        injection h3 with h3
        rw [← h3]
        decide)
  have hkwString : keywordP "string" u (15 + k + 1)
      = some ("string", 15 + k + 8) :=
    keywordP_build_at "string" u (15 + k + 1) (15 + k + 2) hskSp hm17k
      (Or.inr ⟨' ', by
        rw [show 15 + k + 2 - 1 = 15 + k + 1 from by omega]
        exact hgsp, by decide⟩)
      (fun ch hgx => by
        have h3 := hgnl2.symm.trans hgx
        injection h3 with h3
        rw [← h3]
        decide)
  have htblB : luaTableP (luaType (u.length + 1)) u (15 + k + 1) = none :=
    luaTableP_none_kw _ u (15 + k + 1)
      (keywordP_none_head_at "table" 't' _ rfl u (15 + k + 1) (15 + k + 2)
        's' hskSp hgs (by decide))
  have hlistB : luaListP u (15 + k + 1) = none := by
    unfold luaListP
    rw [keywordP_none_at_idx "string[]" 6 '[' rfl u (15 + k + 1)
        (15 + k + 2) '\n' hskSp (by exact hgnl2) (by decide),
      keywordP_none_head_at "integer[]" 'i' _ rfl u (15 + k + 1)
        (15 + k + 2) 's' hskSp hgs (by decide),
      keywordP_none_head_at "number[]" 'n' _ rfl u (15 + k + 1)
        (15 + k + 2) 's' hskSp hgs (by decide),
      keywordP_none_head_at "any[]" 'a' _ rfl u (15 + k + 1)
        (15 + k + 2) 's' hskSp hgs (by decide),
      keywordP_none_head_at "boolean[]" 'b' _ rfl u (15 + k + 1)
        (15 + k + 2) 's' hskSp hgs (by decide)]
    rfl
  have hfunB : luaFuncP (luaType (u.length + 1)) (u.length + 1) u
      (15 + k + 1) = none :=
    luaFuncP_none_kw _ _ u (15 + k + 1)
      (keywordP_none_head_at "fun" 'f' _ rfl u (15 + k + 1) (15 + k + 2)
        's' hskSp hgs (by decide))
  have hprimB : primitiveP u (15 + k + 1) = some ("string", 15 + k + 8) := by
    unfold primitiveP
    rw [keywordP_none_head_at "nil" 'n' _ rfl u (15 + k + 1) (15 + k + 2)
        's' hskSp hgs (by decide),
      hkwString]
    simp only [Option.none_orElse, Option.some_orElse]
  have hnuB : nonUnionP (luaType (u.length + 1)) (u.length + 1) u
      (15 + k + 1) = some ("string", 15 + k + 8) :=
    nonUnionP_eval _ _ u (15 + k + 1) _ hlistB htblB hfunB hprimB
  have hpipeB : litAtP "|" u (15 + k + 8) = none :=
    litAtP_none "|" u (15 + k + 8) (matchAt_false_of_head u (15 + k + 8)
      '|' [] (by rw [hgnl2]; decide))
  have htyB : luaTypeF u (15 + k + 1) = some ("string", 15 + k + 8) := by
    show luaType (u.length + 2) u (15 + k + 1) = some ("string", 15 + k + 8)
    exact luaType_build (u.length + 1) u (15 + k + 1) ("string", 15 + k + 8)
      (by omega) hnuB hskNl2 hpipeB
  have hdescB : descOpt u (15 + k + 8) = ("", 15 + k + 8) :=
    descOpt_nl u (15 + k + 8) hskNl2 hgnl2
  have hleB : lineEndP u (15 + k + 8) = some ("\n", 15 + k + 8 + 1) :=
    lineEndP_nl u (15 + k + 8) hskNl2 hgnl2
  have hsubp : subparamP u 15
      = some (LuaParam.mk "b" "string" "" [], 15 + k + 9) := by
    unfold subparamP
    rw [if_pos hls15, hwhite15]
    simp only [Option.some_bind]
    rw [hvarB]
    simp only [Option.some_bind]
    rw [htyB]
    simp only [Option.some_bind]
    rw [hdescB]
    simp only
    rw [hleB]
    simp only [Option.map_some']
  have hsubpEnd : subparamP u (15 + k + 9) = none := by
    have hwnone : whiteP u (15 + k + 9) = none := by
      unfold whiteP
      rw [runLen_zero_of_none isWhiteChar u (15 + k + 9) hgend]
      rfl
    unfold subparamP
    rw [hwnone]
    simp only [Option.none_bind]
    rw [ite_self]
  have hloopB : subparamsLoopP (u.length + 2) u 15
      = some ([LuaParam.mk "b" "string" "" []], 15 + k + 9) := by
    rw [show u.length + 2 = u.length + 1 + 1 from rfl,
      subparamsLoopP_step (u.length + 1) u 15 _ hsubp]
    simp only
    rw [subparamsLoopP_stop u.length u (15 + k + 9) hsubpEnd]
    rfl
  have htagParam : tagParamP u 0
      = some (Tok.param (LuaParam.mk "a" "table" ""
          [LuaParam.mk "b" "string" "" []]), 15 + k + 9) := by
    unfold tagParamP
    rw [hlitParam]
    simp only [Option.some_bind]
    rw [hvarA]
    simp only [Option.some_bind]
    rw [hty8]
    simp only [Option.some_bind]
    rw [hdesc14]
    simp only
    rw [hle14]
    simp only [Option.some_bind]
    rw [hloopB]
    simp only [Option.map_some']
  have htag0 : tagP u 0
      = some (Tok.param (LuaParam.mk "a" "table" ""
          [LuaParam.mk "b" "string" "" []]), 15 + k + 9) := by
    unfold tagP
    rw [htagParam]
    simp only [Option.some_orElse]
  have hmeos : ∀ s : List Char, 1 ≤ s.length →
      matchAt u (skipWs u (15 + k + 9)) s = false := by
    intro s hs1
    rw [hskEnd]
    exact matchAt_eos u (15 + k + 9) s hs1 (by omega)
  have htagEnd : tagP u (15 + k + 9) = none := by
    have h1 : tagParamP u (15 + k + 9) = none := by
      unfold tagParamP
      rw [litP_none "@param" u (15 + k + 9) (hmeos _ (by decide))]
      rfl
    have h2 : tagPrivateP u (15 + k + 9) = none := by
      unfold tagPrivateP
      rw [keywordP_none_of_match_false "@private" u (15 + k + 9)
        (hmeos _ (by decide))]
      rfl
    have h3 : tagReturnP u (15 + k + 9) = none := by
      unfold tagReturnP
      rw [litP_none "@return" u (15 + k + 9) (hmeos _ (by decide))]
      rfl
    have h4 : tagExampleP u (15 + k + 9) = none := by
      unfold tagExampleP
      rw [tagBlockP_none_lit "@example" u (15 + k + 9)
        (litP_none "@example" u (15 + k + 9) (hmeos _ (by decide)))]
      rfl
    have h5 : tagNoteP u (15 + k + 9) = none := by
      unfold tagNoteP
      rw [tagBlockP_none_lit "@note" u (15 + k + 9)
        (litP_none "@note" u (15 + k + 9) (hmeos _ (by decide)))]
      rfl
    have h6 : tagDeprecatedP u (15 + k + 9) = none := by
      unfold tagDeprecatedP
      rw [keywordP_none_of_match_false "@deprecated" u (15 + k + 9)
        (hmeos _ (by decide))]
      rfl
    unfold tagP
    rw [h1, h2, h3, h4, h5, h6]
    rfl
  have hloopT : tagsLoopP (u.length + 2) u 0
      = some ([Tok.param (LuaParam.mk "a" "table" ""
          [LuaParam.mk "b" "string" "" []])], 15 + k + 9) := by
    rw [show u.length + 2 = u.length + 1 + 1 from rfl,
      tagsLoopP_step (u.length + 1) u 0 _ htag0]
    simp only
    rw [tagsLoopP_stop u.length u (15 + k + 9) htagEnd]
    rfl
  have hsaw : skipAllWhite u (15 + k + 9) = u.length := by
    unfold skipAllWhite
    rw [runLen_zero_of_none isWhiteChar u (15 + k + 9) hgend]
    omega
  unfold annotationP
  simp only [Option.some_bind]
  rw [hsumToks]
  simp only
  rw [hsk0, hloopT]
  simp only [Option.some_bind]
  rw [if_pos hsaw]
  rfl

/-- C2: corrected claim.  After a `@param` tag line, a following line
whose stripped text begins with ANY positive number of whitespace
characters (here `k ≥ 1` spaces) is consumed as a sub-parameter of that
parameter (`White()` matches one or more whitespace characters, not
exactly one). -/
theorem subparam_any_indent (k : Nat) (hk : 1 ≤ k) :
    parseAnnotation "f" ["---@param a table\n",
      "---" ++ String.mk (List.replicate k ' ') ++ "b string\n"]
    = Except.ok (LuaFunc.mk "f" ""
        [LuaParam.mk "a" "table" "" [LuaParam.mk "b" "string" "" []]]
        [] "" "" false false) := by
  have hU : annotationText ["---@param a table\n",
      "---" ++ String.mk (List.replicate k ' ') ++ "b string\n"]
      = "@param a table\n".data
        ++ (List.replicate k ' ' ++ "b string\n".data) := by
    unfold annotationText
    rw [List.map_cons, List.map_cons, List.map_nil]
    rw [show ("---@param a table\n" : String).data.drop 3
      = "@param a table\n".data from rfl]
    rw [show ("---" ++ String.mk (List.replicate k ' ')
        ++ "b string\n").data.drop 3
      = List.replicate k ' ' ++ "b string\n".data from rfl]
    simp only [List.flatten_cons, List.flatten_nil]
    rw [List.append_nil]
    rw [expandTabs_eq_self _ ?notab 0]
    case notab =>
      intro ch hch
      rcases List.mem_append.mp hch with h | h
      · have hall : ∀ c ∈ ("@param a table\n".data), c ≠ Char.ofNat 9 := by
          decide
        exact hall ch h
      rcases List.mem_append.mp h with h | h
      · rw [List.eq_of_mem_replicate h]
        decide
      · have hall : ∀ c ∈ ("b string\n".data), c ≠ Char.ofNat 9 := by
          decide
        exact hall ch h
  unfold parseAnnotation
  rw [hU, subparam_core k _ rfl hk]
  rfl

/-- Witness for C2's corrected claim at three spaces of indentation. -/
theorem subparam_any_indent_witness : 1 ≤ 3 ∧
    parseAnnotation "f" ["---@param a table\n",
      "---" ++ String.mk (List.replicate 3 ' ') ++ "b string\n"]
    = Except.ok (LuaFunc.mk "f" ""
        [LuaParam.mk "a" "table" "" [LuaParam.mk "b" "string" "" []]]
        [] "" "" false false) :=
  ⟨by decide, subparam_any_indent 3 (by decide)⟩

end NvimDocTools
